import Mathlib

/-!
# nginx-reaper: a shallow embedding of the memory accountant and the reaper policy

Go `uint64` values are natural numbers below `2 ^ 64`, with the wrap-around of the
machine operations written out (`% 2 ^ 64`).  Go `int` values are integers; a
`time.Duration` that is subtracted from is an `int64` with its wrap-around written out.
Go `float64` values are exact dyadic fractions produced by an explicit
round-to-nearest-even step.  Functions that return `(value, error)` return the
same tuple here, the error being `none` for Go's `nil`.

Besides the memory accountant (`internal/procps`) and the reaper (`internal/reaper`), the
file embeds the scheduler (`internal/ticker`), the shutdown countdown, the `/config` handler
(`internal/server`, `internal/log`) and the OOM event loop of `cmd/memory-events`.
-/

namespace NginxReaper

/-- Go `error` values; only their presence matters to the callers modelled here. -/
abbrev Error := String

/-- The modulus of `uint64` arithmetic. -/
def uint64Size : Nat := 2 ^ 64

/-- The constant `math.MaxUint64`. -/
def MaxUint64 : Nat := 2 ^ 64 - 1

/-- Go `a - b` on `uint64` operands: subtraction modulo `2 ^ 64`. -/
def subUint64 (a b : Nat) : Nat := (a + uint64Size - b % uint64Size) % uint64Size

/-- Go `a * b` on `uint64` operands: multiplication modulo `2 ^ 64`. -/
def mulUint64 (a b : Nat) : Nat := (a * b) % uint64Size

/-! ## IEEE-754 binary64 arithmetic on non-negative values -/

/-- Floor of the base-two logarithm, by halving (`fuel` bounds the number of halvings). -/
def ilog2Aux : Nat → Nat → Nat
  | 0, _ => 0
  | fuel + 1, n => if n < 2 then 0 else ilog2Aux fuel (n / 2) + 1

/-- Floor of the base-two logarithm of `n` (and `0` for `n = 0`). -/
def ilog2 (n : Nat) : Nat := ilog2Aux n n

/-- A finite non-negative `float64` value, held exactly as the fraction `num / den`. -/
structure Float64 where
  num : Nat
  den : Nat
deriving DecidableEq, Repr

namespace Float64

/-- The rational number a `Float64` stands for. -/
def toRat (a : Float64) : ℚ := (a.num : ℚ) / (a.den : ℚ)

/-- Round the exact non-negative rational `n / d` (with `d > 0`) to the nearest `float64`,
ties to even: numerator or denominator is scaled by a power of two so that the integer
quotient has exactly 53 bits, the quotient is rounded to an integer, and the scaling is
undone.  The exponent range is not modelled: every value the program forms lies between
`2 ^ (-64)` and `2 ^ 71`, all normal. -/
def round (n d : Nat) : Float64 :=
  if n = 0 then ⟨0, 1⟩ else
  -- first guess: `2 ^ 52 ≤ (n * 2 ^ up) / (d * 2 ^ down) < 2 ^ 54`
  let up := 53 + ilog2 d - ilog2 n
  let down := ilog2 n - (53 + ilog2 d)
  let n0 := n * 2 ^ up
  let d0 := d * 2 ^ down
  -- one more halving when the quotient has 54 bits
  let k := if n0 / d0 < 2 ^ 53 then 1 else 2
  let d1 := k * d0
  let m := n0 / d1
  let r := n0 % d1
  let m1 := if 2 * r > d1 ∨ (2 * r = d1 ∧ m % 2 = 1) then m + 1 else m
  -- `n / d = (n0 / d1) * (k * 2 ^ down) / 2 ^ up`
  ⟨m1 * (k * 2 ^ down), 2 ^ up⟩

/-- The conversion `float64(x)` of a `uint64`. -/
def ofUint64 (x : Nat) : Float64 := round x 1

/-- The `float64` quotient `a / b`, correctly rounded. -/
def div (a b : Float64) : Float64 := round (a.num * b.den) (a.den * b.num)

/-- The `float64` product `a * b`, correctly rounded. -/
def mul (a b : Float64) : Float64 := round (a.num * b.num) (a.den * b.den)

/-- The constant `100` as a `float64` (exact). -/
def hundred : Float64 := ⟨100, 1⟩

/-- Lower factor of one rounding: `1 - 2 ^ (-53)`. -/
def errLo : ℚ := (2 ^ 53 - 1) / 2 ^ 53

/-- Upper factor of one rounding: `1 + 2 ^ (-53)`. -/
def errHi : ℚ := (2 ^ 53 + 1) / 2 ^ 53

/-- The conversion `int(a)`: truncation toward zero. -/
def toInt (a : Float64) : Int := ((a.num / a.den : Nat) : Int)

end Float64

namespace procps

/-! ## `internal/procps/memory_info.go` -/

def v1LimitFile : String := "memory.limit_in_bytes"
def v1UsageFile : String := "memory.usage_in_bytes"
def v2LimitFile : String := "memory.max"
def v2UsageFile : String := "memory.current"

/-- The type `MemoryInfo`: a memory snapshot in bytes (`uint64` fields). -/
structure MemoryInfo where
  Total : Nat
  Available : Nat
deriving DecidableEq, Repr

/-- The method `AvailableMemoryPercent`. -/
def MemoryInfo.AvailableMemoryPercent (m : MemoryInfo) : Int :=
  if m.Total = 0 ∨ m.Available ≥ m.Total then
    100
  else
    Float64.toInt
      (Float64.mul (Float64.div (Float64.ofUint64 m.Available) (Float64.ofUint64 m.Total))
        Float64.hundred)

/-- The hierarchy modes of `cgroups.Mode()`. -/
inductive CGMode where
  | Unavailable
  | Legacy
  | Hybrid
  | Unified
deriving DecidableEq, Repr

/-- The fields of `procfs.Meminfo` that are read (`*uint64`, in kibibytes). -/
structure Meminfo where
  MemTotal : Option Nat
  MemAvailable : Option Nat
deriving DecidableEq, Repr

/-- One observable access to the operating system. -/
inductive Access where
  | meminfo
  | cgroupsMode
  | cgroup1PidPath (pid : Int)
  | cgroup2PidGroupPath (pid : Int)
  | cgroup1RootPath
  | stat (path : String)
  | openFile (path : String)
deriving DecidableEq, Repr

/-- Whether an access belongs to cgroup accounting (everything but the meminfo table). -/
def Access.isCgroup : Access → Bool
  | Access.meminfo => false
  | _ => true

/-- The paths of the files opened, in order, among a list of accesses. -/
def openedFiles : List Access → List String
  | [] => []
  | Access.openFile path :: rest => path :: openedFiles rest
  | _ :: rest => openedFiles rest

/-- The `/`-separated elements of a path. -/
def pathSplit : List Char → List (List Char)
  | [] => [[]]
  | c :: cs =>
    match pathSplit cs with
    | [] => [[]]
    | seg :: segs => if c = '/' then [] :: seg :: segs else (c :: seg) :: segs

/-- One element of the scan of Go's `path.Clean`; `stack` holds the kept elements, last
first.  Empty and `.` elements vanish, `..` removes the element before it (or vanishes at
the root, or stays when nothing precedes it in a relative path). -/
def pathCleanStep (rooted : Bool) (stack : List (List Char)) (seg : List Char) :
    List (List Char) :=
  if seg = [] ∨ seg = ['.'] then stack
  else if seg = ['.', '.'] then
    match stack with
    | [] => if rooted then [] else [seg]
    | top :: rest => if top = ['.', '.'] then seg :: top :: rest else rest
  else seg :: stack

/-- Go's `path.Clean`. -/
def pathClean (path : String) : String :=
  let rooted := path.data.head? = some '/'
  let kept := ((pathSplit path.data).foldl (pathCleanStep rooted) []).reverse
  let body := String.intercalate "/" (kept.map String.mk)
  if rooted then "/" ++ body else if body = "" then "." else body

/-- Go's `path.Join`: the non-empty elements joined by `/`, then cleaned. -/
def pathJoin (elem : List String) : String :=
  match elem.filter (fun e => e ≠ "") with
  | [] => ""
  | parts => pathClean (String.intercalate "/" parts)

/-- What the operating system and the injected lookups answer during one snapshot. -/
structure Sys where
  /-- `procfs.NewFS(PROC_MOUNT_POINT)` followed by `Meminfo()`. -/
  meminfo : Except Error Meminfo
  /-- The value of `CGROUP_MOUNT_POINT`, `/sys/fs/cgroup` by default. -/
  cgroupMountPoint : String
  /-- The package variable `cgroupsMode`. -/
  cgroupsMode : CGMode
  /-- The package variable `cgroup1PidPath`, applied to the memory subsystem. -/
  cgroup1PidPath : Int → Except Error String
  /-- The package variable `cgroup2PidGroupPath`. -/
  cgroup2PidGroupPath : Int → Except Error String
  /-- The path returned by `cgroup1.RootPath(cgroup1.Memory)`. -/
  cgroup1RootPath : String
  /-- Whether `os.Stat` succeeds. -/
  stat : String → Bool
  /-- The bytes of a file, `none` when `os.Open` or the `Read` fails for another reason than
  the end of the file (no such file, a directory, no permission). -/
  file : String → Option (List UInt8)

/-- The table `asciiSpace` of Go's `strings` package. -/
def asciiSpace (c : UInt8) : Bool :=
  c = 9 ∨ c = 10 ∨ c = 11 ∨ c = 12 ∨ c = 13 ∨ c = 32

/-- The Unicode-aware slow path of `strings.TrimSpace`, entered at the first byte `≥ 0x80`. -/
structure UnicodeTrim where
  /-- The call `TrimFunc(s, unicode.IsSpace)`. -/
  trimFunc : List UInt8 → List UInt8
  /-- The call `TrimRightFunc(s, unicode.IsSpace)`. -/
  trimRightFunc : List UInt8 → List UInt8

/-- Second loop of `strings.TrimSpace`, scanning from the end; the argument is the
remaining string reversed. -/
def trimSpaceRight (u : UnicodeTrim) : List UInt8 → List UInt8
  | [] => []
  | c :: rs =>
    if c ≥ 128 then u.trimRightFunc (c :: rs).reverse
    else if asciiSpace c then trimSpaceRight u rs
    else (c :: rs).reverse

/-- Go's `strings.TrimSpace` on a byte string. -/
def TrimSpace (u : UnicodeTrim) : List UInt8 → List UInt8
  | [] => []
  | c :: s =>
    if c ≥ 128 then u.trimFunc (c :: s)
    else if asciiSpace c then TrimSpace u s
    else trimSpaceRight u (c :: s).reverse

/-- The digit loop of `strconv.ParseUint(s, 10, 64)`; `n` is the value read so far. -/
def parseUintLoop : List UInt8 → Nat → Nat × Option Error
  | [], n => (n, none)
  | c :: s, n =>
    if 48 ≤ c ∧ c ≤ 57 then
      -- `cutoff = maxUint64/10 + 1`
      if n ≥ MaxUint64 / 10 + 1 then (MaxUint64, some "value out of range")
      else
        let n1 := n * 10 + (c.toNat - 48)
        if n1 > MaxUint64 then (MaxUint64, some "value out of range")
        else parseUintLoop s n1
    else (0, some "invalid syntax")

/-- Go's `strconv.ParseUint(s, 10, 64)`. -/
def ParseUint (s : List UInt8) : Nat × Option Error :=
  if s = [] then (0, some "invalid syntax") else parseUintLoop s 0

/-- The bytes of the literal `"max"`. -/
def maxLiteral : List UInt8 := [109, 97, 120]

/-- The function `readContentUint64` applied to the content of the opened file: one `Read`
into a 32-byte buffer (which fills it up to the end of the file and reports `io.EOF` when
nothing is left), `TrimSpace`, the `"max"` test, `ParseUint`. -/
def parseContentUint64 (u : UnicodeTrim) (content : List UInt8) : Nat × Option Error :=
  if content = [] then (0, some "EOF")
  else
    let value := TrimSpace u (content.take 32)
    if value = maxLiteral then (MaxUint64, none)
    else
      match ParseUint value with
      | (result, none) => (result, none)
      | (_, some err) => (0, some err)

/-- The function `readContentUint64`. -/
def readContentUint64 (u : UnicodeTrim) (sys : Sys) (filePath : String) : Nat × Option Error :=
  match sys.file filePath with
  | none => (0, some "open failed")
  | some content => parseContentUint64 u content

/-- The decimal digits of `v`, most significant first, put before `acc` (`fuel` bounds the
number of digits). -/
def decimalDigits : Nat → Nat → List UInt8 → List UInt8
  | 0, _, acc => acc
  | fuel + 1, v, acc =>
    if v < 10 then UInt8.ofNat (48 + v) :: acc
    else decimalDigits fuel (v / 10) (UInt8.ofNat (48 + v % 10) :: acc)

/-- The base-10 text of `v`, as `fmt` prints a `uint64` with `%d`. -/
def decimalText (v : Nat) : List UInt8 := decimalDigits (v + 1) v []

/-- The number a string of decimal digits stands for. -/
def decimalValue (s : List UInt8) : Nat := s.foldl (fun n c => n * 10 + (c.toNat - 48)) 0

/-- Spec side: the string is an unsigned base-10 numeral in `uint64` range, that is, it is
not empty, every byte is a digit `0`..`9` and its value is at most `2 ^ 64 - 1`. -/
def isUint64Numeral (s : List UInt8) : Prop :=
  s ≠ [] ∧ (∀ c ∈ s, 48 ≤ c ∧ c ≤ 57) ∧ decimalValue s ≤ MaxUint64

instance (s : List UInt8) : Decidable (isUint64Numeral s) := by
  unfold isUint64Numeral
  infer_instance

/-- The function `ReadSystemMemory`, with the accesses it performs. -/
def ReadSystemMemory (sys : Sys) : (Nat × Nat × Option Error) × List Access :=
  match sys.meminfo with
  | Except.error err => ((0, 0, some err), [Access.meminfo])
  | Except.ok meminfo =>
    match meminfo.MemTotal, meminfo.MemAvailable with
    | some total, some available =>
      ((mulUint64 total 1024, mulUint64 available 1024, none), [Access.meminfo])
    | _, _ => ((0, 0, some "error reading meminfo"), [Access.meminfo])

/-- First half of `ReadCgroupMemory`: the limit and usage file of the pid's cgroup. -/
def cgroupFiles (sys : Sys) (pid : Int) : Except Error (String × String) × List Access :=
  if sys.cgroupsMode = CGMode.Unified then
    match sys.cgroup2PidGroupPath pid with
    | Except.error err => (Except.error err, [Access.cgroupsMode, Access.cgroup2PidGroupPath pid])
    | Except.ok cgroupPath =>
      (Except.ok (pathJoin [sys.cgroupMountPoint, cgroupPath, v2LimitFile],
          pathJoin [sys.cgroupMountPoint, cgroupPath, v2UsageFile]),
        [Access.cgroupsMode, Access.cgroup2PidGroupPath pid])
  else
    let subsystem := "memory"
    match sys.cgroup1PidPath pid with
    | Except.error err => (Except.error err, [Access.cgroupsMode, Access.cgroup1PidPath pid])
    | Except.ok cgroupPath =>
      let full := pathJoin [sys.cgroupMountPoint, subsystem, cgroupPath]
      if sys.stat full then
        (Except.ok (pathJoin [sys.cgroupMountPoint, subsystem, cgroupPath, v1LimitFile],
            pathJoin [sys.cgroupMountPoint, subsystem, cgroupPath, v1UsageFile]),
          [Access.cgroupsMode, Access.cgroup1PidPath pid, Access.stat full])
      else
        (Except.ok
            (pathJoin [sys.cgroupMountPoint, subsystem, sys.cgroup1RootPath, v1LimitFile],
              pathJoin [sys.cgroupMountPoint, subsystem, sys.cgroup1RootPath, v1UsageFile]),
          [Access.cgroupsMode, Access.cgroup1PidPath pid, Access.stat full,
            Access.cgroup1RootPath])

/-- The function `ReadCgroupMemory`, with the accesses it performs. -/
def ReadCgroupMemory (u : UnicodeTrim) (sys : Sys) (pid : Int) :
    (Nat × Nat × Option Error) × List Access :=
  match cgroupFiles sys pid with
  | (Except.error err, trace) => ((0, 0, some err), trace)
  | (Except.ok (limitFile, usageFile), trace) =>
    match readContentUint64 u sys limitFile with
    | (_, some err) => ((0, 0, some err), trace ++ [Access.openFile limitFile])
    | (limit, none) =>
      match readContentUint64 u sys usageFile with
      | (_, some err) =>
        ((0, 0, some err), trace ++ [Access.openFile limitFile, Access.openFile usageFile])
      | (usage, none) =>
        -- Usage may temporarily exceed the limit.
        let available := max 0 (subUint64 limit usage)
        ((limit, available, none),
          trace ++ [Access.openFile limitFile, Access.openFile usageFile])

/-- The function `NewMemoryInfo`, with the accesses it performs. -/
def NewMemoryInfo (u : UnicodeTrim) (sys : Sys) (pid : Int) : MemoryInfo × List Access :=
  match ReadSystemMemory sys with
  | ((total, available, some _), trace) => (⟨total, available⟩, trace)
  | ((total, available, none), trace) =>
    match ReadCgroupMemory u sys pid with
    | ((_, _, some _), trace1) => (⟨total, available⟩, trace ++ trace1)
    | ((limit, cgAvailable, none), trace1) =>
      (⟨min total limit, min available cgAvailable⟩, trace ++ trace1)


/-! ### A concrete system: cgroup v2, group path `/` -/

/-- A slow path for `TrimSpace` that returns its argument; content that is pure ASCII
never reaches it. -/
def sampleTrim : UnicodeTrim := { trimFunc := fun s => s, trimRightFunc := fun s => s }

/-- A unified-hierarchy system with the given meminfo answer and the given contents of
`/sys/fs/cgroup/memory.max` and `/sys/fs/cgroup/memory.current` (`none`: no such file). -/
def sampleSys (meminfo : Except Error Meminfo) (limit usage : Option (List UInt8)) : Sys :=
  { meminfo := meminfo
    cgroupMountPoint := "/sys/fs/cgroup"
    cgroupsMode := CGMode.Unified
    cgroup1PidPath := fun _ => Except.error "no cgroup v1 hierarchy"
    cgroup2PidGroupPath := fun _ => Except.ok "/"
    cgroup1RootPath := "/"
    stat := fun _ => true
    file := fun path =>
      if path = "/sys/fs/cgroup/memory.max" then limit
      else if path = "/sys/fs/cgroup/memory.current" then usage
      else none }

/-- A legacy-hierarchy system: the pid's memory cgroup is `/docker/abc`, the root one `/`;
`pidDirExists` tells whether `/sys/fs/cgroup/memory/docker/abc` exists, and each of the two
directories holds a limit file with content `limit` and a usage file with content `usage`
(the per-pid ones only when that directory exists). -/
def sampleSysV1 (pidDirExists : Bool) (limit usage : List UInt8) : Sys :=
  { meminfo := Except.error "no meminfo"
    cgroupMountPoint := "/sys/fs/cgroup"
    cgroupsMode := CGMode.Legacy
    cgroup1PidPath := fun _ => Except.ok "/docker/abc"
    cgroup2PidGroupPath := fun _ => Except.error "no cgroup v2 hierarchy"
    cgroup1RootPath := "/"
    stat := fun path =>
      if path = "/sys/fs/cgroup/memory/docker/abc" then pidDirExists
      else path = "/sys/fs/cgroup/memory"
    file := fun path =>
      if path = "/sys/fs/cgroup/memory/memory.limit_in_bytes" then some limit
      else if path = "/sys/fs/cgroup/memory/memory.usage_in_bytes" then some usage
      else if path = "/sys/fs/cgroup/memory/docker/abc/memory.limit_in_bytes" then
        (if pidDirExists then some limit else none)
      else if path = "/sys/fs/cgroup/memory/docker/abc/memory.usage_in_bytes" then
        (if pidDirExists then some usage else none)
      else none }

/-! ## `internal/procps/procps.go` and `internal/procps/option/option.go` -/

/-- A `*process.Process` of gopsutil: the pid, and what its attribute reads return
(`none` when the read fails, for instance because the process has exited). -/
structure Process where
  Pid : Int
  cmdline : Option String
  parent : Option Int
  createTime : Option Int
deriving DecidableEq, Repr

end procps

namespace option

/-- The type `Option` of package `option`: a predicate on processes. -/
abbrev Option := procps.Process → Bool

/-- The constructor `Cmdline`: the command line is readable and contains `name`. -/
def Cmdline (name : String) : option.Option := fun proc =>
  match proc.cmdline with
  | some cmdline => decide (name.data <:+: cmdline.data)
  | none => false

/-- The constructor `Parent`: the parent is readable and its pid is `ppid`. -/
def Parent (ppid : Int) : option.Option := fun proc =>
  match proc.parent with
  | some pid => decide (pid = ppid)
  | none => false

end option

namespace procps

/-- The function `All`: whether the process matches all the options, left to right. -/
def All (proc : Process) : List option.Option → Bool
  | [] => true
  | m :: options => if !m proc then false else All proc options

/-- The function `Filter`. -/
def Filter (procs : List Process) (options : List option.Option) : List Process :=
  procs.foldl (fun matched proc => if All proc options then matched ++ [proc] else matched) []

/-- The function `Pgrep`; `processes` is what the package variable `processes` returns. -/
def Pgrep (processes : Except Error (List Process)) (options : List option.Option) :
    List Process :=
  match processes with
  | Except.error _ => []
  | Except.ok procs =>
    procs.foldl (fun result proc => if All proc options then result ++ [proc] else result) []

/-- Go's `sort.Slice`: it rearranges the slice in place by swaps steered by `less`, so the
outcome is a permutation of the input whatever `less` answers. -/
structure SortSlice where
  sort : (Process → Process → Bool) → List Process → List Process
  perm : ∀ (less : Process → Process → Bool) (procs : List Process),
    List.Perm (sort less procs) procs

/-- Inner loop of Go's `insertionSortLessFunc`: the element `x` moves toward the front past
every element it is less than; `before` holds the elements before `x`, nearest first. -/
def insertionStep (less : Process → Process → Bool) (x : Process) :
    List Process → List Process
  | [] => [x]
  | y :: before =>
    if less x y then y :: insertionStep less x before else x :: y :: before

/-- Outer loop of Go's `insertionSortLessFunc`; `done` is the processed prefix, last
element first. -/
def insertionSortLoop (less : Process → Process → Bool) :
    List Process → List Process → List Process
  | done, [] => done.reverse
  | done, x :: todo => insertionSortLoop less (insertionStep less x done) todo

/-- What `sort.Slice` does to a slice of at most 12 elements: insertion sort. -/
def insertionSortSlice : SortSlice :=
  { sort := fun less procs => insertionSortLoop less [] procs
    perm := by
      intro less procs
      have hstep : ∀ (x : Process) (before : List Process),
          List.Perm (insertionStep less x before) (x :: before) := by
        intro x before
        induction before with
        | nil => exact List.Perm.refl _
        | cons y before ih =>
          unfold insertionStep
          split
          · exact (List.Perm.cons y ih).trans (List.Perm.swap x y before)
          · exact List.Perm.refl _
      have hloop : ∀ (todo done : List Process),
          List.Perm (insertionSortLoop less done todo) (done ++ todo) := by
        intro todo
        induction todo with
        | nil =>
          intro done
          rw [insertionSortLoop, List.append_nil]
          exact List.reverse_perm done
        | cons x todo ih =>
          intro done
          rw [insertionSortLoop]
          refine (ih _).trans ?_
          refine ((hstep x done).append_right todo).trans ?_
          exact (List.perm_middle).symm
      exact hloop procs [] }

/-! ### Go's `sort.Slice` on slices of at most 13 elements

`sort.Slice` runs `pdqsort_func` on the whole slice.  Up to 12 elements that is insertion
sort.  With 13 elements it chooses a pivot by the median of three, returns at once when the
slice is found in order, and otherwise partitions the slice around the pivot and sorts both
sides, each of at most 12 elements, by insertion sort. -/

/-- The call `data.Less(i, j)` on the slice `xs`. -/
def lessAt (less : Process → Process → Bool) (xs : List Process) (i j : Nat) : Bool :=
  match xs[i]?, xs[j]? with
  | some x, some y => less x y
  | _, _ => false

/-- The call `data.Swap(i, j)` on the slice `xs`. -/
def swapAt (xs : List Process) (i j : Nat) : List Process :=
  match xs[i]?, xs[j]? with
  | some x, some y => (xs.set i y).set j x
  | _, _ => xs

/-- Go's `order2_func`: the two indices in order, and the count of swaps. -/
def order2 (less : Process → Process → Bool) (xs : List Process) (a b swaps : Nat) :
    Nat × Nat × Nat :=
  if lessAt less xs b a then (b, a, swaps + 1) else (a, b, swaps)

/-- Go's `median_func`: the index of the median of three, and the count of swaps. -/
def median (less : Process → Process → Bool) (xs : List Process) (a b c swaps : Nat) :
    Nat × Nat :=
  match order2 less xs a b swaps with
  | (a1, b1, swaps1) =>
    match order2 less xs b1 c swaps1 with
    | (b2, _, swaps2) =>
      match order2 less xs a1 b2 swaps2 with
      | (_, b3, swaps3) => (b3, swaps3)

/-- Go's `choosePivot_func` on a whole slice of 8 to 49 elements: the pivot index and the
count of swaps (no swap means the hint `increasingHint`). -/
def choosePivot (less : Process → Process → Bool) (xs : List Process) : Nat × Nat :=
  median less xs (xs.length / 4 * 1) (xs.length / 4 * 2) (xs.length / 4 * 3) 0

/-- The scan `for i < b && !data.Less(i, i-1) { i++ }` of Go's `partialInsertionSort_func`. -/
def scanAscending (less : Process → Process → Bool) (xs : List Process) : Nat → Nat → Nat
  | 0, i => i
  | fuel + 1, i =>
    if i < xs.length ∧ !lessAt less xs i (i - 1) then scanAscending less xs fuel (i + 1) else i

/-- Go's `partialInsertionSort_func` on a whole slice of fewer than 50 elements: it reports
whether the slice is in order and never moves an element. -/
def partialInsertionSort (less : Process → Process → Bool) (xs : List Process) : Bool :=
  scanAscending less xs xs.length 1 = xs.length

/-- The scan `for i <= j && data.Less(i, a) { i++ }` of Go's `partition_func`, `a = 0`. -/
def scanLess (less : Process → Process → Bool) (xs : List Process) (j : Nat) : Nat → Nat → Nat
  | 0, i => i
  | fuel + 1, i =>
    if i ≤ j ∧ lessAt less xs i 0 then scanLess less xs j fuel (i + 1) else i

/-- The scan `for i <= j && !data.Less(j, a) { j-- }` of Go's `partition_func`, `a = 0`. -/
def scanNotLess (less : Process → Process → Bool) (xs : List Process) (i : Nat) :
    Nat → Nat → Nat
  | 0, j => j
  | fuel + 1, j =>
    if i ≤ j ∧ !lessAt less xs j 0 then scanNotLess less xs i fuel (j - 1) else j

/-- The main loop of Go's `partition_func`: the slice and the final `j`. -/
def partitionLoop (less : Process → Process → Bool) :
    Nat → List Process → Nat → Nat → List Process × Nat
  | 0, xs, _, j => (xs, j)
  | fuel + 1, xs, i, j =>
    let i1 := scanLess less xs j xs.length i
    let j1 := scanNotLess less xs i1 xs.length j
    if i1 > j1 then (xs, j1)
    else partitionLoop less fuel (swapAt xs i1 j1) (i1 + 1) (j1 - 1)

/-- Go's `partition_func` on a whole slice (`a = 0`, `b = len`): the slice afterwards and
the new index of the pivot. -/
def partition (less : Process → Process → Bool) (xs : List Process) (pivot : Nat) :
    List Process × Nat :=
  let xs1 := swapAt xs 0 pivot
  let i := scanLess less xs1 (xs1.length - 1) xs1.length 1
  let j := scanNotLess less xs1 i xs1.length (xs1.length - 1)
  if i > j then (swapAt xs1 j 0, j)
  else
    match partitionLoop less xs1.length (swapAt xs1 i j) (i + 1) (j - 1) with
    | (xs2, j2) => (swapAt xs2 j2 0, j2)

/-- Go's `pdqsort_func` on a whole slice of 13 elements. -/
def pdqsort13 (less : Process → Process → Bool) (xs : List Process) : List Process :=
  match choosePivot less xs with
  | (pivot, swaps) =>
    if swaps = 0 ∧ partialInsertionSort less xs then xs
    else
      match partition less xs pivot with
      | (ys, mid) =>
        insertionSortLoop less [] (ys.take mid) ++ (ys.drop mid).take 1
          ++ insertionSortLoop less [] (ys.drop (mid + 1))

/-- Go's `sort.Slice` on at most 13 elements; longer slices are left to `rest`. -/
def goSort (rest : SortSlice) (less : Process → Process → Bool) (xs : List Process) :
    List Process :=
  if xs.length ≤ 12 then insertionSortLoop less [] xs
  else if xs.length = 13 then pdqsort13 less xs
  else rest.sort less xs

/-- Go's `sort.Slice`, with `goSort` up to 13 elements: every step is a swap, so the outcome
is a permutation of the input. -/
def goSortSlice (rest : SortSlice) : SortSlice :=
  { sort := goSort rest
    perm := by
      intro less procs
      have hswap : ∀ (xs : List Process) (i j : Nat), List.Perm (swapAt xs i j) xs := by
        intro xs i j
        unfold swapAt
        split
        · rename_i x y hx hy
          obtain ⟨hi, hxi⟩ := List.getElem?_eq_some_iff.mp hx
          obtain ⟨hj, hyj⟩ := List.getElem?_eq_some_iff.mp hy
          rw [List.perm_iff_count]
          intro b
          have hj2 : j < (xs.set i y).length := by rw [List.length_set]; exact hj
          rw [List.count_set _ _ _ _ hj2, List.count_set _ _ _ _ hi]
          have hget : (xs.set i y)[j] = y := by
            rw [List.getElem_set]
            split
            · rfl
            · exact hyj
          rw [hget, hxi]
          have hmem : x ∈ xs := by rw [← hxi]; exact List.getElem_mem _
          have hcount : (if (x == b) = true then 1 else 0) ≤ List.count b xs := by
            split
            · rename_i hxb
              have hxb2 : x = b := by simpa using hxb
              rw [← hxb2]
              exact List.count_pos_iff.mpr hmem
            · exact Nat.zero_le _
          omega
        · exact List.Perm.refl _
      have hloop : ∀ (fuel : Nat) (xs : List Process) (i j : Nat),
          List.Perm (partitionLoop less fuel xs i j).1 xs := by
        intro fuel
        induction fuel with
        | zero => intro xs i j; exact List.Perm.refl _
        | succ fuel ih =>
          intro xs i j
          unfold partitionLoop
          simp only
          split
          · exact List.Perm.refl _
          · exact (ih _ _ _).trans (hswap _ _ _)
      have hpart : ∀ (xs : List Process) (pivot : Nat),
          List.Perm (partition less xs pivot).1 xs := by
        intro xs pivot
        unfold partition
        simp only
        split
        · exact (hswap _ _ _).trans (hswap _ _ _)
        · exact (hswap _ _ _).trans
            ((hloop _ _ _ _).trans ((hswap _ _ _).trans (hswap _ _ _)))
      have hpdq : ∀ xs : List Process, List.Perm (pdqsort13 less xs) xs := by
        intro xs
        unfold pdqsort13
        generalize choosePivot less xs = c
        obtain ⟨pivot, swaps⟩ := c
        simp only
        split
        · exact List.Perm.refl _
        · have hp := hpart xs pivot
          generalize partition less xs pivot = r at hp ⊢
          obtain ⟨ys, mid⟩ := r
          simp only at hp ⊢
          have h1 := insertionSortSlice.perm less (ys.take mid)
          have h2 := insertionSortSlice.perm less (ys.drop (mid + 1))
          have h3 : ys.take mid ++ (ys.drop mid).take 1 ++ ys.drop (mid + 1) = ys := by
            have e : ys.drop (mid + 1) = (ys.drop mid).drop 1 := by
              rw [List.drop_drop, Nat.add_comm]
            rw [e, List.append_assoc, List.take_append_drop, List.take_append_drop]
          have h4 : List.Perm
              (insertionSortLoop less [] (ys.take mid) ++ (ys.drop mid).take 1
                ++ insertionSortLoop less [] (ys.drop (mid + 1)))
              (ys.take mid ++ (ys.drop mid).take 1 ++ ys.drop (mid + 1)) :=
            (h1.append_right _).append h2
          rw [h3] at h4
          exact h4.trans hp
      unfold goSort
      split
      · exact insertionSortSlice.perm less procs
      · split
        · exact hpdq procs
        · exact rest.perm less procs }

/-- Spec side, the contract of `sort.Slice`: when `less` compares a key on the elements of
the slice, the outcome is in non-decreasing order of that key. -/
def SortSlice.Sorts (srt : SortSlice) : Prop :=
  ∀ (less : Process → Process → Bool) (key : Process → Int) (procs : List Process),
    (∀ p ∈ procs, ∀ q ∈ procs, less p q = decide (key p < key q)) →
    List.Pairwise (fun p q => key p ≤ key q) (srt.sort less procs)

/-- Thirteen records, the second and the third with unreadable creation times. -/
def sampleThirteen : List Process :=
  [⟨100, none, none, some 1⟩, ⟨101, none, none, none⟩, ⟨102, none, none, none⟩,
    ⟨103, none, none, some 2⟩, ⟨104, none, none, some 3⟩, ⟨105, none, none, some 4⟩,
    ⟨106, none, none, some 10⟩, ⟨107, none, none, some 20⟩, ⟨108, none, none, some 21⟩,
    ⟨109, none, none, some 22⟩, ⟨110, none, none, some 23⟩, ⟨111, none, none, some 5⟩,
    ⟨112, none, none, some 6⟩]

/-- The function `SortByCreateTime`; the result is the slice after the in-place sort. -/
def SortByCreateTime (srt : SortSlice) (procs : List Process) : List Process :=
  srt.sort
    (fun pi pj =>
      match pi.createTime, pj.createTime with
      | some cti, some ctj => decide (cti < ctj)
      | _, _ => false)
    procs

end procps

namespace reaper

/-! ## `internal/reaper/reaper.go` -/

open procps

def NginxMaster : String := "nginx: master process"
def NginxWorker : String := "nginx: worker process"
def NginxWorkerShutdown : String := "nginx: worker process is shutting down"

def OptionNginxMaster : option.Option := option.Cmdline NginxMaster
def OptionNginxWorker : option.Option := option.Cmdline NginxWorker
def OptionNginxWorkerShutdown : option.Option := option.Cmdline NginxWorkerShutdown

/-- The configuration fields of the type `Reaper` (`time.Duration` and `int`). -/
structure Reaper where
  interval : Int
  maxShutdownWorkers : Int
  availableMemoryPercent : Int
deriving DecidableEq, Repr

/-- The Prometheus series of a `Reaper`: the gauge `nginx_workers_running_current` and the
counter `nginx_workers_shutdown_total`, each by status label. -/
structure Metrics where
  active : Int
  shutdown : Int
  error : Nat
  terminated : Nat
deriving DecidableEq, Repr

/-- The function `NewReaper`: `Except.error` stands for the panic raised by `log.Panicf`;
otherwise the new `Reaper` comes with its four metric series set to zero. -/
def NewReaper (interval : Int) (maxShutdownWorkers : Int) (availableMemoryPercent : Int) :
    Except Error (Reaper × Metrics) :=
  if interval ≤ 0 then
    Except.error "Non-positive interval"
  else if maxShutdownWorkers ≤ 0 then
    Except.error "Non-positive maxShutdownWorkers"
  else if availableMemoryPercent < 0 ∨ availableMemoryPercent > 100 then
    Except.error "Invalid availableMemoryPercent"
  else
    Except.ok
      ({ interval := interval
         maxShutdownWorkers := maxShutdownWorkers
         availableMemoryPercent := availableMemoryPercent },
        { active := 0, shutdown := 0, error := 0, terminated := 0 })

/-- The package variables `procpsFilter`, `procpsPgrep`, `procpsTerminate` and
`procpsNewMemoryInfo`, over a world `W` that every call may observe and change, together with
the `sort.Slice` in use. -/
structure Deps (W : Type) where
  procpsPgrep : W → List option.Option → List Process × W
  procpsFilter : W → List Process → List option.Option → List Process × W
  procpsTerminate : W → Process → Option Error × W
  procpsNewMemoryInfo : W → Int → MemoryInfo × W
  sortSlice : SortSlice

/-- The state a `Run` acts on: the world, the metrics, the arguments of the
`procpsTerminate` calls made so far (oldest first), what those calls returned (in the same
order), the number of one-second sleeps and the number of `procps.SortByCreateTime`
calls. -/
structure RunState (W : Type) where
  world : W
  metrics : Metrics
  terminateCalls : List Process
  terminateErrors : List (Option Error)
  sleeps : Nat
  sorts : Nat

/-- The method `shouldTerminate`; the second component is the world after the call. -/
def Reaper.shouldTerminate {W : Type} (r : Reaper) (deps : Deps W) (world : W) (pid : Int)
    (workers : Int) : Bool × W :=
  -- Check the number of workers.
  if workers > r.maxShutdownWorkers then
    (true, world)
  else
    -- Check available memory.
    match deps.procpsNewMemoryInfo world pid with
    | (m, world1) =>
      let percent := m.AvailableMemoryPercent
      if percent < r.availableMemoryPercent then (true, world1) else (false, world1)

/-- The inner loop of `Run`,
`for i, l := 0, len(workersShutdown); i < l && r.shouldTerminate(pid, l-i); i++`,
entered at index `i` with the slice `workersShutdown`. -/
def Reaper.terminateLoop {W : Type} (r : Reaper) (deps : Deps W) (pid : Int) (l : Nat)
    (i : Nat) (workersShutdown : List Process) (s : RunState W) : RunState W :=
  if i < l then
    match r.shouldTerminate deps s.world pid ((l : Int) - (i : Int)) with
    | (false, world1) => { s with world := world1 }
    | (true, world1) =>
      -- Sort workers by creation time once, to terminate the oldest first.
      let sorted := if i = 0 then SortByCreateTime deps.sortSlice workersShutdown
        else workersShutdown
      let sorts := if i = 0 then s.sorts + 1 else s.sorts
      match sorted[i]? with
      | none => { s with world := world1, sorts := sorts }
      | some worker =>
        match deps.procpsTerminate world1 worker with
        | (none, world2) =>
          r.terminateLoop deps pid l (i + 1) sorted
            { world := world2
              metrics := { s.metrics with terminated := s.metrics.terminated + 1 }
              terminateCalls := s.terminateCalls ++ [worker]
              terminateErrors := s.terminateErrors ++ [none]
              sleeps := s.sleeps + 1
              sorts := sorts }
        | (some err, world2) =>
          r.terminateLoop deps pid l (i + 1) sorted
            { world := world2
              metrics := { s.metrics with error := s.metrics.error + 1 }
              terminateCalls := s.terminateCalls ++ [worker]
              terminateErrors := s.terminateErrors ++ [some err]
              sleeps := s.sleeps
              sorts := sorts }
  else s
termination_by l - i

/-- The body of the outer loop of `Run` for one master process. -/
def Reaper.runMaster {W : Type} (r : Reaper) (deps : Deps W) (s : RunState W)
    (master : Process) : RunState W :=
  match deps.procpsPgrep s.world [OptionNginxWorker, option.Parent master.Pid] with
  | (workers, world1) =>
    match deps.procpsFilter world1 workers [OptionNginxWorkerShutdown] with
    | (workersShutdown, world2) =>
      r.terminateLoop deps master.Pid workersShutdown.length 0 workersShutdown
        { s with
          world := world2
          metrics :=
            { s.metrics with
              active := (workers.length : Int) - (workersShutdown.length : Int)
              shutdown := (workersShutdown.length : Int) } }

/-- The method `Run`. -/
def Reaper.Run {W : Type} (r : Reaper) (deps : Deps W) (s : RunState W) : Bool × RunState W :=
  match deps.procpsPgrep s.world [OptionNginxMaster] with
  | (masters, world1) => (true, masters.foldl (r.runMaster deps) { s with world := world1 })


/-! ### A concrete scenario: one master, four workers, three of them shutting down -/

/-- A process record with the given pid, command line and creation time, child of pid 1. -/
def sampleProcess (pid : Int) (cmdline : String) (createTime : Int) : Process :=
  { Pid := pid, cmdline := some cmdline, parent := some 1, createTime := some createTime }

/-- The sample master process. -/
def sampleMaster : Process :=
  { Pid := 1, cmdline := some "nginx: master process nginx", parent := some 0,
    createTime := some 0 }

/-- The three sample workers that are shutting down. -/
def sampleShutdown : List Process :=
  [sampleProcess 12 NginxWorkerShutdown 30, sampleProcess 10 NginxWorkerShutdown 10,
    sampleProcess 11 NginxWorkerShutdown 20]

/-- The four sample workers. -/
def sampleWorkers : List Process := sampleProcess 13 NginxWorker 40 :: sampleShutdown

/-- Injected functions for the scenario: the package's own `Pgrep` and `Filter` over the
sample process table; the world is the memory snapshot every read returns, and
`terminateErr` is what every `procpsTerminate` call returns. -/
def sampleDeps (terminateErr : Option Error) : Deps MemoryInfo :=
  { procpsPgrep := fun world options =>
      (Pgrep (Except.ok (sampleMaster :: sampleWorkers)) options, world)
    procpsFilter := fun world procs options => (Filter procs options, world)
    procpsTerminate := fun world _ => (terminateErr, world)
    procpsNewMemoryInfo := fun world _ => (world, world)
    sortSlice := insertionSortSlice }

/-- The initial state of the scenario with memory snapshot `m`. -/
def sampleState (m : MemoryInfo) : RunState MemoryInfo :=
  { world := m, metrics := ⟨0, 0, 0, 0⟩, terminateCalls := [], terminateErrors := [],
    sleeps := 0, sorts := 0 }

end reaper

namespace procps

/-! ## `Terminate` of `internal/procps/procps.go` -/

/-- Go error values as `errors.Is` sees them: a comparable value, identified by its name,
or an error whose `Unwrap` method returns another error. -/
inductive GoError where
  | value (name : String)
  | wrap (msg : String) (err : GoError)
deriving DecidableEq, Repr

/-- The error value `os.ErrProcessDone`. -/
def ErrProcessDone : GoError := GoError.value "os: process already finished"

/-- The loop of `errors.Is` on a non-nil error and a non-nil comparable target: the error is
compared with the target, then unwrapped, until the chain ends. -/
def GoError.is : GoError → GoError → Bool
  | GoError.value name, target => decide (GoError.value name = target)
  | GoError.wrap msg err, target => decide (GoError.wrap msg err = target) || err.is target

/-- Go's `errors.Is`; `none` is the `nil` error. -/
def errorsIs (err target : Option GoError) : Bool :=
  match err, target with
  | some e, some t => e.is t
  | _, _ => decide (err = target)

/-- The function `Terminate`; `procTerminate` is the method `proc.Terminate()` of
gopsutil, which sends the signal and returns what the system call returned. -/
def Terminate (procTerminate : Process → Option GoError) (proc : Process) : Option GoError :=
  let err := procTerminate proc
  if errorsIs err (some ErrProcessDone) then none else err

end procps

namespace ticker

/-! ## `internal/ticker/ticker.go` -/

/-- The interface `Job` over a job state `S`; every method may change the state. -/
structure Job (S : Type) where
  Interval : S → Int × S
  Run : S → Bool × S
  String : S → String × S

/-- What a call of `Start` has done: the job state, the number of `Interval()` and `String()`
calls, what each `Run()` call returned (oldest first), and the panic that ended it, if any. -/
structure Started (S : Type) where
  state : S
  intervalCalls : Nat
  stringCalls : Nat
  runs : List Bool
  panicked : Option Error

/-- A statement `log.Infof("... %v", job)`: the job is formatted with its `String()` method
when the log level lets info messages through. -/
def logJob {S : Type} (job : Job S) (infoEnabled : Bool) (t : Started S) : Started S :=
  if infoEnabled then
    { t with state := (job.String t.state).2, stringCalls := t.stringCalls + 1 }
  else t

/-- The loop `for range ticker.C` of `Start` over the next `ticks` ticks of the channel. -/
def tickLoop {S : Type} (job : Job S) (infoEnabled : Bool) : Nat → Started S → Started S
  | 0, t => t
  | ticks + 1, t =>
    let t1 := logJob job infoEnabled t
    match job.Run t1.state with
    | (true, s2) =>
      tickLoop job infoEnabled ticks { t1 with state := s2, runs := t1.runs ++ [true] }
    | (false, s2) => { t1 with state := s2, runs := t1.runs ++ [false] }

/-- The function `Start`, observed until the ticker has delivered `ticks` ticks;
`time.NewTicker` panics on a non-positive interval. -/
def Start {S : Type} (job : Job S) (infoEnabled : Bool) (ticks : Nat) (s : S) : Started S :=
  match job.Interval s with
  | (d, s1) =>
    if d ≤ 0 then
      { state := s1, intervalCalls := 1, stringCalls := 0, runs := [],
        panicked := some "non-positive interval for NewTicker" }
    else
      tickLoop job infoEnabled ticks
        (logJob job infoEnabled
          { state := s1, intervalCalls := 1, stringCalls := 0, runs := [], panicked := none })

/-- What `n` consecutive `Run()` calls of the loop body return when none of them stops the
loop: the reference against which the stopping loop is compared. -/
def runResults {S : Type} (job : Job S) (infoEnabled : Bool) : Nat → S → List Bool
  | 0, _ => []
  | n + 1, s =>
    let s1 := if infoEnabled then (job.String s).2 else s
    (job.Run s1).1 :: runResults job infoEnabled n (job.Run s1).2

/-- A job that counts down: `Run` returns `true` while the counter is above one. -/
def sampleJob : Job Nat :=
  { Interval := fun n => (1, n)
    Run := fun n => (decide (1 < n), n - 1)
    String := fun n => ("countdown", n) }

end ticker

namespace reaper

/-! ## `internal/reaper/shutdown_handler.go` -/

open procps

/-- The constant `math.MaxInt64`. -/
def MaxInt64 : Int := 2 ^ 63 - 1

/-- The constant `math.MinInt64`. -/
def MinInt64 : Int := -(2 ^ 63)

/-- The `int64` value (a `time.Duration`) that Go arithmetic stores for the exact result
`x`: two's complement wrap-around. -/
def wrapInt64 (x : Int) : Int := (x + 2 ^ 63) % 2 ^ 64 - 2 ^ 63

/-- The type `ShutdownHandler`; both fields are `time.Duration` values in nanoseconds. -/
structure ShutdownHandler where
  shutdownInterval : Int
  shutdownTimeout : Int
deriving DecidableEq, Repr

/-- The function `nginxMasterRunning`. -/
def nginxMasterRunning {W : Type} (deps : Deps W) (world : W) : Bool × W :=
  match deps.procpsPgrep world [OptionNginxMaster] with
  | (masters, world1) => if masters.length = 0 then (false, world1) else (true, world1)

/-- The method `ShutdownHandler.Run`: the handler after the call, and the world, which the
call observes only when the first operand of `&&` holds. -/
def ShutdownHandler.Run {W : Type} (s : ShutdownHandler) (deps : Deps W) (world : W) :
    Bool × ShutdownHandler × W :=
  let s1 : ShutdownHandler :=
    { s with shutdownTimeout := wrapInt64 (s.shutdownTimeout - s.shutdownInterval) }
  if s1.shutdownTimeout ≥ s1.shutdownInterval then
    match nginxMasterRunning deps world with
    | (running, world1) => (running, s1, world1)
  else (false, s1, world)

/-- The method `ShutdownHandler.String` (named `text`, the name `String` being the type);
`durationText` is the `%v` format of a `time.Duration`. -/
def ShutdownHandler.text (durationText : Int → String) (s : ShutdownHandler) : String :=
  "Nginx Reaper shutdown handler with interval " ++ durationText s.shutdownInterval
    ++ " and timeout " ++ durationText s.shutdownTimeout

/-- A `ShutdownHandler` as the `ticker.Job` that `WaitShutdown` hands to `ticker.Start`; the
job state is the handler together with the world. -/
def ShutdownHandler.job {W : Type} (durationText : Int → String) (deps : Deps W) :
    ticker.Job (ShutdownHandler × W) :=
  { Interval := fun st => (st.1.shutdownInterval, st)
    Run := fun st =>
      match st.1.Run deps st.2 with
      | (running, s1, world1) => (running, (s1, world1))
    String := fun st => (st.1.text durationText, st) }

/-- Injected functions of a scenario whose world is the number of process-table reads made
so far; a master process is found on the reads numbered below `gone`. -/
def countdownDeps (gone : Nat) : Deps Nat :=
  { procpsPgrep := fun world _ => (if world < gone then [sampleMaster] else [], world + 1)
    procpsFilter := fun world procs options => (Filter procs options, world)
    procpsTerminate := fun world _ => (none, world)
    procpsNewMemoryInfo := fun world _ => (⟨0, 0⟩, world)
    sortSlice := insertionSortSlice }

end reaper

namespace log

/-! ## `internal/log/level.go` and `internal/log/log.go` -/

/-- The log levels, values of the type `Level` (`uint32`). -/
def PanicLevel : Nat := 0
def ErrorLevel : Nat := 1
def WarningLevel : Nat := 2
def InfoLevel : Nat := 3
def DebugLevel : Nat := 4
def DefaultLevel : Nat := DebugLevel

/-- The map `names`, log level name to `Level`. -/
def names : List (String × Nat) :=
  [("panic", PanicLevel), ("error", ErrorLevel), ("warning", WarningLevel),
    ("info", InfoLevel), ("debug", DebugLevel)]

/-- The lower-case form of an ASCII character: `A` to `Z` move by `'a' - 'A'`. -/
def asciiLower (c : Char) : Char :=
  if 'A' ≤ c ∧ c ≤ 'Z' then Char.ofNat (c.toNat + 32) else c

/-- Go's `unicode.ToLower`; `table` is the case table consulted above `unicode.MaxASCII`. -/
def unicodeToLower (table : Char → Char) (r : Char) : Char :=
  if r.toNat ≤ 127 then asciiLower r else table r

/-- Go's `strings.ToLower` on well-formed text: ASCII-only strings take the byte loop (and
are returned as they are without an upper-case letter), the others are mapped character by
character with `unicode.ToLower`. -/
def ToLower (table : Char → Char) (s : String) : String :=
  if s.data.all (fun c => decide (c.toNat < 128)) then
    if s.data.any (fun c => decide ('A' ≤ c ∧ c ≤ 'Z')) then String.mk (s.data.map asciiLower)
    else s
  else String.mk (s.data.map (unicodeToLower table))

/-- The function `ParseLevel`. -/
def ParseLevel (table : Char → Char) (name : String) : Nat × Option Error :=
  match names.lookup (ToLower table name) with
  | some l => (l, none)
  | none => (0, some ("invalid log level: " ++ name))

/-- The function `SetLevel`: the current level after the call. -/
def SetLevel (l : Nat) : Nat :=
  if l > DebugLevel then DefaultLevel else l

end log

namespace server

/-! ## `internal/server/config_handler.go` -/

def configPath : String := "/config"
def keyLogLevel : String := "log-level"

def StatusNoContent : Nat := 204
def StatusBadRequest : Nat := 400
def StatusNotFound : Nat := 404
def StatusMethodNotAllowed : Nat := 405
def MethodPut : String := "PUT"

/-- What the handlers read of an `*http.Request`: the method, `r.URL.Path`, and the
key-value pairs of `r.URL.Query()` in the order of the query string. -/
structure Request where
  Method : String
  Path : String
  Query : List (String × String)
deriving DecidableEq, Repr

/-- An `http.ResponseWriter`: the status code written, if any, and the body written. -/
structure ResponseWriter where
  status : Option Nat
  body : List UInt8
deriving DecidableEq, Repr

/-- The method `WriteHeader`: only the first call sets the status code. -/
def ResponseWriter.WriteHeader (w : ResponseWriter) (statusCode : Nat) : ResponseWriter :=
  match w.status with
  | none => { w with status := some statusCode }
  | some _ => w

/-- The method `url.Values.Get`: the first value of the key, or the empty string. -/
def queryGet (query : List (String × String)) (key : String) : String :=
  match query.lookup key with
  | some value => value
  | none => ""

/-- The function `setLogLevel`: the error returned and the log level after the call. -/
def setLogLevel (table : Char → Char) (level : Nat) (r : Request) : Option Error × Nat :=
  let name := queryGet r.Query keyLogLevel
  match log.ParseLevel table name with
  | (_, some err) => (some err, level)
  | (l, none) => (none, log.SetLevel l)

/-- The function `configHandler`: the response writer and the log level after the call. -/
def configHandler (table : Char → Char) (level : Nat) (w : ResponseWriter) (r : Request) :
    ResponseWriter × Nat :=
  if r.Path ≠ configPath then
    (w.WriteHeader StatusNotFound, level)
  else if r.Method ≠ MethodPut then
    (w.WriteHeader StatusMethodNotAllowed, level)
  else
    match setLogLevel table level r with
    | (some _, level1) => (w.WriteHeader StatusBadRequest, level1)
    | (none, level1) => (w.WriteHeader StatusNoContent, level1)

/-- A case table that maps every character to itself. -/
def sampleTable : Char → Char := fun c => c

end server

namespace memoryEvents

/-! ## `cmd/memory-events/main.go` -/

/-- The loop of Go's `binary.Uvarint` at index `i`, with the value `x` and the shift `s`
accumulated so far. -/
def uvarintLoop : List UInt8 → Nat → Nat → Nat → Nat × Int
  | [], _, _, _ => (0, 0)
  | b :: rest, i, x, s =>
    if i = 10 then (0, -((i : Int) + 1))
    else if b < 128 then
      if i = 9 ∧ b > 1 then (0, -((i : Int) + 1))
      else ((x ||| (b.toNat <<< s)) % uint64Size, (i : Int) + 1)
    else uvarintLoop rest (i + 1) ((x ||| ((b.toNat &&& 127) <<< s)) % uint64Size) (s + 7)

/-- Go's `binary.Uvarint`: the decoded value and the number of bytes read, which is `0`
when the buffer ends inside a value and negative on overflow. -/
def Uvarint (buf : List UInt8) : Nat × Int := uvarintLoop buf 0 0 0

/-- The `uint64` that eight bytes carry in little-endian order, the form in which the
kernel hands out the counter of an eventfd. -/
def littleEndianUint64 (buf : List UInt8) : Nat :=
  (buf.take 8).foldr (fun b acc => b.toNat + 256 * acc) 0

/-- One `unix.Read(efd, buf)`: the count and error returned and the content of the
eight-byte buffer after the call. -/
structure Read where
  n : Int
  err : Option Error
  buf : List UInt8
deriving DecidableEq, Repr

/-- The goroutine of `v1EventChan`: the cumulative `events.OOMKill`, the values sent on
`eventCh` and the errors sent on `errCh` (oldest first), and whether the loop has ended
(the deferred `close` calls have run). -/
structure Monitor where
  OOMKill : Nat
  events : List Nat
  errors : List Error
  ended : Bool
deriving DecidableEq, Repr

/-- The read loop of `v1EventChan` over the reads that return, in order. -/
def v1EventLoop : List Read → Monitor → Monitor
  | [], m => m
  | rd :: rest, m =>
    match rd.err with
    | some err => { m with errors := m.errors ++ [err], ended := true }
    | none =>
      if rd.n ≠ 8 then { m with errors := m.errors ++ ["invalid argument"], ended := true }
      else
        match Uvarint rd.buf with
        | (val, n) =>
          let m1 : Monitor :=
            if n ≤ 0 then { m with errors := m.errors ++ ["invalid eventfd value"] } else m
          let total := (m1.OOMKill + val) % uint64Size
          v1EventLoop rest { m1 with OOMKill := total, events := m1.events ++ [total] }

/-- The goroutine of `v1EventChan` as it starts: `events := Event{}`. -/
def v1EventStart : Monitor := { OOMKill := 0, events := [], errors := [], ended := false }

end memoryEvents

/-! ## Properties of the `float64` model -/

theorem ilog2Aux_spec : ∀ (fuel n : Nat), 1 ≤ n → n ≤ fuel →
    2 ^ ilog2Aux fuel n ≤ n ∧ n < 2 ^ (ilog2Aux fuel n + 1) := by
  intro fuel
  induction fuel with
  | zero => intro n h1 h2; omega
  | succ fuel ih =>
    intro n h1 h2
    unfold ilog2Aux
    by_cases h : n < 2
    · rw [if_pos h]
      constructor
      · simpa using h1
      · simpa using h
    · rw [if_neg h]
      obtain ⟨ha, hb⟩ := ih (n / 2) (by omega) (by omega)
      constructor
      · rw [Nat.pow_succ]; omega
      · rw [Nat.pow_succ]; omega

theorem ilog2_spec (n : Nat) (h : 1 ≤ n) : 2 ^ ilog2 n ≤ n ∧ n < 2 ^ (ilog2 n + 1) :=
  ilog2Aux_spec n n h (le_refl n)

/-- The scaled quotient of `Float64.round` has 53 or 54 bits. -/
theorem round_scaling (n d : Nat) (hn : 1 ≤ n) (hd : 1 ≤ d) :
    2 ^ 52 * (d * 2 ^ (ilog2 n - (53 + ilog2 d))) ≤ n * 2 ^ (53 + ilog2 d - ilog2 n) ∧
      n * 2 ^ (53 + ilog2 d - ilog2 n) < 2 ^ 54 * (d * 2 ^ (ilog2 n - (53 + ilog2 d))) := by
  obtain ⟨hn1, hn2⟩ := ilog2_spec n hn
  obtain ⟨hd1, hd2⟩ := ilog2_spec d hd
  rw [Nat.pow_succ] at hn2 hd2
  by_cases h : ilog2 n ≤ 53 + ilog2 d
  · have hdown : ilog2 n - (53 + ilog2 d) = 0 := by omega
    have hpow : 2 ^ ilog2 n * 2 ^ (53 + ilog2 d - ilog2 n) = 2 ^ 53 * 2 ^ ilog2 d := by
      rw [← Nat.pow_add, ← Nat.pow_add]
      congr 1
      omega
    rw [hdown]
    generalize 2 ^ (53 + ilog2 d - ilog2 n) = U at hpow ⊢
    generalize 2 ^ ilog2 n = A at hn1 hn2 hpow
    generalize 2 ^ ilog2 d = L at hd1 hd2 hpow
    have h1 : A * U ≤ n * U := Nat.mul_le_mul_right U hn1
    have h2 : n * U < A * 2 * U := by
      have hU : 0 < U := by
        rcases Nat.eq_zero_or_pos U with h0 | h0
        · subst h0; simp at hpow; omega
        · exact h0
      exact Nat.mul_lt_mul_of_pos_right hn2 hU
    have h3 : A * 2 * U = 2 * (A * U) := by ring
    simp only [pow_zero, mul_one]
    constructor <;> omega
  · have hup : 53 + ilog2 d - ilog2 n = 0 := by omega
    have hpow : 2 ^ ilog2 n = 2 ^ 53 * (2 ^ ilog2 d * 2 ^ (ilog2 n - (53 + ilog2 d))) := by
      rw [← Nat.pow_add, ← Nat.pow_add]
      congr 1
      omega
    rw [hup]
    generalize 2 ^ (ilog2 n - (53 + ilog2 d)) = V at hpow ⊢
    generalize 2 ^ ilog2 n = A at hn1 hn2 hpow
    generalize 2 ^ ilog2 d = L at hd1 hd2 hpow
    have hV : 0 < V := by
      rcases Nat.eq_zero_or_pos V with h0 | h0
      · subst h0; simp at hpow; omega
      · exact h0
    have h1 : L * V ≤ d * V := Nat.mul_le_mul_right V hd1
    have h2 : d * V < L * 2 * V := Nat.mul_lt_mul_of_pos_right hd2 hV
    have h3 : L * 2 * V = 2 * (L * V) := by ring
    simp only [pow_zero, mul_one]
    constructor <;> omega

/-- Rounding the quotient `N / D` to the nearest integer, ties to even, stays within
half a unit of it. -/
theorem round_nearest (N D : Nat) (hD : 0 < D) :
    2 * ((if 2 * (N % D) > D ∨ (2 * (N % D) = D ∧ N / D % 2 = 1) then N / D + 1 else N / D) * D)
        ≤ 2 * N + D ∧
      2 * N ≤
        2 * ((if 2 * (N % D) > D ∨ (2 * (N % D) = D ∧ N / D % 2 = 1) then N / D + 1 else N / D)
          * D) + D := by
  have h1 : N / D * D + N % D = N := Nat.div_add_mod' N D
  have h2 : N % D < D := Nat.mod_lt N hD
  have h3 : (N / D + 1) * D = N / D * D + D := by ring
  split
  · rename_i h
    rw [h3]
    constructor <;> omega
  · rename_i h
    have h4 : 2 * (N % D) ≤ D := by
      by_contra hc
      exact h (Or.inl (by omega))
    constructor <;> omega

/-- What `Float64.round` returns for a positive quotient: the integer `m1` nearest to the
scaled quotient `N / D`, which is at least `2 ^ 52`, and the scaling `a / b` to undo. -/
theorem round_spec (n d : Nat) (hn : 1 ≤ n) (hd : 1 ≤ d) :
    ∃ m1 N D a b : Nat, Float64.round n d = ⟨m1 * a, b⟩ ∧ 0 < a ∧ 0 < b ∧ 0 < D ∧
      N * d * a = n * D * b ∧ 2 ^ 52 * D ≤ N ∧
      2 * (m1 * D) ≤ 2 * N + D ∧ 2 * N ≤ 2 * (m1 * D) + D := by
  obtain ⟨hs1, hs2⟩ := round_scaling n d hn hd
  unfold Float64.round
  rw [if_neg (by omega)]
  simp only
  have hUpos : 0 < 2 ^ (53 + ilog2 d - ilog2 n) := Nat.pos_pow_of_pos _ (by decide)
  have hVpos : 0 < 2 ^ (ilog2 n - (53 + ilog2 d)) := Nat.pos_pow_of_pos _ (by decide)
  generalize 2 ^ (53 + ilog2 d - ilog2 n) = U at hs1 hs2 hUpos ⊢
  generalize 2 ^ (ilog2 n - (53 + ilog2 d)) = V at hs1 hs2 hVpos ⊢
  have hdV : 0 < d * V := Nat.mul_pos hd hVpos
  by_cases hk : n * U / (d * V) < 2 ^ 53
  · rw [if_pos hk]
    have hD : 0 < 1 * (d * V) := by omega
    obtain ⟨r1, r2⟩ := round_nearest (n * U) (1 * (d * V)) hD
    exact ⟨_, n * U, 1 * (d * V), 1 * V, U, rfl, by omega, hUpos, hD, by ring, by omega, r1, r2⟩
  · rw [if_neg hk]
    have hD : 0 < 2 * (d * V) := by omega
    obtain ⟨r1, r2⟩ := round_nearest (n * U) (2 * (d * V)) hD
    have hge : 2 ^ 53 * (d * V) ≤ n * U := (Nat.le_div_iff_mul_le hdV).mp (not_lt.mp hk)
    exact ⟨_, n * U, 2 * (d * V), 2 * V, U, rfl, by omega, hUpos, hD, by ring, by omega, r1, r2⟩


/-- The relative error of `Float64.round` is at most `2 ^ (-53)`, in cross-multiplied form. -/
theorem round_bounds (n d : Nat) (hn : 1 ≤ n) (hd : 1 ≤ d) :
    0 < (Float64.round n d).den ∧ 0 < (Float64.round n d).num ∧
      (2 ^ 53 - 1) * (n * (Float64.round n d).den) ≤ 2 ^ 53 * ((Float64.round n d).num * d) ∧
      2 ^ 53 * ((Float64.round n d).num * d) ≤ (2 ^ 53 + 1) * (n * (Float64.round n d).den) := by
  obtain ⟨m1, N, D, a, b, hr, ha, hb, hD, heq, h52, hup, hlo⟩ := round_spec n d hn hd
  rw [hr]
  simp only
  have L1 : (2 ^ 53 - 1) * N ≤ 2 ^ 53 * (m1 * D) := by omega
  have L2 : 2 ^ 53 * (m1 * D) ≤ (2 ^ 53 + 1) * N := by omega
  have hm1 : 0 < m1 := by
    rcases Nat.eq_zero_or_pos m1 with h0 | h0
    · subst h0
      simp only [zero_mul, mul_zero] at L1
      omega
    · exact h0
  have E1 : D * ((2 ^ 53 - 1) * (n * b)) ≤ D * (2 ^ 53 * (m1 * a * d)) := by
    calc D * ((2 ^ 53 - 1) * (n * b)) = (2 ^ 53 - 1) * (n * D * b) := by ring
      _ = (2 ^ 53 - 1) * (N * d * a) := by rw [heq]
      _ = ((2 ^ 53 - 1) * N) * (d * a) := by ring
      _ ≤ (2 ^ 53 * (m1 * D)) * (d * a) := Nat.mul_le_mul_right _ L1
      _ = D * (2 ^ 53 * (m1 * a * d)) := by ring
  have E2 : D * (2 ^ 53 * (m1 * a * d)) ≤ D * ((2 ^ 53 + 1) * (n * b)) := by
    calc D * (2 ^ 53 * (m1 * a * d)) = (2 ^ 53 * (m1 * D)) * (d * a) := by ring
      _ ≤ ((2 ^ 53 + 1) * N) * (d * a) := Nat.mul_le_mul_right _ L2
      _ = (2 ^ 53 + 1) * (N * d * a) := by ring
      _ = (2 ^ 53 + 1) * (n * D * b) := by rw [heq]
      _ = D * ((2 ^ 53 + 1) * (n * b)) := by ring
  exact ⟨hb, Nat.mul_pos hm1 ha, Nat.le_of_mul_le_mul_left E1 hD,
    Nat.le_of_mul_le_mul_left E2 hD⟩

/-- The value of `Float64.round n d` lies within the relative error `2 ^ (-53)` of `n / d`. -/
theorem round_toRat_bounds (n d : Nat) (hd : 1 ≤ d) :
    (n : ℚ) / d * Float64.errLo ≤ (Float64.round n d).toRat ∧
      (Float64.round n d).toRat ≤ (n : ℚ) / d * Float64.errHi := by
  rcases Nat.eq_zero_or_pos n with h0 | hn
  · subst h0
    simp [Float64.round, Float64.toRat]
  · obtain ⟨h1, _, h3, h4⟩ := round_bounds n d hn hd
    unfold Float64.toRat Float64.errLo Float64.errHi
    have hdq : (0 : ℚ) < d := by exact_mod_cast hd
    have hbq : (0 : ℚ) < ((Float64.round n d).den : ℚ) := by exact_mod_cast h1
    have h3q : ((2 : ℚ) ^ 53 - 1) * ((n : ℚ) * (Float64.round n d).den)
        ≤ 2 ^ 53 * (((Float64.round n d).num : ℚ) * d) := by
      have := (Nat.cast_le (α := ℚ)).mpr h3
      push_cast at this
      linarith
    have h4q : (2 : ℚ) ^ 53 * (((Float64.round n d).num : ℚ) * d)
        ≤ (2 ^ 53 + 1) * ((n : ℚ) * (Float64.round n d).den) := by
      have := (Nat.cast_le (α := ℚ)).mpr h4
      push_cast at this
      linarith
    constructor
    · rw [div_mul_div_comm, div_le_div_iff₀ (by positivity) hbq]
      nlinarith
    · rw [div_mul_div_comm, div_le_div_iff₀ hbq (by positivity)]
      nlinarith


/-- The value of the `float64` expression `float64(A) / float64(T) * 100` lies within one
percent (relatively) of the exact `A / T * 100`. -/
theorem percent_expression_bounds (A T : Nat) (hT : 0 < T) :
    (A : ℚ) / T * 100 * (99 / 100)
        ≤ (Float64.mul (Float64.div (Float64.ofUint64 A) (Float64.ofUint64 T))
            Float64.hundred).toRat ∧
      (Float64.mul (Float64.div (Float64.ofUint64 A) (Float64.ofUint64 T))
            Float64.hundred).toRat
        ≤ (A : ℚ) / T * 100 * (101 / 100) := by
  unfold Float64.mul Float64.div Float64.ofUint64 Float64.hundred
  obtain ⟨ha1, ha2⟩ := round_toRat_bounds A 1 (le_refl 1)
  obtain ⟨ht1, ht2⟩ := round_toRat_bounds T 1 (le_refl 1)
  obtain ⟨htden, htnum, _, _⟩ := round_bounds T 1 hT (le_refl 1)
  have haden : 0 < (Float64.round A 1).den := by
    rcases Nat.eq_zero_or_pos A with h0 | hA
    · subst h0; simp [Float64.round]
    · exact (round_bounds A 1 hA (le_refl 1)).1
  generalize Float64.round A 1 = a at ha1 ha2 haden ⊢
  generalize Float64.round T 1 = t at ht1 ht2 htden htnum ⊢
  have hqd : 1 ≤ a.den * t.num := Nat.mul_pos haden htnum
  obtain ⟨hq1, hq2⟩ := round_toRat_bounds (a.num * t.den) (a.den * t.num) hqd
  have hqden : 0 < (Float64.round (a.num * t.den) (a.den * t.num)).den := by
    rcases Nat.eq_zero_or_pos (a.num * t.den) with h0 | hp
    · rw [h0]; simp [Float64.round]
    · exact (round_bounds _ _ hp hqd).1
  generalize Float64.round (a.num * t.den) (a.den * t.num) = q at hq1 hq2 hqden ⊢
  have hpd : 1 ≤ q.den * 1 := by omega
  obtain ⟨hp1, hp2⟩ := round_toRat_bounds (q.num * 100) (q.den * 1) hpd
  generalize Float64.round (q.num * 100) (q.den * 1) = p at hp1 hp2 ⊢
  -- the exact quotients in terms of the values
  have hTq : (0 : ℚ) < T := by exact_mod_cast hT
  have hAq : (0 : ℚ) ≤ A := by exact_mod_cast Nat.zero_le A
  have hadq : (0 : ℚ) < a.den := by exact_mod_cast haden
  have htdq : (0 : ℚ) < t.den := by exact_mod_cast htden
  have htnq : (0 : ℚ) < t.num := by exact_mod_cast htnum
  have hqdq : (0 : ℚ) < q.den := by exact_mod_cast hqden
  have e1 : ((a.num * t.den : ℕ) : ℚ) / ((a.den * t.num : ℕ) : ℚ) = a.toRat / t.toRat := by
    unfold Float64.toRat
    push_cast
    field_simp
  have e2 : ((q.num * 100 : ℕ) : ℚ) / ((q.den * 1 : ℕ) : ℚ) = q.toRat * 100 := by
    unfold Float64.toRat
    push_cast
    field_simp
  rw [e1] at hq1 hq2
  rw [e2] at hp1 hp2
  simp only [Nat.cast_one, div_one] at ha1 ha2 ht1 ht2
  have htpos : (0 : ℚ) < t.toRat := by
    unfold Float64.toRat
    positivity
  have hapos : (0 : ℚ) ≤ a.toRat := by
    unfold Float64.toRat
    positivity
  have hlo : (0 : ℚ) < Float64.errLo := by unfold Float64.errLo; norm_num
  have hhi : (0 : ℚ) < Float64.errHi := by unfold Float64.errHi; norm_num
  -- bounds on the exact quotient of the two converted values
  have hr1 : (A : ℚ) / T * (Float64.errLo / Float64.errHi) ≤ a.toRat / t.toRat := by
    rw [div_mul_div_comm, div_le_div_iff₀ (by positivity) htpos]
    nlinarith [mul_nonneg hAq hlo.le, mul_nonneg hapos hTq.le]
  have hr2 : a.toRat / t.toRat ≤ (A : ℚ) / T * (Float64.errHi / Float64.errLo) := by
    rw [div_mul_div_comm, div_le_div_iff₀ htpos (by positivity)]
    nlinarith [mul_nonneg hAq hhi.le, mul_nonneg hapos hTq.le]
  have hX : (0 : ℚ) ≤ (A : ℚ) / T := by positivity
  have hqpos : (0 : ℚ) ≤ q.toRat := by
    unfold Float64.toRat
    positivity
  have c1 : (99 / 100 : ℚ) ≤ Float64.errLo / Float64.errHi * Float64.errLo * Float64.errLo := by unfold Float64.errLo Float64.errHi; norm_num
  have c2 : Float64.errHi / Float64.errLo * Float64.errHi * Float64.errHi ≤ (101 / 100 : ℚ) := by unfold Float64.errLo Float64.errHi; norm_num
  constructor
  · calc (A : ℚ) / T * 100 * (99 / 100)
        ≤ (A : ℚ) / T * 100 * (Float64.errLo / Float64.errHi * Float64.errLo * Float64.errLo) := by gcongr
      _ = ((A : ℚ) / T * (Float64.errLo / Float64.errHi)) * Float64.errLo * 100 * Float64.errLo := by ring
      _ ≤ (a.toRat / t.toRat) * Float64.errLo * 100 * Float64.errLo := by gcongr
      _ ≤ q.toRat * 100 * Float64.errLo := by gcongr
      _ ≤ p.toRat := hp1
  · calc p.toRat ≤ q.toRat * 100 * Float64.errHi := hp2
      _ ≤ (a.toRat / t.toRat * Float64.errHi) * 100 * Float64.errHi := by gcongr
      _ ≤ ((A : ℚ) / T * (Float64.errHi / Float64.errLo) * Float64.errHi) * 100 * Float64.errHi := by gcongr
      _ = (A : ℚ) / T * 100 * (Float64.errHi / Float64.errLo * Float64.errHi * Float64.errHi) := by ring
      _ ≤ (A : ℚ) / T * 100 * (101 / 100) := by gcongr


theorem round_den_pos (n d : Nat) : 0 < (Float64.round n d).den := by
  unfold Float64.round
  split
  · exact Nat.one_pos
  · exact Nat.pos_pow_of_pos _ (by decide)

/-! ## Properties of the reaper policy -/

namespace reaper

open procps

theorem availableMemoryPercent_nonneg (m : MemoryInfo) : 0 ≤ m.AvailableMemoryPercent := by
  unfold MemoryInfo.AvailableMemoryPercent
  split
  · decide
  · exact Int.ofNat_nonneg _

/-- C1: whenever the backlog `B` exceeds the cap `maxShutdownWorkers`, `shouldTerminate`
returns true, whatever the threshold and whatever the memory source would answer. -/
theorem shouldTerminate_of_backlog_gt_cap {W : Type} (r : Reaper) (deps : Deps W) (world : W)
    (pid : Int) (B : Int) (hB : B > r.maxShutdownWorkers) :
    (r.shouldTerminate deps world pid B).1 = true := by
  simp [Reaper.shouldTerminate, hB]

theorem shouldTerminate_of_backlog_gt_cap_witness :
    ((3 : Int) > (Reaper.mk 1 2 0).maxShutdownWorkers) ∧
      ((Reaper.mk 1 2 0).shouldTerminate (sampleDeps none) ⟨100, 50⟩ 1 3).1 = true :=
  ⟨by decide, shouldTerminate_of_backlog_gt_cap _ _ _ _ _ (by decide)⟩

/-- C2: when the backlog `B` is at most the cap, `shouldTerminate` returns true exactly when
the percentage of the snapshot read for the master pid is strictly below the threshold. -/
theorem shouldTerminate_iff_percent_lt {W : Type} (r : Reaper) (deps : Deps W) (world : W)
    (pid : Int) (B : Int) (hB : B ≤ r.maxShutdownWorkers) :
    (r.shouldTerminate deps world pid B).1 = true ↔
      (deps.procpsNewMemoryInfo world pid).1.AvailableMemoryPercent
        < r.availableMemoryPercent := by
  have hB1 : ¬ B > r.maxShutdownWorkers := not_lt.mpr hB
  unfold Reaper.shouldTerminate
  rw [if_neg hB1]
  by_cases h : (deps.procpsNewMemoryInfo world pid).1.AvailableMemoryPercent
      < r.availableMemoryPercent
  · simp [h]
  · simp [h]

theorem shouldTerminate_iff_percent_lt_witness :
    ((3 : Int) ≤ (Reaper.mk 1 255 50).maxShutdownWorkers) ∧
      (((Reaper.mk 1 255 50).shouldTerminate (sampleDeps none) ⟨100, 50⟩ 1 3).1 = true ↔
        ((sampleDeps none).procpsNewMemoryInfo ⟨100, 50⟩ 1).1.AvailableMemoryPercent
          < (Reaper.mk 1 255 50).availableMemoryPercent) ∧
      ((Reaper.mk 1 255 50).shouldTerminate (sampleDeps none) ⟨100, 50⟩ 1 3).1 = false ∧
      ((Reaper.mk 1 255 50).shouldTerminate (sampleDeps none) ⟨100, 49⟩ 1 3).1 = true :=
  ⟨by decide, shouldTerminate_iff_percent_lt _ _ _ _ _ (by decide),
    by set_option maxRecDepth 100000 in decide, by set_option maxRecDepth 100000 in decide⟩

/-- With the threshold at `0` the memory test never fires: the decision is the backlog test. -/
theorem shouldTerminate_threshold_zero {W : Type} (r : Reaper) (deps : Deps W) (world : W)
    (pid : Int) (B : Int) (hT : r.availableMemoryPercent = 0) :
    (r.shouldTerminate deps world pid B).1 = decide (B > r.maxShutdownWorkers) := by
  unfold Reaper.shouldTerminate
  by_cases hB : B > r.maxShutdownWorkers
  · simp [hB]
  · have h0 := availableMemoryPercent_nonneg (deps.procpsNewMemoryInfo world pid).1
    have h1 : ¬ (deps.procpsNewMemoryInfo world pid).1.AvailableMemoryPercent
        < r.availableMemoryPercent := by rw [hT]; exact not_lt.mpr h0
    simp [hB, h1]

/-- Number of `procpsTerminate` calls of the inner loop entered at index `i`, threshold `0`. -/
theorem terminateLoop_calls_threshold_zero {W : Type} (r : Reaper) (deps : Deps W) (pid : Int)
    (l : Nat) (hT : r.availableMemoryPercent = 0) (hC : 1 ≤ r.maxShutdownWorkers) :
    ∀ (n i : Nat) (ws : List Process) (s : RunState W), l - i = n → ws.length = l →
      (r.terminateLoop deps pid l i ws s).terminateCalls.length
        = s.terminateCalls.length + (l - i - r.maxShutdownWorkers.toNat) := by
  intro n
  induction n with
  | zero =>
    intro i ws s hn _
    rw [Reaper.terminateLoop]
    have hi : ¬ i < l := by omega
    rw [if_neg hi]
    omega
  | succ n ih =>
    intro i ws s hn hlen
    rw [Reaper.terminateLoop]
    have hi : i < l := by omega
    rw [if_pos hi]
    have hdec := shouldTerminate_threshold_zero r deps s.world pid ((l : Int) - (i : Int)) hT
    rcases hst : r.shouldTerminate deps s.world pid ((l : Int) - (i : Int)) with ⟨b, world1⟩
    rw [hst] at hdec
    simp only at hdec
    cases b with
    | false =>
      have hle : ¬ ((l : Int) - (i : Int) > r.maxShutdownWorkers) := by
        intro h
        rw [decide_eq_true h] at hdec
        exact Bool.noConfusion hdec
      simp only
      omega
    | true =>
      have hgt : (l : Int) - (i : Int) > r.maxShutdownWorkers := of_decide_eq_true hdec.symm
      simp only
      have hsl : (if i = 0 then SortByCreateTime deps.sortSlice ws else ws).length = l := by
        split
        · rw [SortByCreateTime, (deps.sortSlice.perm _ ws).length_eq]; exact hlen
        · exact hlen
      have hget : (if i = 0 then SortByCreateTime deps.sortSlice ws else ws)[i]?
          = some ((if i = 0 then SortByCreateTime deps.sortSlice ws else ws)[i]) :=
        List.getElem?_eq_getElem (by omega)
      rw [hget]
      simp only
      rcases deps.procpsTerminate world1
          ((if i = 0 then SortByCreateTime deps.sortSlice ws else ws)[i]) with ⟨err, world2⟩
      cases err with
      | none =>
        simp only
        rw [ih (i + 1) _ _ (by omega) hsl]
        simp only [List.length_append, List.length_singleton]
        omega
      | some e =>
        simp only
        rw [ih (i + 1) _ _ (by omega) hsl]
        simp only [List.length_append, List.length_singleton]
        omega

/-- C3: `Run` performs one pass per master found, and with the memory threshold disabled
(`availableMemoryPercent = 0`) and a cap `C ≥ 1`, the pass over a master that is observed
with `S` shutting-down workers calls `procpsTerminate` exactly `max(0, S - C)` times,
whatever those calls return. -/
theorem Run_terminate_calls {W : Type} (r : Reaper) (deps : Deps W) (s : RunState W)
    (master : Process) (hT : r.availableMemoryPercent = 0) (hC : 1 ≤ r.maxShutdownWorkers) :
    (∀ s0 : RunState W, r.Run deps s0
        = (true, (deps.procpsPgrep s0.world [OptionNginxMaster]).1.foldl (r.runMaster deps)
            { s0 with world := (deps.procpsPgrep s0.world [OptionNginxMaster]).2 })) ∧
      (r.runMaster deps s master).terminateCalls.length
        = s.terminateCalls.length
          + ((deps.procpsFilter
                (deps.procpsPgrep s.world [OptionNginxWorker, option.Parent master.Pid]).2
                (deps.procpsPgrep s.world [OptionNginxWorker, option.Parent master.Pid]).1
                [OptionNginxWorkerShutdown]).1.length
              - r.maxShutdownWorkers.toNat) := by
  constructor
  · intro s0
    rfl
  · unfold Reaper.runMaster
    exact terminateLoop_calls_threshold_zero r deps master.Pid _ hT hC _ 0 _ _ rfl rfl

theorem Run_terminate_calls_witness :
    (Reaper.mk 1 1 0).availableMemoryPercent = 0 ∧ 1 ≤ (Reaper.mk 1 1 0).maxShutdownWorkers ∧
      ((Reaper.mk 1 1 0).runMaster (sampleDeps (some "operation not permitted"))
          (sampleState ⟨0, 0⟩) sampleMaster).terminateCalls.length = 2 :=
  ⟨rfl, by decide,
    ((Run_terminate_calls (Reaper.mk 1 1 0) (sampleDeps (some "operation not permitted"))
      (sampleState ⟨0, 0⟩) sampleMaster rfl (by decide)).2).trans (by decide)⟩

end reaper

/-! ## Properties of the memory accountant -/

namespace procps

/-- C4: `AvailableMemoryPercent` is 100 for every snapshot with `Total = 0` and for every
snapshot with `Available ≥ Total > 0`. -/
theorem availableMemoryPercent_eq_100 (m : MemoryInfo)
    (h : m.Total = 0 ∨ (0 < m.Total ∧ m.Total ≤ m.Available)) :
    m.AvailableMemoryPercent = 100 := by
  unfold MemoryInfo.AvailableMemoryPercent
  have h1 : m.Total = 0 ∨ m.Available ≥ m.Total := h.imp id (fun hh => hh.2)
  rw [if_pos h1]

theorem availableMemoryPercent_eq_100_witness :
    ((MemoryInfo.mk 0 7).Total = 0 ∧ (MemoryInfo.mk 0 7).AvailableMemoryPercent = 100) ∧
      ((0 < (MemoryInfo.mk 5 9).Total ∧ (MemoryInfo.mk 5 9).Total ≤ (MemoryInfo.mk 5 9).Available)
        ∧ (MemoryInfo.mk 5 9).AvailableMemoryPercent = 100) :=
  ⟨⟨rfl, availableMemoryPercent_eq_100 (MemoryInfo.mk 0 7) (Or.inl rfl)⟩,
    ⟨by decide, availableMemoryPercent_eq_100 (MemoryInfo.mk 5 9) (Or.inr (by decide))⟩⟩

/-- C5 (as stated, refuted): for `Total = 100`, `Available = 29` the method returns 28,
because the `float64` quotient `29 / 100` is just below `0.29` and its product with 100 is
just below 29, while the exact `floor(29 / 100 * 100)` is 29. -/
theorem availableMemoryPercent_ne_floor :
    (0 < (MemoryInfo.mk 100 29).Total ∧
        (MemoryInfo.mk 100 29).Available < (MemoryInfo.mk 100 29).Total) ∧
      (MemoryInfo.mk 100 29).AvailableMemoryPercent = 28 ∧
      ⌊((MemoryInfo.mk 100 29).Available : ℚ) / ((MemoryInfo.mk 100 29).Total : ℚ) * 100⌋
        = 29 := by
  refine ⟨by decide, by set_option maxRecDepth 100000 in decide, ?_⟩
  norm_num

/-- C5 (amended): for `Total > 0` and `Available < Total`, `AvailableMemoryPercent` is the
truncation of the `float64` expression `float64(Available) / float64(Total) * 100`; it lies
between 0 and 100 and within 1 of the exact `floor(Available / Total * 100)`. -/
theorem availableMemoryPercent_near_floor (m : MemoryInfo) (hT : 0 < m.Total)
    (hA : m.Available < m.Total) :
    m.AvailableMemoryPercent
        = Float64.toInt
            (Float64.mul (Float64.div (Float64.ofUint64 m.Available) (Float64.ofUint64 m.Total))
              Float64.hundred) ∧
      0 ≤ m.AvailableMemoryPercent ∧ m.AvailableMemoryPercent ≤ 100 ∧
      |m.AvailableMemoryPercent - ⌊(m.Available : ℚ) / (m.Total : ℚ) * 100⌋| ≤ 1 := by
  have hguard : ¬ (m.Total = 0 ∨ m.Available ≥ m.Total) := by omega
  have hdef : m.AvailableMemoryPercent
      = Float64.toInt
          (Float64.mul (Float64.div (Float64.ofUint64 m.Available) (Float64.ofUint64 m.Total))
            Float64.hundred) := by
    unfold MemoryInfo.AvailableMemoryPercent
    rw [if_neg hguard]
  obtain ⟨hb1, hb2⟩ := percent_expression_bounds m.Available m.Total hT
  have hden : 0 < (Float64.mul (Float64.div (Float64.ofUint64 m.Available)
      (Float64.ofUint64 m.Total)) Float64.hundred).den := round_den_pos _ _
  refine ⟨hdef, ?_⟩
  rw [hdef]
  generalize Float64.mul (Float64.div (Float64.ofUint64 m.Available)
      (Float64.ofUint64 m.Total)) Float64.hundred = p at hb1 hb2 hden ⊢
  unfold Float64.toInt
  unfold Float64.toRat at hb1 hb2
  -- the exact percentage
  have hTq : (0 : ℚ) < m.Total := by exact_mod_cast hT
  have hAq : (0 : ℚ) ≤ m.Available := by exact_mod_cast Nat.zero_le _
  have hATq : (m.Available : ℚ) < m.Total := by exact_mod_cast hA
  have hX0 : (0 : ℚ) ≤ (m.Available : ℚ) / m.Total * 100 := by positivity
  have hX100 : (m.Available : ℚ) / m.Total * 100 < 100 := by
    have : (m.Available : ℚ) / m.Total < 1 := (div_lt_one hTq).mpr hATq
    linarith
  have hz1 := Int.floor_le ((m.Available : ℚ) / m.Total * 100)
  have hz2 := Int.lt_floor_add_one ((m.Available : ℚ) / m.Total * 100)
  generalize ⌊(m.Available : ℚ) / m.Total * 100⌋ = z at hz1 hz2 ⊢
  generalize (m.Available : ℚ) / m.Total * 100 = X at hb1 hb2 hX0 hX100 hz1 hz2
  -- the truncated value
  have hdq : (0 : ℚ) < p.den := by exact_mod_cast hden
  have hc1 : ((p.num / p.den : ℕ) : ℚ) ≤ (p.num : ℚ) / p.den := Nat.cast_div_le
  have hc2 : (p.num : ℚ) / p.den < ((p.num / p.den : ℕ) : ℚ) + 1 := by
    rw [div_lt_iff₀ hdq]
    have h := Nat.lt_succ_self (p.num % p.den)
    have h1 : p.num / p.den * p.den + p.num % p.den = p.num := Nat.div_add_mod' _ _
    have h2 : p.num % p.den < p.den := Nat.mod_lt _ hden
    have h3 : p.num < (p.num / p.den + 1) * p.den := by
      rw [Nat.add_mul, Nat.one_mul]
      omega
    exact_mod_cast h3
  generalize (p.num : ℚ) / p.den = y at hb1 hb2 hc1 hc2
  generalize p.num / p.den = c at hc1 hc2 ⊢
  have hcz : ((c : ℤ) : ℚ) < ((z + 2 : ℤ) : ℚ) := by
    push_cast
    linarith
  have hzc : (z : ℚ) < (((c : ℤ) + 2 : ℤ) : ℚ) := by
    push_cast
    linarith
  have hc100 : ((c : ℤ) : ℚ) < ((101 : ℤ) : ℚ) := by
    push_cast
    linarith
  have hcz1 : (c : ℤ) < z + 2 := Int.cast_lt.mp hcz
  have hzc1 : z < (c : ℤ) + 2 := Int.cast_lt.mp hzc
  have hc101 : (c : ℤ) < 101 := Int.cast_lt.mp hc100
  refine ⟨Int.ofNat_nonneg c, by omega, ?_⟩
  rw [abs_le]
  constructor <;> omega

theorem availableMemoryPercent_near_floor_witness :
    (0 < (MemoryInfo.mk 100 25).Total ∧
        (MemoryInfo.mk 100 25).Available < (MemoryInfo.mk 100 25).Total) ∧
      (MemoryInfo.mk 100 25).AvailableMemoryPercent = 25 ∧
      |(MemoryInfo.mk 100 25).AvailableMemoryPercent
          - ⌊((MemoryInfo.mk 100 25).Available : ℚ) / ((MemoryInfo.mk 100 25).Total : ℚ) * 100⌋|
        ≤ 1 :=
  ⟨by decide, by set_option maxRecDepth 100000 in decide,
    (availableMemoryPercent_near_floor (MemoryInfo.mk 100 25) (by decide) (by decide)).2.2.2⟩

/-- C6 (the code at the failing input): with `memory.max` holding `100` and `memory.current`
holding `200`, `ReadCgroupMemory` returns the limit 100 and the wrapped-around difference
`2 ^ 64 - 100` as available memory, not 0. -/
theorem readCgroupMemory_usage_above_limit :
    (ReadCgroupMemory sampleTrim
        (sampleSys (Except.error "no meminfo") (some [49, 48, 48, 10]) (some [50, 48, 48, 10]))
        1).1
      = (100, 2 ^ 64 - 100, none) := by
  decide

/-- C7: when system memory and cgroup memory are both read without error, `NewMemoryInfo`
returns the smaller total and the smaller available figure. -/
theorem newMemoryInfo_min (u : UnicodeTrim) (sys : Sys) (pid : Int)
    (sysTotal sysAvailable limit cgroupAvailable : Nat)
    (hsys : (ReadSystemMemory sys).1 = (sysTotal, sysAvailable, none))
    (hcg : (ReadCgroupMemory u sys pid).1 = (limit, cgroupAvailable, none)) :
    (NewMemoryInfo u sys pid).1
      = { Total := min sysTotal limit, Available := min sysAvailable cgroupAvailable } := by
  unfold NewMemoryInfo
  rcases hs : ReadSystemMemory sys with ⟨⟨t, a, e⟩, tr⟩
  rw [hs] at hsys
  rcases hc : ReadCgroupMemory u sys pid with ⟨⟨l, ca, e1⟩, tr1⟩
  rw [hc] at hcg
  simp only [Prod.mk.injEq] at hsys hcg
  obtain ⟨rfl, rfl, rfl⟩ := hsys
  obtain ⟨rfl, rfl, rfl⟩ := hcg
  simp only [hc]

theorem newMemoryInfo_min_witness :
    (ReadSystemMemory (sampleSys (Except.ok ⟨some 1000, some 500⟩) (some [109, 97, 120, 10])
        (some [50, 48, 48, 10]))).1 = (1024000, 512000, none) ∧
      (ReadCgroupMemory sampleTrim (sampleSys (Except.ok ⟨some 1000, some 500⟩)
        (some [109, 97, 120, 10]) (some [50, 48, 48, 10])) 1).1
        = (2 ^ 64 - 1, 2 ^ 64 - 201, none) ∧
      (NewMemoryInfo sampleTrim (sampleSys (Except.ok ⟨some 1000, some 500⟩)
        (some [109, 97, 120, 10]) (some [50, 48, 48, 10])) 1).1
        = { Total := min 1024000 (2 ^ 64 - 1), Available := min 512000 (2 ^ 64 - 201) } :=
  ⟨by decide, by decide,
    newMemoryInfo_min sampleTrim _ 1 1024000 512000 (2 ^ 64 - 1) (2 ^ 64 - 201)
      (by decide) (by decide)⟩

/-- The two shapes of a `ReadSystemMemory` result: zeros with an error, or two figures
without one; the meminfo table is the only thing accessed. -/
theorem readSystemMemory_cases (sys : Sys) :
    (∃ err, ReadSystemMemory sys = ((0, 0, some err), [Access.meminfo])) ∨
      (∃ total available, ReadSystemMemory sys = ((total, available, none), [Access.meminfo])) := by
  unfold ReadSystemMemory
  rcases sys.meminfo with err | ⟨_ | total, _ | available⟩
  · exact Or.inl ⟨err, rfl⟩
  · exact Or.inl ⟨_, rfl⟩
  · exact Or.inl ⟨_, rfl⟩
  · exact Or.inl ⟨_, rfl⟩
  · exact Or.inr ⟨_, _, rfl⟩

/-- C8: `NewMemoryInfo` degrades instead of failing.  If system memory cannot be read, the
result is the zero snapshot and no cgroup access is performed; if system memory is read as
`(sysTotal, sysAvailable)` and cgroup memory cannot be read, the result is exactly
`(sysTotal, sysAvailable)`. -/
theorem newMemoryInfo_degrades (u : UnicodeTrim) (sys : Sys) (pid : Int) :
    ((ReadSystemMemory sys).1.2.2 ≠ none →
        (NewMemoryInfo u sys pid).1 = { Total := 0, Available := 0 } ∧
          ∀ a ∈ (NewMemoryInfo u sys pid).2, a.isCgroup = false) ∧
      (∀ sysTotal sysAvailable : Nat,
        (ReadSystemMemory sys).1 = (sysTotal, sysAvailable, none) →
        (ReadCgroupMemory u sys pid).1.2.2 ≠ none →
        (NewMemoryInfo u sys pid).1 = { Total := sysTotal, Available := sysAvailable }) := by
  constructor
  · intro herr
    unfold NewMemoryInfo
    rcases readSystemMemory_cases sys with ⟨err, h⟩ | ⟨t, a, h⟩
    · rw [h]
      simp [Access.isCgroup]
    · rw [h] at herr
      exact absurd rfl herr
  · intro sysTotal sysAvailable hsys hcg
    unfold NewMemoryInfo
    rcases hs : ReadSystemMemory sys with ⟨⟨t, a, e⟩, tr⟩
    rw [hs] at hsys
    rcases hc : ReadCgroupMemory u sys pid with ⟨⟨l, ca, e1⟩, tr1⟩
    rw [hc] at hcg
    simp only [Prod.mk.injEq] at hsys
    obtain ⟨rfl, rfl, rfl⟩ := hsys
    cases e1 with
    | none => exact absurd rfl hcg
    | some err => simp only [hc]


theorem newMemoryInfo_degrades_witness :
    ((NewMemoryInfo sampleTrim
          (sampleSys (Except.error "no meminfo") (some [49, 48, 48, 10]) (some [53, 48, 10]))
          1).1 = { Total := 0, Available := 0 } ∧
        ∀ a ∈ (NewMemoryInfo sampleTrim
          (sampleSys (Except.error "no meminfo") (some [49, 48, 48, 10]) (some [53, 48, 10]))
          1).2, a.isCgroup = false) ∧
      (NewMemoryInfo sampleTrim (sampleSys (Except.ok ⟨some 1000, some 500⟩) none none) 1).1
        = { Total := 1024000, Available := 512000 } :=
  ⟨(newMemoryInfo_degrades sampleTrim
      (sampleSys (Except.error "no meminfo") (some [49, 48, 48, 10]) (some [53, 48, 10]))
      1).1 (by decide),
    (newMemoryInfo_degrades sampleTrim (sampleSys (Except.ok ⟨some 1000, some 500⟩) none none)
      1).2 1024000 512000 (by decide) (by decide)⟩

/-- The digit loop never returns more than `math.MaxUint64`. -/
theorem parseUintLoop_le (s : List UInt8) :
    ∀ n : Nat, n ≤ MaxUint64 → (parseUintLoop s n).1 ≤ MaxUint64 := by
  induction s with
  | nil => intro n hn; exact hn
  | cons c s ih =>
    intro n hn
    unfold parseUintLoop
    split
    · split
      · exact le_refl _
      · simp only
        split
        · exact le_refl _
        · exact ih _ (by omega)
    · exact Nat.zero_le _

/-- The value `readContentUint64` returns fits in a `uint64`. -/
theorem readContentUint64_le (u : UnicodeTrim) (sys : Sys) (filePath : String) :
    (readContentUint64 u sys filePath).1 ≤ MaxUint64 := by
  unfold readContentUint64
  cases sys.file filePath with
  | none => exact Nat.zero_le _
  | some content =>
    simp only
    unfold parseContentUint64
    split
    · exact Nat.zero_le _
    · simp only
      split
      · exact le_refl _
      · split
        · rename_i result heq
          have h := parseUintLoop_le (TrimSpace u (List.take 32 content)) 0 (Nat.zero_le _)
          unfold ParseUint at heq
          split at heq
          · simp only [Prod.mk.injEq] at heq
            exact absurd heq.2 (by simp)
          · rw [heq] at h
            exact h
        · exact Nat.zero_le _

/-- Without wrap-around: when `usage ≤ limit`, the `uint64` difference is the difference. -/
theorem subUint64_of_le (limit usage : Nat) (h : usage ≤ limit) (hl : limit ≤ MaxUint64) :
    subUint64 limit usage = limit - usage := by
  unfold subUint64 uint64Size
  unfold MaxUint64 at hl
  have hu : usage % 2 ^ 64 = usage := Nat.mod_eq_of_lt (by omega)
  rw [hu]
  have e : limit + 2 ^ 64 - usage = (limit - usage) + 2 ^ 64 := by omega
  rw [e, Nat.add_mod_right]
  exact Nat.mod_eq_of_lt (by omega)

/-- When the usage read is at most the limit read, `ReadCgroupMemory` returns an available
figure that is at most the limit. -/
theorem readCgroupMemory_available_le (u : UnicodeTrim) (sys : Sys) (pid : Int)
    (hcg : ∀ limitFile usageFile limit usage,
      (cgroupFiles sys pid).1 = Except.ok (limitFile, usageFile) →
      readContentUint64 u sys limitFile = (limit, none) →
      readContentUint64 u sys usageFile = (usage, none) → usage ≤ limit) :
    (ReadCgroupMemory u sys pid).1.2.1 ≤ (ReadCgroupMemory u sys pid).1.1 := by
  unfold ReadCgroupMemory
  rcases hf : cgroupFiles sys pid with ⟨_ | ⟨limitFile, usageFile⟩, trace⟩
  · exact Nat.zero_le _
  · have hmax := readContentUint64_le u sys limitFile
    simp only
    rcases hl : readContentUint64 u sys limitFile with ⟨limit, _ | err⟩
    · rcases hu : readContentUint64 u sys usageFile with ⟨usage, _ | err⟩
      · have hle := hcg limitFile usageFile limit usage (by rw [hf]) hl hu
        rw [hl] at hmax
        simp only at hmax ⊢
        rw [subUint64_of_le limit usage hle hmax]
        omega
      · exact Nat.zero_le _
    · exact Nat.zero_le _

/-- C9 (as stated, refuted): a meminfo table whose `MemAvailable` exceeds `MemTotal`
(200 kB against 100 kB), with an unbounded cgroup (`memory.max` holding `max`,
`memory.current` holding `0`), gives a snapshot with `Available = 204800 > Total = 102400`. -/
theorem newMemoryInfo_available_gt_total :
    (NewMemoryInfo sampleTrim
        (sampleSys (Except.ok ⟨some 100, some 200⟩) (some [109, 97, 120, 10]) (some [48, 10]))
        1).1
        = { Total := 102400, Available := 204800 } ∧
      ¬ ((NewMemoryInfo sampleTrim
            (sampleSys (Except.ok ⟨some 100, some 200⟩) (some [109, 97, 120, 10])
              (some [48, 10])) 1).1.Available
          ≤ (NewMemoryInfo sampleTrim
            (sampleSys (Except.ok ⟨some 100, some 200⟩) (some [109, 97, 120, 10])
              (some [48, 10])) 1).1.Total) := by
  decide

/-- C9 (amended): the snapshot built by `NewMemoryInfo` satisfies `Available ≤ Total`
whenever the meminfo table, if it has both fields, reports `MemAvailable ≤ MemTotal` with
`MemTotal * 1024` inside the `uint64` range, and the cgroup usage, if both cgroup files are
read, is at most the cgroup limit. -/
theorem newMemoryInfo_available_le_total (u : UnicodeTrim) (sys : Sys) (pid : Int)
    (hmem : ∀ meminfo total available, sys.meminfo = Except.ok meminfo →
      meminfo.MemTotal = some total → meminfo.MemAvailable = some available →
      available ≤ total ∧ total * 1024 < 2 ^ 64)
    (hcg : ∀ limitFile usageFile limit usage,
      (cgroupFiles sys pid).1 = Except.ok (limitFile, usageFile) →
      readContentUint64 u sys limitFile = (limit, none) →
      readContentUint64 u sys usageFile = (usage, none) → usage ≤ limit) :
    (NewMemoryInfo u sys pid).1.Available ≤ (NewMemoryInfo u sys pid).1.Total := by
  have hsys : (ReadSystemMemory sys).1.2.1 ≤ (ReadSystemMemory sys).1.1 := by
    unfold ReadSystemMemory
    rcases hm : sys.meminfo with err | ⟨_ | total, _ | available⟩
    · exact Nat.zero_le _
    · exact Nat.zero_le _
    · exact Nat.zero_le _
    · exact Nat.zero_le _
    · obtain ⟨h1, h2⟩ := hmem _ total available hm rfl rfl
      simp only [mulUint64, uint64Size]
      rw [Nat.mod_eq_of_lt h2, Nat.mod_eq_of_lt (by omega)]
      omega
  have hcgm := readCgroupMemory_available_le u sys pid hcg
  unfold NewMemoryInfo
  rcases hs : ReadSystemMemory sys with ⟨⟨t, a, _ | e⟩, tr⟩
  · rw [hs] at hsys
    rcases hc : ReadCgroupMemory u sys pid with ⟨⟨l, ca, _ | e1⟩, tr1⟩
    · rw [hc] at hcgm
      simp only at hsys hcgm ⊢
      exact min_le_min hsys hcgm
    · exact hsys
  · rw [hs] at hsys
    exact hsys

theorem newMemoryInfo_available_le_total_witness :
    (NewMemoryInfo sampleTrim (sampleSys (Except.ok ⟨some 1000, some 500⟩)
        (some [50, 48, 48, 10]) (some [49, 48, 48, 10])) 1).1.Available
      ≤ (NewMemoryInfo sampleTrim (sampleSys (Except.ok ⟨some 1000, some 500⟩)
        (some [50, 48, 48, 10]) (some [49, 48, 48, 10])) 1).1.Total :=
  newMemoryInfo_available_le_total sampleTrim
    (sampleSys (Except.ok ⟨some 1000, some 500⟩) (some [50, 48, 48, 10]) (some [49, 48, 48, 10]))
    1
    (by
      intro meminfo total available hm ht ha
      have e : meminfo = ⟨some 1000, some 500⟩ := (Except.ok.inj hm).symm
      subst e
      cases ht
      cases ha
      decide)
    (by
      intro limitFile usageFile limit usage h hl hu
      have e : (limitFile, usageFile)
          = ("/sys/fs/cgroup/memory.max", "/sys/fs/cgroup/memory.current") := by
        have h1 : (cgroupFiles (sampleSys (Except.ok ⟨some 1000, some 500⟩)
            (some [50, 48, 48, 10]) (some [49, 48, 48, 10])) 1).1
            = Except.ok ("/sys/fs/cgroup/memory.max", "/sys/fs/cgroup/memory.current") := by
          rfl
        rw [h1] at h
        exact (Except.ok.inj h).symm
      cases e
      have hl1 : limit = 200 := (congrArg Prod.fst hl).symm.trans (by decide)
      have hu1 : usage = 100 := (congrArg Prod.fst hu).symm.trans (by decide)
      omega)


/-- An ASCII white-space byte is below `0x80`. -/
theorem asciiSpace_lt (c : UInt8) (h : asciiSpace c = true) : ¬ c ≥ 128 := by
  unfold asciiSpace at h
  simp only [Bool.decide_or, Bool.or_eq_true, decide_eq_true_eq] at h
  rcases h with h | h | h | h | h | h <;> subst h <;> decide

/-- The first loop of `TrimSpace` skips leading ASCII white space. -/
theorem TrimSpace_append_left (u : UnicodeTrim) (ws rest : List UInt8)
    (h : ∀ c ∈ ws, asciiSpace c = true) : TrimSpace u (ws ++ rest) = TrimSpace u rest := by
  induction ws with
  | nil => rfl
  | cons c ws ih =>
    have hc := h c (List.mem_cons_self c ws)
    rw [List.cons_append, TrimSpace, if_neg (asciiSpace_lt c hc), if_pos hc]
    exact ih (fun x hx => h x (List.mem_cons_of_mem c hx))

/-- The second loop of `TrimSpace` skips trailing ASCII white space. -/
theorem trimSpaceRight_append_left (u : UnicodeTrim) (ws rest : List UInt8)
    (h : ∀ c ∈ ws, asciiSpace c = true) :
    trimSpaceRight u (ws ++ rest) = trimSpaceRight u rest := by
  induction ws with
  | nil => rfl
  | cons c ws ih =>
    have hc := h c (List.mem_cons_self c ws)
    rw [List.cons_append, trimSpaceRight, if_neg (asciiSpace_lt c hc), if_pos hc]
    exact ih (fun x hx => h x (List.mem_cons_of_mem c hx))

/-- `TrimSpace` returns the core of a string padded with ASCII white space, when the core
starts and ends with ASCII bytes that are not white space. -/
theorem TrimSpace_padded (u : UnicodeTrim) (ws1 ws2 : List UInt8) (a b : UInt8)
    (h1 : ∀ c ∈ ws1, asciiSpace c = true) (h2 : ∀ c ∈ ws2, asciiSpace c = true)
    (ha : ¬ a ≥ 128) (has : asciiSpace a = false) (hb : ¬ b ≥ 128) (hbs : asciiSpace b = false)
    (core : List UInt8) (hhead : core.head? = some a) (hlast : core.reverse.head? = some b) :
    TrimSpace u (ws1 ++ core ++ ws2) = core := by
  rw [List.append_assoc, TrimSpace_append_left u ws1 _ h1]
  cases core with
  | nil => exact absurd hhead (by simp)
  | cons x t =>
    have hx : x = a := by simpa using hhead
    subst hx
    rw [List.cons_append, TrimSpace, if_neg ha, has]
    simp only [Bool.false_eq_true, if_false]
    rw [← List.cons_append, List.reverse_append,
      trimSpaceRight_append_left u ws2.reverse _
        (fun c hc => h2 c (List.mem_reverse.mp hc))]
    cases hr : (x :: t).reverse with
    | nil => rw [hr] at hlast; exact absurd hlast (by simp)
    | cons y r =>
      rw [hr] at hlast
      have hy : y = b := by simpa using hlast
      subst hy
      rw [trimSpaceRight, if_neg hb, hbs]
      simp only [Bool.false_eq_true, if_false]
      rw [← hr, List.reverse_reverse]

/-- C10 (as stated, refuted): thirty spaces followed by `max` are read as an error with
value 0, because only the first 32 bytes of the file are looked at. -/
theorem readContentUint64_max_far :
    readContentUint64 sampleTrim
        (sampleSys (Except.error "no meminfo") (some (List.replicate 30 32 ++ maxLiteral)) none)
        "/sys/fs/cgroup/memory.max"
      = (0, some "invalid syntax") := by
  decide

/-- C10 (amended): a file whose content is the literal `max` between runs of ASCII white
space (tab, line feed, vertical tab, form feed, carriage return, space), the leading run
being at most 29 bytes long so that the literal lies within the 32 bytes that are read, is
read as `2 ^ 64 - 1` with no error. -/
theorem readContentUint64_max (u : UnicodeTrim) (sys : Sys) (filePath : String)
    (ws1 ws2 : List UInt8) (hfile : sys.file filePath = some (ws1 ++ maxLiteral ++ ws2))
    (h1 : ∀ c ∈ ws1, asciiSpace c = true) (h2 : ∀ c ∈ ws2, asciiSpace c = true)
    (hlen : ws1.length ≤ 29) :
    readContentUint64 u sys filePath = (2 ^ 64 - 1, none) := by
  unfold readContentUint64
  rw [hfile]
  simp only
  unfold parseContentUint64
  have hne : ¬ (ws1 ++ maxLiteral ++ ws2 = []) := by simp [maxLiteral]
  rw [if_neg hne]
  have htake : List.take 32 (ws1 ++ maxLiteral ++ ws2)
      = ws1 ++ maxLiteral ++ List.take (32 - (ws1.length + 3)) ws2 := by
    rw [List.take_append_eq_append_take,
      List.take_of_length_le (by simp [maxLiteral]; omega)]
    simp [maxLiteral]
  simp only [htake]
  rw [TrimSpace_padded u ws1 _ 109 120 h1
    (fun c hc => h2 c (List.mem_of_mem_take hc)) (by decide) (by decide) (by decide)
    (by decide) maxLiteral rfl rfl]
  simp [MaxUint64]

theorem readContentUint64_max_witness :
    readContentUint64 sampleTrim
        (sampleSys (Except.error "no meminfo") (some ([32, 9] ++ maxLiteral ++ [32, 10])) none)
        "/sys/fs/cgroup/memory.max"
      = (2 ^ 64 - 1, none) :=
  readContentUint64_max sampleTrim _ "/sys/fs/cgroup/memory.max" [32, 9] [32, 10] (by decide)
    (by decide) (by decide) (by decide)

end procps

/-! ## Further properties of the reaper policy -/

namespace reaper

open procps

/-- The inner loop of `Run` leaves the two gauges as it finds them. -/
theorem terminateLoop_gauges {W : Type} (r : Reaper) (deps : Deps W) (pid : Int) (l : Nat) :
    ∀ (n i : Nat) (ws : List Process) (s : RunState W), l - i = n →
      (r.terminateLoop deps pid l i ws s).metrics.active = s.metrics.active ∧
        (r.terminateLoop deps pid l i ws s).metrics.shutdown = s.metrics.shutdown := by
  intro n
  induction n with
  | zero =>
    intro i ws s hn
    rw [Reaper.terminateLoop, if_neg (by omega)]
    exact ⟨rfl, rfl⟩
  | succ n ih =>
    intro i ws s hn
    rw [Reaper.terminateLoop, if_pos (by omega)]
    split
    · exact ⟨rfl, rfl⟩
    · simp only
      split
      · exact ⟨rfl, rfl⟩
      · split
        · exact ih (i + 1) _ _ (by omega)
        · exact ih (i + 1) _ _ (by omega)

/-- What the inner loop of `Run` adds to the state: a list `new` of `procpsTerminate`
results, one per call, with the `terminated` counter raised once per `nil` result and the
`error` counter once per error. -/
theorem terminateLoop_counters {W : Type} (r : Reaper) (deps : Deps W) (pid : Int) (l : Nat) :
    ∀ (n i : Nat) (ws : List Process) (s : RunState W), l - i = n →
      ∃ new : List (Option Error),
        (r.terminateLoop deps pid l i ws s).terminateErrors = s.terminateErrors ++ new ∧
        (r.terminateLoop deps pid l i ws s).terminateCalls.length
          = s.terminateCalls.length + new.length ∧
        (r.terminateLoop deps pid l i ws s).metrics.terminated
          = s.metrics.terminated + (new.filter Option.isNone).length ∧
        (r.terminateLoop deps pid l i ws s).metrics.error
          = s.metrics.error + (new.filter Option.isSome).length ∧
        ∀ e ∈ new, ∃ world proc, e = (deps.procpsTerminate world proc).1 := by
  intro n
  induction n with
  | zero =>
    intro i ws s hn
    rw [Reaper.terminateLoop, if_neg (by omega)]
    exact ⟨[], by simp, by simp, by simp, by simp, by simp⟩
  | succ n ih =>
    intro i ws s hn
    rw [Reaper.terminateLoop, if_pos (by omega)]
    split
    · exact ⟨[], by simp, by simp, by simp, by simp, by simp⟩
    · rename_i world1 _
      simp only
      split
      · exact ⟨[], by simp, by simp, by simp, by simp, by simp⟩
      · rename_i worker _
        split
        · rename_i world2 hterm
          obtain ⟨new, h1, h2, h3, h4, h5⟩ := ih (i + 1) _ _ (by omega)
          refine ⟨none :: new, ?_, ?_, ?_, ?_, ?_⟩
          · rw [h1]; simp
          · rw [h2]; simp; omega
          · rw [h3]; simp; omega
          · rw [h4]; simp
          · intro e he
            rcases List.mem_cons.mp he with rfl | he
            · exact ⟨world1, worker, by rw [hterm]⟩
            · exact h5 e he
        · rename_i err world2 hterm
          obtain ⟨new, h1, h2, h3, h4, h5⟩ := ih (i + 1) _ _ (by omega)
          refine ⟨some err :: new, ?_, ?_, ?_, ?_, ?_⟩
          · rw [h1]; simp
          · rw [h2]; simp; omega
          · rw [h3]; simp
          · rw [h4]; simp; omega
          · intro e he
            rcases List.mem_cons.mp he with rfl | he
            · exact ⟨world1, worker, by rw [hterm]⟩
            · exact h5 e he


/-- The pass of `Run` over one master adds to the state as the inner loop does. -/
theorem runMaster_counters {W : Type} (r : Reaper) (deps : Deps W) (s : RunState W)
    (master : Process) :
    ∃ new : List (Option Error),
      (r.runMaster deps s master).terminateErrors = s.terminateErrors ++ new ∧
      (r.runMaster deps s master).terminateCalls.length
        = s.terminateCalls.length + new.length ∧
      (r.runMaster deps s master).metrics.terminated
        = s.metrics.terminated + (new.filter Option.isNone).length ∧
      (r.runMaster deps s master).metrics.error
        = s.metrics.error + (new.filter Option.isSome).length ∧
      ∀ e ∈ new, ∃ world proc, e = (deps.procpsTerminate world proc).1 := by
  unfold Reaper.runMaster
  exact terminateLoop_counters r deps master.Pid _ _ 0 _ _ rfl

/-- The passes of `Run` over a list of masters add up. -/
theorem foldl_runMaster_counters {W : Type} (r : Reaper) (deps : Deps W)
    (masters : List Process) :
    ∀ s : RunState W, ∃ new : List (Option Error),
      (masters.foldl (r.runMaster deps) s).terminateErrors = s.terminateErrors ++ new ∧
      (masters.foldl (r.runMaster deps) s).terminateCalls.length
        = s.terminateCalls.length + new.length ∧
      (masters.foldl (r.runMaster deps) s).metrics.terminated
        = s.metrics.terminated + (new.filter Option.isNone).length ∧
      (masters.foldl (r.runMaster deps) s).metrics.error
        = s.metrics.error + (new.filter Option.isSome).length := by
  induction masters with
  | nil =>
    intro s
    exact ⟨[], by simp, by simp, by simp, by simp⟩
  | cons master masters ih =>
    intro s
    obtain ⟨new1, a1, a2, a3, a4, _⟩ := runMaster_counters r deps s master
    obtain ⟨new2, b1, b2, b3, b4⟩ := ih (r.runMaster deps s master)
    refine ⟨new1 ++ new2, ?_, ?_, ?_, ?_⟩
    · rw [List.foldl_cons, b1, a1, List.append_assoc]
    · rw [List.foldl_cons, b2, a2, List.length_append]; omega
    · rw [List.foldl_cons, b3, a3, List.filter_append, List.length_append]; omega
    · rw [List.foldl_cons, b4, a4, List.filter_append, List.length_append]; omega

/-- What the inner loop of `Run` does from index `i` on: it calls `procpsTerminate` on a
list `procs` of workers, one call each; `results` holds what those calls returned, in
order; the `terminated` counter is raised and one second slept once per `nil` result, and
the `error` counter raised once per error. -/
theorem terminateLoop_results {W : Type} (r : Reaper) (deps : Deps W) (pid : Int) (l : Nat) :
    ∀ (n i : Nat) (ws : List Process) (s : RunState W), l - i = n →
      ∃ (procs : List Process) (results : List (Option Error)),
        (r.terminateLoop deps pid l i ws s).terminateCalls = s.terminateCalls ++ procs ∧
        (r.terminateLoop deps pid l i ws s).terminateErrors = s.terminateErrors ++ results ∧
        List.Forall₂ (fun proc e => ∃ world, e = (deps.procpsTerminate world proc).1)
          procs results ∧
        (r.terminateLoop deps pid l i ws s).metrics.terminated
          = s.metrics.terminated + (results.filter Option.isNone).length ∧
        (r.terminateLoop deps pid l i ws s).metrics.error
          = s.metrics.error + (results.filter Option.isSome).length ∧
        (r.terminateLoop deps pid l i ws s).sleeps
          = s.sleeps + (results.filter Option.isNone).length := by
  intro n
  induction n with
  | zero =>
    intro i ws s hn
    rw [Reaper.terminateLoop, if_neg (by omega)]
    exact ⟨[], [], by simp, by simp, List.Forall₂.nil, by simp, by simp, by simp⟩
  | succ n ih =>
    intro i ws s hn
    rw [Reaper.terminateLoop, if_pos (by omega)]
    split
    · exact ⟨[], [], by simp, by simp, List.Forall₂.nil, by simp, by simp, by simp⟩
    · rename_i world1 _
      simp only
      split
      · exact ⟨[], [], by simp, by simp, List.Forall₂.nil, by simp, by simp, by simp⟩
      · rename_i worker _
        split
        · rename_i world2 hterm
          obtain ⟨procs, results, h1, h2, h3, h4, h5, h6⟩ := ih (i + 1) _ _ (by omega)
          refine ⟨worker :: procs, none :: results, ?_, ?_, ?_, ?_, ?_, ?_⟩
          · rw [h1]; simp
          · rw [h2]; simp
          · exact List.Forall₂.cons ⟨world1, by rw [hterm]⟩ h3
          · rw [h4]; simp; omega
          · rw [h5]; simp
          · rw [h6]; simp; omega
        · rename_i err world2 hterm
          obtain ⟨procs, results, h1, h2, h3, h4, h5, h6⟩ := ih (i + 1) _ _ (by omega)
          refine ⟨worker :: procs, some err :: results, ?_, ?_, ?_, ?_, ?_, ?_⟩
          · rw [h1]; simp
          · rw [h2]; simp
          · exact List.Forall₂.cons ⟨world1, by rw [hterm]⟩ h3
          · rw [h4]; simp
          · rw [h5]; simp; omega
          · rw [h6]; simp

/-- The passes of `Run` over a list of masters: the calls and their results add up. -/
theorem foldl_runMaster_results {W : Type} (r : Reaper) (deps : Deps W)
    (masters : List Process) :
    ∀ s : RunState W, ∃ (procs : List Process) (results : List (Option Error)),
      (masters.foldl (r.runMaster deps) s).terminateCalls = s.terminateCalls ++ procs ∧
      (masters.foldl (r.runMaster deps) s).terminateErrors = s.terminateErrors ++ results ∧
      List.Forall₂ (fun proc e => ∃ world, e = (deps.procpsTerminate world proc).1)
        procs results ∧
      (masters.foldl (r.runMaster deps) s).metrics.terminated
        = s.metrics.terminated + (results.filter Option.isNone).length ∧
      (masters.foldl (r.runMaster deps) s).metrics.error
        = s.metrics.error + (results.filter Option.isSome).length ∧
      (masters.foldl (r.runMaster deps) s).sleeps
        = s.sleeps + (results.filter Option.isNone).length := by
  induction masters with
  | nil =>
    intro s
    exact ⟨[], [], by simp, by simp, List.Forall₂.nil, by simp, by simp, by simp⟩
  | cons master masters ih =>
    intro s
    obtain ⟨p1, r1, a1, a2, a3, a4, a5, a6⟩ :
        ∃ (procs : List Process) (results : List (Option Error)),
          (r.runMaster deps s master).terminateCalls = s.terminateCalls ++ procs ∧
          (r.runMaster deps s master).terminateErrors = s.terminateErrors ++ results ∧
          List.Forall₂ (fun proc e => ∃ world, e = (deps.procpsTerminate world proc).1)
            procs results ∧
          (r.runMaster deps s master).metrics.terminated
            = s.metrics.terminated + (results.filter Option.isNone).length ∧
          (r.runMaster deps s master).metrics.error
            = s.metrics.error + (results.filter Option.isSome).length ∧
          (r.runMaster deps s master).sleeps
            = s.sleeps + (results.filter Option.isNone).length := by
      unfold Reaper.runMaster
      exact terminateLoop_results r deps master.Pid _ _ 0 _ _ rfl
    obtain ⟨p2, r2, b1, b2, b3, b4, b5, b6⟩ := ih (r.runMaster deps s master)
    refine ⟨p1 ++ p2, r1 ++ r2, ?_, ?_, List.rel_append a3 b3, ?_, ?_, ?_⟩
    · rw [List.foldl_cons, b1, a1, List.append_assoc]
    · rw [List.foldl_cons, b2, a2, List.append_assoc]
    · rw [List.foldl_cons, b4, a4, List.filter_append, List.length_append]; omega
    · rw [List.foldl_cons, b5, a5, List.filter_append, List.length_append]; omega
    · rw [List.foldl_cons, b6, a6, List.filter_append, List.length_append]; omega

/-- C15: `Run` is one pass of the loop body per master found. In one `Run` the calls of
`procpsTerminate` are made on a list `procs` of workers and return the list `results`, one
result per call; the `terminated` counter grows by the number of `nil` results and the
`error` counter by the number of errors. A failed call does not stop the loop: with one
master found, the memory threshold disabled, a cap `C ≥ 1` and every call failing, a `Run`
that observes `S` shutting-down workers makes `max(0, S - C)` calls, raises the `error`
counter by that number and leaves the `terminated` counter alone. -/
theorem Run_counters {W : Type} (r : Reaper) (deps : Deps W) (s : RunState W) :
    r.Run deps s
        = (true, (deps.procpsPgrep s.world [OptionNginxMaster]).1.foldl (r.runMaster deps)
            { s with world := (deps.procpsPgrep s.world [OptionNginxMaster]).2 }) ∧
      (∃ (procs : List Process) (results : List (Option Error)),
        (r.Run deps s).2.terminateCalls = s.terminateCalls ++ procs ∧
        (r.Run deps s).2.terminateErrors = s.terminateErrors ++ results ∧
        List.Forall₂ (fun proc e => ∃ world, e = (deps.procpsTerminate world proc).1)
          procs results ∧
        (r.Run deps s).2.metrics.terminated
          = s.metrics.terminated + (results.filter Option.isNone).length ∧
        (r.Run deps s).2.metrics.error
          = s.metrics.error + (results.filter Option.isSome).length) ∧
      (∀ master : Process, (deps.procpsPgrep s.world [OptionNginxMaster]).1 = [master] →
        r.availableMemoryPercent = 0 → 1 ≤ r.maxShutdownWorkers →
        (∀ world proc, (deps.procpsTerminate world proc).1 ≠ none) →
        (r.Run deps s).2.terminateCalls.length
            = s.terminateCalls.length
              + ((deps.procpsFilter
                  (deps.procpsPgrep (deps.procpsPgrep s.world [OptionNginxMaster]).2
                    [OptionNginxWorker, option.Parent master.Pid]).2
                  (deps.procpsPgrep (deps.procpsPgrep s.world [OptionNginxMaster]).2
                    [OptionNginxWorker, option.Parent master.Pid]).1
                  [OptionNginxWorkerShutdown]).1.length
                - r.maxShutdownWorkers.toNat) ∧
          (r.Run deps s).2.metrics.error
            = s.metrics.error
              + ((deps.procpsFilter
                  (deps.procpsPgrep (deps.procpsPgrep s.world [OptionNginxMaster]).2
                    [OptionNginxWorker, option.Parent master.Pid]).2
                  (deps.procpsPgrep (deps.procpsPgrep s.world [OptionNginxMaster]).2
                    [OptionNginxWorker, option.Parent master.Pid]).1
                  [OptionNginxWorkerShutdown]).1.length
                - r.maxShutdownWorkers.toNat) ∧
          (r.Run deps s).2.metrics.terminated = s.metrics.terminated) := by
  have htie : r.Run deps s
      = (true, (deps.procpsPgrep s.world [OptionNginxMaster]).1.foldl (r.runMaster deps)
          { s with world := (deps.procpsPgrep s.world [OptionNginxMaster]).2 }) := rfl
  have hres := foldl_runMaster_results r deps (deps.procpsPgrep s.world [OptionNginxMaster]).1
    { s with world := (deps.procpsPgrep s.world [OptionNginxMaster]).2 }
  refine ⟨htie, ?_, ?_⟩
  · rw [htie]
    obtain ⟨procs, results, h1, h2, h3, h4, h5, _⟩ := hres
    exact ⟨procs, results, h1, h2, h3, h4, h5⟩
  · intro master hmaster hT hC hfail
    obtain ⟨procs, results, h1, _, h3, h4, h5, _⟩ := hres
    rw [htie]
    dsimp only at h1 h4 h5 ⊢
    have hcalls : ((deps.procpsPgrep s.world [OptionNginxMaster]).1.foldl (r.runMaster deps)
          { s with world := (deps.procpsPgrep s.world [OptionNginxMaster]).2 }).terminateCalls.length
        = s.terminateCalls.length
          + ((deps.procpsFilter
              (deps.procpsPgrep (deps.procpsPgrep s.world [OptionNginxMaster]).2
                [OptionNginxWorker, option.Parent master.Pid]).2
              (deps.procpsPgrep (deps.procpsPgrep s.world [OptionNginxMaster]).2
                [OptionNginxWorker, option.Parent master.Pid]).1
              [OptionNginxWorkerShutdown]).1.length
            - r.maxShutdownWorkers.toNat) := by
      rw [hmaster, List.foldl_cons, List.foldl_nil]
      unfold Reaper.runMaster
      exact terminateLoop_calls_threshold_zero r deps master.Pid _ hT hC _ 0 _ _ rfl rfl
    have hlen : procs.length = results.length := h3.length_eq
    have hsome : ∀ e ∈ results, Option.isSome e = true := by
      intro e he
      have hall : ∀ (ps : List Process) (es : List (Option Error)),
          List.Forall₂ (fun proc e => ∃ world, e = (deps.procpsTerminate world proc).1) ps es →
          ∀ e ∈ es, Option.isSome e = true := by
        intro ps es hf
        induction hf with
        | nil => intro e he; simp at he
        | cons hhead _ ih =>
          intro e he
          rcases List.mem_cons.mp he with rfl | he
          · obtain ⟨world, rfl⟩ := hhead
            exact Option.isSome_iff_ne_none.mpr (hfail world _)
          · exact ih e he
      exact hall procs results h3 e he
    have hnone : ∀ e ∈ results, ¬ (Option.isNone e = true) := by
      intro e he hn
      have h := hsome e he
      cases e with
      | none => simp at h
      | some v => simp at hn
    have e1 : results.filter Option.isSome = results := List.filter_eq_self.mpr hsome
    have e2 : results.filter Option.isNone = [] := List.filter_eq_nil_iff.mpr hnone
    rw [e1] at h5
    rw [e2] at h4
    rw [h1, List.length_append] at hcalls
    refine ⟨?_, ?_, ?_⟩
    · rw [h1, List.length_append]
      exact hcalls
    · rw [h5]
      omega
    · rw [h4]
      rfl

theorem Run_counters_witness :
    ((Reaper.mk 1 1 0).Run (sampleDeps (some "operation not permitted"))
          (sampleState ⟨0, 0⟩)).2.terminateCalls.length = 2 ∧
      ((Reaper.mk 1 1 0).Run (sampleDeps (some "operation not permitted"))
          (sampleState ⟨0, 0⟩)).2.metrics.error = 2 ∧
      ((Reaper.mk 1 1 0).Run (sampleDeps (some "operation not permitted"))
          (sampleState ⟨0, 0⟩)).2.metrics.terminated = 0 :=
  have h := (Run_counters (Reaper.mk 1 1 0) (sampleDeps (some "operation not permitted"))
    (sampleState ⟨0, 0⟩)).2.2 sampleMaster (by decide) rfl (by decide)
    (by intro world proc; simp [sampleDeps])
  ⟨h.1.trans (by decide), h.2.1.trans (by decide), h.2.2⟩


/-- A `Run` that finds masters leaves the metrics of its pass over the last of them, which
sets both gauges before its inner loop. -/
theorem foldl_runMaster_last {W : Type} (r : Reaper) (deps : Deps W) (s : RunState W)
    (before : List Process) (master : Process) :
    (before ++ [master]).foldl (r.runMaster deps) s
      = r.runMaster deps (before.foldl (r.runMaster deps) s) master := by
  rw [List.foldl_append, List.foldl_cons, List.foldl_nil]

/-- C16: `Run` is one pass of the loop body per master found and always returns true. The
pass over a master observed with worker list `W` and shutting-down sub-list `D` leaves the
shutdown gauge at `|D|` and the active gauge at `|W| - |D|`, whatever the inner loop
terminated; so after a `Run` the two gauges hold these values for the last master
evaluated. -/
theorem Run_gauges {W : Type} (r : Reaper) (deps : Deps W) (s : RunState W)
    (master : Process) :
    r.Run deps s
        = (true, (deps.procpsPgrep s.world [OptionNginxMaster]).1.foldl (r.runMaster deps)
            { s with world := (deps.procpsPgrep s.world [OptionNginxMaster]).2 }) ∧
      (r.Run deps s).1 = true ∧
      (r.runMaster deps s master).metrics.shutdown
        = ((deps.procpsFilter
            (deps.procpsPgrep s.world [OptionNginxWorker, option.Parent master.Pid]).2
            (deps.procpsPgrep s.world [OptionNginxWorker, option.Parent master.Pid]).1
            [OptionNginxWorkerShutdown]).1.length : Int) ∧
      (r.runMaster deps s master).metrics.active
        = ((deps.procpsPgrep s.world [OptionNginxWorker, option.Parent master.Pid]).1.length
            : Int)
          - ((deps.procpsFilter
              (deps.procpsPgrep s.world [OptionNginxWorker, option.Parent master.Pid]).2
              (deps.procpsPgrep s.world [OptionNginxWorker, option.Parent master.Pid]).1
              [OptionNginxWorkerShutdown]).1.length : Int) ∧
      (∀ (before : List Process) (seen : RunState W),
        (deps.procpsPgrep s.world [OptionNginxMaster]).1 = before ++ [master] →
        seen = before.foldl (r.runMaster deps)
            { s with world := (deps.procpsPgrep s.world [OptionNginxMaster]).2 } →
        (r.Run deps s).2.metrics.shutdown
            = ((deps.procpsFilter
                (deps.procpsPgrep seen.world [OptionNginxWorker, option.Parent master.Pid]).2
                (deps.procpsPgrep seen.world [OptionNginxWorker, option.Parent master.Pid]).1
                [OptionNginxWorkerShutdown]).1.length : Int) ∧
          (r.Run deps s).2.metrics.active
            = ((deps.procpsPgrep seen.world
                  [OptionNginxWorker, option.Parent master.Pid]).1.length : Int)
              - ((deps.procpsFilter
                  (deps.procpsPgrep seen.world
                    [OptionNginxWorker, option.Parent master.Pid]).2
                  (deps.procpsPgrep seen.world
                    [OptionNginxWorker, option.Parent master.Pid]).1
                  [OptionNginxWorkerShutdown]).1.length : Int)) := by
  have hpass : ∀ s1 : RunState W,
      (r.runMaster deps s1 master).metrics.shutdown
          = ((deps.procpsFilter
              (deps.procpsPgrep s1.world [OptionNginxWorker, option.Parent master.Pid]).2
              (deps.procpsPgrep s1.world [OptionNginxWorker, option.Parent master.Pid]).1
              [OptionNginxWorkerShutdown]).1.length : Int) ∧
        (r.runMaster deps s1 master).metrics.active
          = ((deps.procpsPgrep s1.world
                [OptionNginxWorker, option.Parent master.Pid]).1.length : Int)
            - ((deps.procpsFilter
                (deps.procpsPgrep s1.world [OptionNginxWorker, option.Parent master.Pid]).2
                (deps.procpsPgrep s1.world [OptionNginxWorker, option.Parent master.Pid]).1
                [OptionNginxWorkerShutdown]).1.length : Int) := by
    intro s1
    constructor
    · unfold Reaper.runMaster
      exact (terminateLoop_gauges r deps master.Pid _ _ 0 _ _ rfl).2
    · unfold Reaper.runMaster
      exact (terminateLoop_gauges r deps master.Pid _ _ 0 _ _ rfl).1
  have htie : r.Run deps s
      = (true, (deps.procpsPgrep s.world [OptionNginxMaster]).1.foldl (r.runMaster deps)
          { s with world := (deps.procpsPgrep s.world [OptionNginxMaster]).2 }) := rfl
  refine ⟨htie, rfl, (hpass s).1, (hpass s).2, ?_⟩
  intro before seen hmasters hseen
  rw [htie]
  simp only
  rw [hmasters, foldl_runMaster_last, ← hseen]
  exact hpass seen

theorem Run_gauges_witness :
    ((Reaper.mk 1 1 0).Run (sampleDeps none) (sampleState ⟨0, 0⟩)).2.metrics.shutdown = 3 ∧
      ((Reaper.mk 1 1 0).Run (sampleDeps none) (sampleState ⟨0, 0⟩)).2.metrics.active = 1 ∧
      ((Reaper.mk 1 1 0).Run (sampleDeps none) (sampleState ⟨0, 0⟩)).2.terminateCalls.length
        = 2 ∧
      ((Reaper.mk 1 3 0).Run (sampleDeps none) (sampleState ⟨0, 0⟩)).2.metrics.shutdown = 3 ∧
      ((Reaper.mk 1 3 0).Run (sampleDeps none) (sampleState ⟨0, 0⟩)).2.metrics.active = 1 :=
  have h := (Run_gauges (Reaper.mk 1 1 0) (sampleDeps none) (sampleState ⟨0, 0⟩)
    sampleMaster).2.2.2.2 [] (sampleState ⟨0, 0⟩) (by decide) rfl
  have h3 := (Run_gauges (Reaper.mk 1 3 0) (sampleDeps none) (sampleState ⟨0, 0⟩)
    sampleMaster).2.2.2.2 [] (sampleState ⟨0, 0⟩) (by decide) rfl
  ⟨h.1.trans (by decide), h.2.trans (by decide),
    (terminateLoop_calls_threshold_zero (Reaper.mk 1 1 0) (sampleDeps none) 1 3 rfl
      (by decide) 3 0 sampleShutdown _ rfl rfl).trans (by decide),
    h3.1.trans (by decide), h3.2.trans (by decide)⟩

/-- C17: `NewReaper` panics exactly when `interval ≤ 0`, `maxShutdownWorkers ≤ 0`,
`availableMemoryPercent < 0` or `availableMemoryPercent > 100`; otherwise it returns a
`Reaper` holding the three given values (with its metric series at zero). -/
theorem NewReaper_panics_iff (interval maxShutdownWorkers availableMemoryPercent : Int) :
    ((∃ err, NewReaper interval maxShutdownWorkers availableMemoryPercent = Except.error err) ↔
        (interval ≤ 0 ∨ maxShutdownWorkers ≤ 0 ∨ availableMemoryPercent < 0 ∨
          availableMemoryPercent > 100)) ∧
      (¬ (interval ≤ 0 ∨ maxShutdownWorkers ≤ 0 ∨ availableMemoryPercent < 0 ∨
          availableMemoryPercent > 100) →
        NewReaper interval maxShutdownWorkers availableMemoryPercent
          = Except.ok
              ({ interval := interval
                 maxShutdownWorkers := maxShutdownWorkers
                 availableMemoryPercent := availableMemoryPercent },
                { active := 0, shutdown := 0, error := 0, terminated := 0 })) := by
  unfold NewReaper
  by_cases h1 : interval ≤ 0
  · simp [h1]
  · by_cases h2 : maxShutdownWorkers ≤ 0
    · simp [h1, h2]
    · by_cases h3 : availableMemoryPercent < 0 ∨ availableMemoryPercent > 100
      · rw [if_neg h1, if_neg h2, if_pos h3]
        constructor
        · constructor
          · intro _
            exact Or.inr (Or.inr h3)
          · intro _
            exact ⟨_, rfl⟩
        · intro hn
          exact absurd (Or.inr (Or.inr h3)) hn
      · rw [if_neg h1, if_neg h2, if_neg h3]
        constructor
        · constructor
          · rintro ⟨err, herr⟩
            exact Except.noConfusion herr
          · rintro (h | h | h)
            · exact absurd h h1
            · exact absurd h h2
            · exact absurd h h3
        · intro _
          rfl

theorem NewReaper_panics_iff_witness :
    ¬ ((30000000000 : Int) ≤ 0 ∨ (255 : Int) ≤ 0 ∨ (0 : Int) < 0 ∨ (0 : Int) > 100) ∧
      NewReaper 30000000000 255 0
        = Except.ok
            ({ interval := 30000000000, maxShutdownWorkers := 255, availableMemoryPercent := 0 },
              { active := 0, shutdown := 0, error := 0, terminated := 0 }) ∧
      (∃ err, NewReaper 30000000000 255 101 = Except.error err) :=
  ⟨by decide, (NewReaper_panics_iff 30000000000 255 0).2 (by decide),
    (NewReaper_panics_iff 30000000000 255 101).1.mpr (by decide)⟩

end reaper

namespace procps

/-- The loop of `Filter` (and of `Pgrep`) appends the matching records to what it has. -/
theorem filterLoop_eq (options : List option.Option) (procs : List Process) :
    ∀ matched : List Process,
      procs.foldl (fun matched proc => if All proc options then matched ++ [proc] else matched)
          matched
        = matched ++ procs.filter (fun proc => All proc options) := by
  induction procs with
  | nil => intro matched; simp
  | cons proc procs ih =>
    intro matched
    rw [List.foldl_cons, ih]
    by_cases h : All proc options = true
    · simp [h]
    · simp [h]

/-- The function `All` holds exactly when every option holds. -/
theorem All_eq_all (proc : Process) (options : List option.Option) :
    All proc options = options.all (fun m => m proc) := by
  induction options with
  | nil => rfl
  | cons m options ih =>
    rw [All, ih, List.all_cons]
    cases m proc <;> simp

/-- C18: `Filter` returns the records for which every predicate holds, in their original
order and multiplicity, and every record when there is no predicate. -/
theorem Filter_eq_filter (procs : List Process) (options : List option.Option) :
    Filter procs options = procs.filter (fun proc => options.all (fun m => m proc)) ∧
      Filter procs [] = procs := by
  constructor
  · unfold Filter
    rw [filterLoop_eq, List.nil_append]
    congr 1
    funext proc
    exact All_eq_all proc options
  · unfold Filter
    rw [filterLoop_eq, List.nil_append]
    simp [All]


theorem openedFiles_append (a b : List Access) :
    openedFiles (a ++ b) = openedFiles a ++ openedFiles b := by
  induction a with
  | nil => rfl
  | cons x a ih =>
    cases x <;> simp [openedFiles, ih]

/-- Resolving the two paths opens no file. -/
theorem cgroupFiles_opens_nothing (sys : Sys) (pid : Int) :
    openedFiles (cgroupFiles sys pid).2 = [] := by
  unfold cgroupFiles
  split
  · split <;> rfl
  · simp only
    split
    · rfl
    · split <;> rfl

/-- The files `ReadCgroupMemory` opens once the two paths are resolved: the limit file,
and the usage file if the limit was read without error. -/
theorem readCgroupMemory_opened (u : UnicodeTrim) (sys : Sys) (pid : Int)
    (limitFile usageFile : String)
    (hfiles : (cgroupFiles sys pid).1 = Except.ok (limitFile, usageFile)) :
    openedFiles (ReadCgroupMemory u sys pid).2
      = if (readContentUint64 u sys limitFile).2 = none then [limitFile, usageFile]
        else [limitFile] := by
  have htrace := cgroupFiles_opens_nothing sys pid
  unfold ReadCgroupMemory
  rcases hc : cgroupFiles sys pid with ⟨res, trace⟩
  rw [hc] at hfiles htrace
  simp only at hfiles htrace
  subst hfiles
  have happ : ∀ rest : List Access, openedFiles (trace ++ rest) = openedFiles rest := by
    intro rest
    rw [openedFiles_append, htrace, List.nil_append]
  simp only
  rcases hl : readContentUint64 u sys limitFile with ⟨limit, _ | err⟩
  · rcases hu : readContentUint64 u sys usageFile with ⟨usage, _ | err⟩
    · simp [happ, openedFiles]
    · simp [happ, openedFiles]
  · simp [happ, openedFiles]

/-- What `ReadCgroupMemory` returns once the two paths are resolved and both files are read
without error: the limit, and the `uint64` difference of limit and usage. -/
theorem readCgroupMemory_values (u : UnicodeTrim) (sys : Sys) (pid : Int)
    (limitFile usageFile : String) (limit usage : Nat)
    (hfiles : (cgroupFiles sys pid).1 = Except.ok (limitFile, usageFile))
    (hl : readContentUint64 u sys limitFile = (limit, none))
    (hu : readContentUint64 u sys usageFile = (usage, none)) :
    (ReadCgroupMemory u sys pid).1 = (limit, max 0 (subUint64 limit usage), none) := by
  unfold ReadCgroupMemory
  rcases hc : cgroupFiles sys pid with ⟨res, trace⟩
  rw [hc] at hfiles
  simp only at hfiles
  subst hfiles
  simp only [hl, hu]

/-- C13: the limit and usage files `ReadCgroupMemory` resolves are, in legacy (v1) mode,
`memory.limit_in_bytes` and `memory.usage_in_bytes` under `<mount>/memory/<pid path>` when
`os.Stat` finds that directory and under `<mount>/memory/<root path>` when it does not, and
in unified (v2) mode `memory.max` and `memory.current` under `<mount>/<pid group path>`.
These are the files it reads: it opens the limit file and then (the limit being read
without error) the usage file, no other, and returns the values read from them. -/
theorem readCgroupMemory_files (u : UnicodeTrim) (sys : Sys) (pid : Int) (cgroupPath : String) :
    (sys.cgroupsMode = CGMode.Legacy → sys.cgroup1PidPath pid = Except.ok cgroupPath →
      sys.stat (pathJoin [sys.cgroupMountPoint, "memory", cgroupPath]) = true →
      (cgroupFiles sys pid).1
        = Except.ok
            (pathJoin [sys.cgroupMountPoint, "memory", cgroupPath, "memory.limit_in_bytes"],
              pathJoin [sys.cgroupMountPoint, "memory", cgroupPath, "memory.usage_in_bytes"])) ∧
    (sys.cgroupsMode = CGMode.Legacy → sys.cgroup1PidPath pid = Except.ok cgroupPath →
      sys.stat (pathJoin [sys.cgroupMountPoint, "memory", cgroupPath]) = false →
      (cgroupFiles sys pid).1
        = Except.ok
            (pathJoin [sys.cgroupMountPoint, "memory", sys.cgroup1RootPath,
                "memory.limit_in_bytes"],
              pathJoin [sys.cgroupMountPoint, "memory", sys.cgroup1RootPath,
                "memory.usage_in_bytes"])) ∧
    (sys.cgroupsMode = CGMode.Unified → sys.cgroup2PidGroupPath pid = Except.ok cgroupPath →
      (cgroupFiles sys pid).1
        = Except.ok (pathJoin [sys.cgroupMountPoint, cgroupPath, "memory.max"],
            pathJoin [sys.cgroupMountPoint, cgroupPath, "memory.current"])) ∧
    (∀ limitFile usageFile : String,
      (cgroupFiles sys pid).1 = Except.ok (limitFile, usageFile) →
      openedFiles (ReadCgroupMemory u sys pid).2
          = (if (readContentUint64 u sys limitFile).2 = none then [limitFile, usageFile]
            else [limitFile]) ∧
        ∀ limit usage : Nat, readContentUint64 u sys limitFile = (limit, none) →
          readContentUint64 u sys usageFile = (usage, none) →
          (ReadCgroupMemory u sys pid).1 = (limit, max 0 (subUint64 limit usage), none)) := by
  refine ⟨?_, ?_, ?_, ?_⟩
  · intro hmode hpath hstat
    unfold cgroupFiles
    rw [if_neg (by rw [hmode]; decide), hpath]
    simp only [hstat, if_true]
    rfl
  · intro hmode hpath hstat
    unfold cgroupFiles
    rw [if_neg (by rw [hmode]; decide), hpath]
    simp only [hstat]
    rfl
  · intro hmode hpath
    unfold cgroupFiles
    rw [if_pos hmode, hpath]
    rfl
  · intro limitFile usageFile hfiles
    exact ⟨readCgroupMemory_opened u sys pid limitFile usageFile hfiles,
      fun limit usage hl hu =>
        readCgroupMemory_values u sys pid limitFile usageFile limit usage hfiles hl hu⟩

theorem readCgroupMemory_files_witness :
    (cgroupFiles (sampleSysV1 true [50, 48, 48, 10] [49, 48, 48, 10]) 7).1
      = Except.ok ("/sys/fs/cgroup/memory/docker/abc/memory.limit_in_bytes",
          "/sys/fs/cgroup/memory/docker/abc/memory.usage_in_bytes") ∧
    (cgroupFiles (sampleSysV1 false [50, 48, 48, 10] [49, 48, 48, 10]) 7).1
      = Except.ok ("/sys/fs/cgroup/memory/memory.limit_in_bytes",
          "/sys/fs/cgroup/memory/memory.usage_in_bytes") ∧
    (cgroupFiles
        (sampleSys (Except.error "no meminfo") (some [50, 48, 48, 10]) (some [49, 48, 48, 10]))
        7).1
      = Except.ok ("/sys/fs/cgroup/memory.max", "/sys/fs/cgroup/memory.current") ∧
    openedFiles (ReadCgroupMemory sampleTrim
        (sampleSysV1 false [50, 48, 48, 10] [49, 48, 48, 10]) 7).2
      = ["/sys/fs/cgroup/memory/memory.limit_in_bytes",
          "/sys/fs/cgroup/memory/memory.usage_in_bytes"] ∧
    (ReadCgroupMemory sampleTrim (sampleSysV1 false [50, 48, 48, 10] [49, 48, 48, 10]) 7).1
      = (200, 100, none) :=
  ⟨(readCgroupMemory_files sampleTrim (sampleSysV1 true [50, 48, 48, 10] [49, 48, 48, 10]) 7
      "/docker/abc").1 rfl rfl (by decide),
    (readCgroupMemory_files sampleTrim (sampleSysV1 false [50, 48, 48, 10] [49, 48, 48, 10]) 7
      "/docker/abc").2.1 rfl rfl (by decide),
    (readCgroupMemory_files sampleTrim
      (sampleSys (Except.error "no meminfo") (some [50, 48, 48, 10]) (some [49, 48, 48, 10])) 7
      "/").2.2.1 rfl rfl,
    (((readCgroupMemory_files sampleTrim (sampleSysV1 false [50, 48, 48, 10] [49, 48, 48, 10])
      7 "/docker/abc").2.2.2 "/sys/fs/cgroup/memory/memory.limit_in_bytes"
      "/sys/fs/cgroup/memory/memory.usage_in_bytes" rfl).1).trans (by decide),
    (((readCgroupMemory_files sampleTrim (sampleSysV1 false [50, 48, 48, 10] [49, 48, 48, 10])
      7 "/docker/abc").2.2.2 "/sys/fs/cgroup/memory/memory.limit_in_bytes"
      "/sys/fs/cgroup/memory/memory.usage_in_bytes" rfl).2 200 100 (by decide)
      (by decide)).trans (by decide)⟩

/-- C14 (as stated, refuted): with `MemTotal` at `2 ^ 54` kB the product by 1024 does not fit
in 64 bits and `ReadSystemMemory` returns a total of 0 bytes, not `2 ^ 64`. -/
theorem readSystemMemory_wraps :
    (ReadSystemMemory (sampleSys (Except.ok ⟨some (2 ^ 54), some 1⟩) none none)).1
        = (0, 1024, none) ∧
      (2 ^ 54 * 1024 : Nat) ≠ 0 := by
  decide

/-- C14 (amended): for a meminfo table with `MemTotal` at `t` kB and `MemAvailable` at `a`
kB, `ReadSystemMemory` returns `(t * 1024 mod 2 ^ 64, a * 1024 mod 2 ^ 64)` with no error,
which is `(t * 1024, a * 1024)` when `t` and `a` are below `2 ^ 54`; when either field is
absent it returns `(0, 0)` and an error. -/
theorem readSystemMemory_spec (sys : Sys) (meminfo : Meminfo)
    (hmem : sys.meminfo = Except.ok meminfo) :
    (∀ t a : Nat, meminfo.MemTotal = some t → meminfo.MemAvailable = some a →
      (ReadSystemMemory sys).1 = (t * 1024 % 2 ^ 64, a * 1024 % 2 ^ 64, none) ∧
        (t < 2 ^ 54 → a < 2 ^ 54 → (ReadSystemMemory sys).1 = (t * 1024, a * 1024, none))) ∧
      (meminfo.MemTotal = none ∨ meminfo.MemAvailable = none →
        ∃ err, (ReadSystemMemory sys).1 = (0, 0, some err)) := by
  constructor
  · intro t a ht ha
    have h : (ReadSystemMemory sys).1 = (t * 1024 % 2 ^ 64, a * 1024 % 2 ^ 64, none) := by
      unfold ReadSystemMemory
      rw [hmem]
      simp only [ht, ha]
      rfl
    refine ⟨h, ?_⟩
    intro ht54 ha54
    rw [h, Nat.mod_eq_of_lt (by omega), Nat.mod_eq_of_lt (by omega)]
  · intro habs
    unfold ReadSystemMemory
    rw [hmem]
    obtain ⟨total, available⟩ := meminfo
    cases total with
    | none => exact ⟨_, rfl⟩
    | some t =>
      cases available with
      | none => exact ⟨_, rfl⟩
      | some a =>
        rcases habs with h | h
        · exact Option.noConfusion h
        · exact Option.noConfusion h

theorem readSystemMemory_spec_witness :
    (ReadSystemMemory (sampleSys (Except.ok ⟨some 1000, some 500⟩) none none)).1
        = (1024000, 512000, none) ∧
      ∃ err, (ReadSystemMemory (sampleSys (Except.ok ⟨none, some 500⟩) none none)).1
        = (0, 0, some err) :=
  ⟨((readSystemMemory_spec (sampleSys (Except.ok ⟨some 1000, some 500⟩) none none)
      ⟨some 1000, some 500⟩ rfl).1 1000 500 rfl rfl).2 (by decide) (by decide),
    (readSystemMemory_spec (sampleSys (Except.ok ⟨none, some 500⟩) none none)
      ⟨none, some 500⟩ rfl).2 (Or.inl rfl)⟩


/-- The byte of a decimal digit `k`: a digit, not white space, pure ASCII, of value `k`. -/
theorem digitByte_spec : ∀ k, k < 10 →
    (48 ≤ UInt8.ofNat (48 + k) ∧ UInt8.ofNat (48 + k) ≤ 57) ∧
      (UInt8.ofNat (48 + k)).toNat - 48 = k := by
  decide

/-- A digit byte is pure ASCII and not white space. -/
theorem digit_not_space (c : UInt8) (h : 48 ≤ c ∧ c ≤ 57) :
    ¬ c ≥ 128 ∧ asciiSpace c = false := by
  obtain ⟨h1, h2⟩ := h
  have h1n : 48 ≤ c.toNat := h1
  have h2n : c.toNat ≤ 57 := h2
  constructor
  · intro h3
    have h3n : 128 ≤ c.toNat := h3
    omega
  · unfold asciiSpace
    have hne : ∀ k : UInt8, k.toNat < 48 → ¬ c = k := by
      intro k hk hck
      rw [hck] at h1n
      omega
    simp [hne 9 (by decide), hne 10 (by decide), hne 11 (by decide), hne 12 (by decide),
      hne 13 (by decide), hne 32 (by decide)]

theorem decimalDigits_acc : ∀ (fuel v : Nat) (acc : List UInt8),
    decimalDigits fuel v acc = decimalDigits fuel v [] ++ acc := by
  intro fuel
  induction fuel with
  | zero => intro v acc; rfl
  | succ fuel ih =>
    intro v acc
    unfold decimalDigits
    split
    · rfl
    · rw [ih (v / 10) (_ :: acc), ih (v / 10) [_], List.append_assoc]
      rfl

/-- Every byte `decimalDigits` puts before `acc` is a digit. -/
theorem decimalDigits_digits : ∀ (fuel v : Nat),
    ∀ c ∈ decimalDigits fuel v [], 48 ≤ c ∧ c ≤ 57 := by
  intro fuel
  induction fuel with
  | zero => intro v c hc; simp [decimalDigits] at hc
  | succ fuel ih =>
    intro v c hc
    unfold decimalDigits at hc
    split at hc
    · rename_i hv
      rw [List.mem_singleton] at hc
      rw [hc]
      exact (digitByte_spec v hv).1
    · rw [decimalDigits_acc] at hc
      rcases List.mem_append.mp hc with h | h
      · exact ih _ c h
      · rw [List.mem_singleton] at h
        rw [h]
        exact (digitByte_spec (v % 10) (Nat.mod_lt _ (by decide))).1

theorem decimalText_ne_nil (v : Nat) : decimalText v ≠ [] := by
  unfold decimalText decimalDigits
  split
  · simp
  · rw [decimalDigits_acc]
    simp

/-- One more digit `k` after the value `n`, when no overflow occurs. -/
theorem parseUintLoop_digit (k n : Nat) (hk : k < 10) (h : n * 10 + k ≤ MaxUint64) :
    parseUintLoop [UInt8.ofNat (48 + k)] n = (n * 10 + k, none) := by
  obtain ⟨hd, hval⟩ := digitByte_spec k hk
  unfold parseUintLoop
  rw [if_pos hd]
  have hcut : ¬ n ≥ MaxUint64 / 10 + 1 := by
    unfold MaxUint64 at h ⊢
    omega
  rw [if_neg hcut]
  simp only [hval]
  rw [if_neg (by omega)]
  rfl

theorem parseUintLoop_append (s t : List UInt8) :
    ∀ n m : Nat, parseUintLoop s n = (m, none) →
      parseUintLoop (s ++ t) n = parseUintLoop t m := by
  induction s with
  | nil =>
    intro n m h
    simp only [parseUintLoop, Prod.mk.injEq, and_true] at h
    rw [List.nil_append, h]
  | cons c s ih =>
    intro n m h
    rw [List.cons_append]
    rw [parseUintLoop] at h ⊢
    split
    · rename_i hd
      rw [if_pos hd] at h
      split
      · rename_i hc
        rw [if_pos hc] at h
        simp only [Prod.mk.injEq] at h
        exact absurd h.2 (by simp)
      · rename_i hc
        rw [if_neg hc] at h
        simp only at h ⊢
        split
        · rename_i ho
          rw [if_pos ho] at h
          simp only [Prod.mk.injEq] at h
          exact absurd h.2 (by simp)
        · rename_i ho
          rw [if_neg ho] at h
          exact ih _ _ h
    · rename_i hd
      rw [if_neg hd] at h
      simp only [Prod.mk.injEq] at h
      exact absurd h.2 (by simp)

/-- Parsing the decimal digits of `v` gives `v` back. -/
theorem parseUintLoop_decimalDigits : ∀ (fuel v : Nat), v < fuel → v ≤ MaxUint64 →
    parseUintLoop (decimalDigits fuel v []) 0 = (v, none) := by
  intro fuel
  induction fuel with
  | zero => intro v h; omega
  | succ fuel ih =>
    intro v hv hmax
    unfold decimalDigits
    split
    · rename_i h10
      have := parseUintLoop_digit v 0 h10 (by omega)
      simpa using this
    · rename_i h10
      rw [decimalDigits_acc]
      have h1 := ih (v / 10) (by omega) (by omega)
      rw [parseUintLoop_append _ _ 0 (v / 10) h1]
      have h2 := parseUintLoop_digit (v % 10) (v / 10) (Nat.mod_lt _ (by decide)) (by omega)
      rw [h2]
      congr 1
      omega

/-- `TrimSpace` returns the core of a string padded with ASCII white space, when the core is
not empty and made of ASCII bytes that are not white space. -/
theorem TrimSpace_padded_all (u : UnicodeTrim) (ws1 ws2 core : List UInt8)
    (h1 : ∀ c ∈ ws1, asciiSpace c = true) (h2 : ∀ c ∈ ws2, asciiSpace c = true)
    (hcore : ∀ c ∈ core, ¬ c ≥ 128 ∧ asciiSpace c = false) (hne : core ≠ []) :
    TrimSpace u (ws1 ++ core ++ ws2) = core := by
  cases hc : core with
  | nil => exact absurd hc hne
  | cons a t =>
    have ha : a ∈ core := by rw [hc]; exact List.mem_cons_self a t
    have hlast : core.reverse.head? = some (core.getLast hne) := by
      rw [List.head?_reverse, List.getLast?_eq_getLast]
    have hb : core.getLast hne ∈ core := List.getLast_mem hne
    rw [← hc]
    exact TrimSpace_padded u ws1 ws2 a (core.getLast hne) h1 h2 (hcore a ha).1 (hcore a ha).2
      (hcore _ hb).1 (hcore _ hb).2 core (by rw [hc]; rfl) hlast

/-- C11 (as stated, refuted): the text `12` after 31 spaces is read as 1, with no error,
because only the first 32 bytes of the file are looked at. -/
theorem readContentUint64_cut :
    decimalText 12 = [49, 50] ∧
      readContentUint64 sampleTrim
          (sampleSys (Except.error "no meminfo")
            (some (List.replicate 31 32 ++ decimalText 12)) none)
          "/sys/fs/cgroup/memory.max"
        = (1, none) := by
  decide

/-- C11 (amended): for every `v` below `2 ^ 64`, a file whose content is the base-10 text of
`v` between runs of ASCII white space (tab, line feed, vertical tab, form feed, carriage
return, space), the leading run and the text together being at most 32 bytes long so that
the text lies within the bytes that are read, is read as exactly `v` with no error. -/
theorem readContentUint64_roundtrip (u : UnicodeTrim) (sys : Sys) (filePath : String)
    (v : Nat) (ws1 ws2 : List UInt8) (hv : v < 2 ^ 64)
    (hfile : sys.file filePath = some (ws1 ++ decimalText v ++ ws2))
    (h1 : ∀ c ∈ ws1, asciiSpace c = true) (h2 : ∀ c ∈ ws2, asciiSpace c = true)
    (hlen : ws1.length + (decimalText v).length ≤ 32) :
    readContentUint64 u sys filePath = (v, none) := by
  have hdig : ∀ c ∈ decimalText v, 48 ≤ c ∧ c ≤ 57 := decimalDigits_digits _ _
  have hne := decimalText_ne_nil v
  unfold readContentUint64
  rw [hfile]
  simp only
  unfold parseContentUint64
  have hne2 : ¬ (ws1 ++ decimalText v ++ ws2 = []) := by simp [hne]
  rw [if_neg hne2]
  have htake : List.take 32 (ws1 ++ decimalText v ++ ws2)
      = ws1 ++ decimalText v
        ++ List.take (32 - (ws1.length + (decimalText v).length)) ws2 := by
    rw [List.take_append_eq_append_take,
      List.take_of_length_le (by rw [List.length_append]; exact hlen), List.length_append]
  simp only [htake]
  rw [TrimSpace_padded_all u ws1 _ (decimalText v) h1
    (fun c hc => h2 c (List.mem_of_mem_take hc)) (fun c hc => digit_not_space c (hdig c hc)) hne]
  have hnmax : ¬ decimalText v = maxLiteral := by
    intro h
    have := hdig 109 (by rw [h]; decide)
    exact absurd this (by decide)
  rw [if_neg hnmax]
  unfold ParseUint
  rw [if_neg hne]
  have hparse : parseUintLoop (decimalText v) 0 = (v, none) :=
    parseUintLoop_decimalDigits (v + 1) v (by omega) (by unfold MaxUint64; omega)
  rw [hparse]

theorem readContentUint64_roundtrip_witness :
    readContentUint64 sampleTrim
        (sampleSys (Except.error "no meminfo")
          (some ([32] ++ decimalText 18446744073709551615 ++ [32, 10])) none)
        "/sys/fs/cgroup/memory.max"
      = (18446744073709551615, none) :=
  readContentUint64_roundtrip sampleTrim _ "/sys/fs/cgroup/memory.max" 18446744073709551615
    [32] [32, 10] (by decide) (by decide) (by decide) (by decide) (by decide)


/-- When the digit loop ends without error, every byte was a digit and the result is the
value of the digits read after `n`. -/
theorem parseUintLoop_ok (s : List UInt8) :
    ∀ n r : Nat, parseUintLoop s n = (r, none) →
      (∀ c ∈ s, 48 ≤ c ∧ c ≤ 57) ∧ r = s.foldl (fun n c => n * 10 + (c.toNat - 48)) n := by
  induction s with
  | nil =>
    intro n r h
    simp only [parseUintLoop, Prod.mk.injEq, and_true] at h
    exact ⟨by simp, by simp [h]⟩
  | cons c s ih =>
    intro n r h
    rw [parseUintLoop] at h
    split at h
    · rename_i hd
      split at h
      · simp only [Prod.mk.injEq] at h
        exact absurd h.2 (by simp)
      · simp only at h
        split at h
        · simp only [Prod.mk.injEq] at h
          exact absurd h.2 (by simp)
        · obtain ⟨h1, h2⟩ := ih _ _ h
          constructor
          · intro x hx
            rcases List.mem_cons.mp hx with rfl | hx
            · exact hd
            · exact h1 x hx
          · rw [List.foldl_cons]
            exact h2
    · simp only [Prod.mk.injEq] at h
      exact absurd h.2 (by simp)

/-- C12 (as stated, refuted): the content `1`, 31 spaces, `x` is neither `max` nor a
numeral, trimmed or not, and yet it is read as 1 with no error, because only the first 32
bytes of the file are looked at. -/
theorem readContentUint64_tail_ignored :
    TrimSpace sampleTrim ([49] ++ List.replicate 31 32 ++ [120])
        = [49] ++ List.replicate 31 32 ++ [120] ∧
      [49] ++ List.replicate 31 32 ++ [120] ≠ maxLiteral ∧
      ¬ isUint64Numeral ([49] ++ List.replicate 31 32 ++ [120]) ∧
      readContentUint64 sampleTrim
          (sampleSys (Except.error "no meminfo")
            (some ([49] ++ List.replicate 31 32 ++ [120])) none)
          "/sys/fs/cgroup/memory.max"
        = (1, none) := by
  decide

/-- C12 (amended): `readContentUint64` returns the value 0 and an error for every content
whose first 32 bytes, after trimming, are not `max` and not an unsigned base-10 numeral in
`uint64` range; this covers empty content, a numeral with a leading minus sign and
non-numeric text. -/
theorem readContentUint64_error (u : UnicodeTrim) (sys : Sys) (filePath : String)
    (content : List UInt8) (hfile : sys.file filePath = some content)
    (hmax : TrimSpace u (content.take 32) ≠ maxLiteral)
    (hnum : ¬ isUint64Numeral (TrimSpace u (content.take 32))) :
    ∃ err, readContentUint64 u sys filePath = (0, some err) := by
  unfold readContentUint64
  rw [hfile]
  simp only
  unfold parseContentUint64
  split
  · exact ⟨_, rfl⟩
  · simp only
    rw [if_neg hmax]
    split
    · rename_i result heq
      exfalso
      apply hnum
      unfold ParseUint at heq
      split at heq
      · simp only [Prod.mk.injEq] at heq
        exact absurd heq.2 (by simp)
      · rename_i hne
        obtain ⟨hd, hval⟩ := parseUintLoop_ok _ _ _ heq
        have hle := parseUintLoop_le (TrimSpace u (List.take 32 content)) 0 (Nat.zero_le _)
        rw [heq] at hle
        refine ⟨hne, hd, ?_⟩
        unfold decimalValue
        rw [← hval]
        exact hle
    · exact ⟨_, rfl⟩

theorem readContentUint64_error_witness :
    (∃ err, readContentUint64 sampleTrim (sampleSys (Except.error "no meminfo") (some []) none)
        "/sys/fs/cgroup/memory.max" = (0, some err)) ∧
      (∃ err, readContentUint64 sampleTrim
        (sampleSys (Except.error "no meminfo") (some [45, 53, 10]) none)
        "/sys/fs/cgroup/memory.max" = (0, some err)) ∧
      (∃ err, readContentUint64 sampleTrim
        (sampleSys (Except.error "no meminfo") (some [88]) none)
        "/sys/fs/cgroup/memory.max" = (0, some err)) :=
  ⟨readContentUint64_error sampleTrim _ "/sys/fs/cgroup/memory.max" [] (by decide)
      (by decide) (by decide),
    readContentUint64_error sampleTrim _ "/sys/fs/cgroup/memory.max" [45, 53, 10]
      (by decide) (by decide) (by decide),
    readContentUint64_error sampleTrim _ "/sys/fs/cgroup/memory.max" [88] (by decide)
      (by decide) (by decide)⟩

theorem insertionStep_perm (less : Process → Process → Bool) (x : Process)
    (before : List Process) : List.Perm (insertionStep less x before) (x :: before) := by
  induction before with
  | nil => exact List.Perm.refl _
  | cons y before ih =>
    unfold insertionStep
    split
    · exact (List.Perm.cons y ih).trans (List.Perm.swap x y before)
    · exact List.Perm.refl _

/-- When `less` only answers true on two records outside the class `U`, the inner loop of
insertion sort leaves the records of `U` in their order. -/
theorem insertionStep_filter (less : Process → Process → Bool) (U : Process → Bool)
    (hU : ∀ x y, less x y = true → U x = false ∧ U y = false) (x : Process)
    (before : List Process) :
    (insertionStep less x before).filter U = (x :: before).filter U := by
  induction before with
  | nil => rfl
  | cons y before ih =>
    unfold insertionStep
    split
    · rename_i h
      obtain ⟨hx, hy⟩ := hU x y h
      rw [List.filter_cons_of_neg (by simp [hy]), ih, List.filter_cons_of_neg (by simp [hx]),
        List.filter_cons_of_neg (by simp [hx]), List.filter_cons_of_neg (by simp [hy])]
    · rfl

/-- Insertion sort leaves the records of such a class `U` in their order. -/
theorem insertionSortLoop_filter (less : Process → Process → Bool) (U : Process → Bool)
    (hU : ∀ x y, less x y = true → U x = false ∧ U y = false) (todo : List Process) :
    ∀ done : List Process,
      (insertionSortLoop less done todo).filter U = (done.reverse ++ todo).filter U := by
  induction todo with
  | nil =>
    intro done
    rw [insertionSortLoop, List.append_nil]
  | cons x todo ih =>
    intro done
    have e : done.reverse ++ x :: todo = (x :: done).reverse ++ todo := by simp
    rw [insertionSortLoop, ih, e, List.filter_append, List.filter_append, List.filter_reverse,
      List.filter_reverse, insertionStep_filter less U hU]

/-- C19 (as stated, refuted): `sort.Slice` partitions a slice of 13 records around a pivot,
which carries the two records with unreadable creation times, second and third in the
input, to the end of the slice in reverse order. -/
theorem sortByCreateTime_unstable :
    (sampleThirteen.filter (fun p => p.createTime.isNone)).map (fun p => p.Pid) = [101, 102] ∧
      (SortByCreateTime (goSortSlice insertionSortSlice) sampleThirteen).map (fun p => p.Pid)
        = [100, 103, 104, 105, 111, 112, 106, 107, 108, 109, 110, 102, 101] ∧
      ((SortByCreateTime (goSortSlice insertionSortSlice) sampleThirteen).filter
          (fun p => p.createTime.isNone)).map (fun p => p.Pid) = [102, 101] := by
  decide

/-- C19 (amended): for every input list of at most 12 records, which `sort.Slice` sorts by
insertion, the records whose creation time cannot be read appear in the output of
`SortByCreateTime` in the same relative order as in the input. -/
theorem sortByCreateTime_stable_small (rest : SortSlice) (procs : List Process)
    (hlen : procs.length ≤ 12) :
    (SortByCreateTime (goSortSlice rest) procs).filter (fun p => p.createTime.isNone)
      = procs.filter (fun p => p.createTime.isNone) := by
  unfold SortByCreateTime
  have hsort : ∀ less, (goSortSlice rest).sort less procs = insertionSortLoop less [] procs := by
    intro less
    show goSort rest less procs = _
    unfold goSort
    rw [if_pos hlen]
  rw [hsort, insertionSortLoop_filter]
  · rfl
  · intro x y h
    cases hx : x.createTime with
    | none => rw [hx] at h; simp at h
    | some a =>
      cases hy : y.createTime with
      | none => rw [hx, hy] at h; simp at h
      | some b => simp

theorem sortByCreateTime_stable_small_witness :
    (SortByCreateTime (goSortSlice insertionSortSlice) (sampleThirteen.take 12)).filter
        (fun p => p.createTime.isNone)
      = (sampleThirteen.take 12).filter (fun p => p.createTime.isNone) :=
  sortByCreateTime_stable_small insertionSortSlice (sampleThirteen.take 12) (by decide)

/-- The inner loop of insertion sort keeps a prefix in order (here held last element first,
so in non-increasing order of the key). -/
theorem insertionStep_sorted (less : Process → Process → Bool) (key : Process → Int)
    (x : Process) (before : List Process)
    (hless : ∀ y ∈ before, less x y = decide (key x < key y))
    (hs : List.Pairwise (fun p q => key q ≤ key p) before) :
    List.Pairwise (fun p q => key q ≤ key p) (insertionStep less x before) := by
  induction before with
  | nil => exact List.pairwise_singleton _ _
  | cons y before ih =>
    obtain ⟨hy, hrest⟩ := List.pairwise_cons.mp hs
    unfold insertionStep
    have hxy := hless y (List.mem_cons_self y before)
    split
    · rename_i h
      rw [hxy] at h
      have hlt : key x < key y := of_decide_eq_true h
      refine List.pairwise_cons.mpr ⟨?_, ih (fun z hz => hless z (List.mem_cons_of_mem y hz)) hrest⟩
      intro z hz
      rcases List.mem_cons.mp ((insertionStep_perm less x before).mem_iff.mp hz) with rfl | hz
      · exact le_of_lt hlt
      · exact hy z hz
    · rename_i h
      rw [hxy] at h
      have hge : key y ≤ key x := not_lt.mp (fun hlt => h (decide_eq_true hlt))
      refine List.pairwise_cons.mpr ⟨?_, hs⟩
      intro z hz
      rcases List.mem_cons.mp hz with rfl | hz
      · exact hge
      · exact le_trans (hy z hz) hge

/-- Insertion sort meets the contract of `sort.Slice`. -/
theorem insertionSortLoop_sorted (less : Process → Process → Bool) (key : Process → Int)
    (todo : List Process) :
    ∀ done : List Process,
      (∀ p ∈ done ++ todo, ∀ q ∈ done ++ todo, less p q = decide (key p < key q)) →
      List.Pairwise (fun p q => key q ≤ key p) done →
      List.Pairwise (fun p q => key p ≤ key q) (insertionSortLoop less done todo) := by
  induction todo with
  | nil =>
    intro done _ hs
    rw [insertionSortLoop]
    exact List.pairwise_reverse.mpr hs
  | cons x todo ih =>
    intro done hless hs
    rw [insertionSortLoop]
    have hmem : ∀ z, z ∈ insertionStep less x done ++ todo → z ∈ done ++ x :: todo := by
      intro z hz
      rcases List.mem_append.mp hz with h | h
      · rcases List.mem_cons.mp ((insertionStep_perm less x done).mem_iff.mp h) with rfl | h
        · exact List.mem_append.mpr (Or.inr (List.mem_cons_self _ _))
        · exact List.mem_append.mpr (Or.inl h)
      · exact List.mem_append.mpr (Or.inr (List.mem_cons_of_mem x h))
    refine ih _ (fun p hp q hq => hless p (hmem p hp) q (hmem q hq)) ?_
    refine insertionStep_sorted less key x done ?_ hs
    intro y hy
    exact hless x (List.mem_append.mpr (Or.inr (List.mem_cons_self _ _))) y
      (List.mem_append.mpr (Or.inl hy))

theorem insertionSortSlice_sorts : insertionSortSlice.Sorts := by
  intro less key procs hless
  exact insertionSortLoop_sorted less key procs [] (by simpa using hless) List.Pairwise.nil

/-- C20: when every creation time of the input can be read, `SortByCreateTime` leaves a
permutation of the input in non-decreasing order of creation time, oldest first: with any
`sort.Slice` that meets its contract, and with the sort of the Go library modelled here on
every input of at most 12 records. -/
theorem sortByCreateTime_sorted (srt : SortSlice) (procs : List Process)
    (hall : ∀ p ∈ procs, p.createTime ≠ none) :
    List.Perm (SortByCreateTime srt procs) procs ∧
      (srt.Sorts →
        List.Pairwise
          (fun p q => ∃ a b, p.createTime = some a ∧ q.createTime = some b ∧ a ≤ b)
          (SortByCreateTime srt procs)) ∧
      (∀ rest : SortSlice, procs.length ≤ 12 →
        List.Pairwise
          (fun p q => ∃ a b, p.createTime = some a ∧ q.createTime = some b ∧ a ≤ b)
          (SortByCreateTime (goSortSlice rest) procs)) := by
  have hless : ∀ p ∈ procs, ∀ q ∈ procs,
      (match p.createTime, q.createTime with
        | some cti, some ctj => decide (cti < ctj)
        | _, _ => false)
        = decide (p.createTime.getD 0 < q.createTime.getD 0) := by
    intro p hp q hq
    cases hpc : p.createTime with
    | none => exact absurd hpc (hall p hp)
    | some a =>
      cases hqc : q.createTime with
      | none => exact absurd hqc (hall q hq)
      | some b => simp
  have core : ∀ s : SortSlice,
      List.Pairwise (fun p q => p.createTime.getD 0 ≤ q.createTime.getD 0)
        (SortByCreateTime s procs) →
      List.Pairwise
        (fun p q => ∃ a b, p.createTime = some a ∧ q.createTime = some b ∧ a ≤ b)
        (SortByCreateTime s procs) := by
    intro s hkey
    have hperm : List.Perm (SortByCreateTime s procs) procs := s.perm _ procs
    refine List.Pairwise.imp_of_mem ?_ hkey
    intro p q hp hq hle
    have hp1 := hall p (hperm.mem_iff.mp hp)
    have hq1 := hall q (hperm.mem_iff.mp hq)
    cases hpc : p.createTime with
    | none => exact absurd hpc hp1
    | some a =>
      cases hqc : q.createTime with
      | none => exact absurd hqc hq1
      | some b =>
        simp only [hpc, hqc, Option.getD_some] at hle
        exact ⟨a, b, rfl, rfl, hle⟩
  refine ⟨srt.perm _ procs, ?_, ?_⟩
  · intro hsrt
    exact core srt (hsrt _ (fun p => p.createTime.getD 0) procs hless)
  · intro rest hlen
    apply core (goSortSlice rest)
    show List.Pairwise _ (goSort rest _ procs)
    unfold goSort
    rw [if_pos hlen]
    exact insertionSortLoop_sorted _ (fun p => p.createTime.getD 0) procs []
      (by simpa using hless) List.Pairwise.nil

theorem sortByCreateTime_sorted_witness :
    List.Perm (SortByCreateTime insertionSortSlice reaper.sampleShutdown)
        reaper.sampleShutdown ∧
      List.Pairwise
        (fun p q => ∃ a b, p.createTime = some a ∧ q.createTime = some b ∧ a ≤ b)
        (SortByCreateTime insertionSortSlice reaper.sampleShutdown) ∧
      List.Pairwise
        (fun p q => ∃ a b, p.createTime = some a ∧ q.createTime = some b ∧ a ≤ b)
        (SortByCreateTime (goSortSlice insertionSortSlice) reaper.sampleShutdown) ∧
      (SortByCreateTime (goSortSlice insertionSortSlice) reaper.sampleShutdown).map
          (fun p => p.Pid)
        = [10, 11, 12] :=
  ⟨(sortByCreateTime_sorted insertionSortSlice reaper.sampleShutdown (by decide)).1,
    (sortByCreateTime_sorted insertionSortSlice reaper.sampleShutdown (by decide)).2.1
      insertionSortSlice_sorts,
    (sortByCreateTime_sorted insertionSortSlice reaper.sampleShutdown (by decide)).2.2
      insertionSortSlice (by decide),
    by decide⟩

end procps

namespace procps

/-- C21: `Terminate` returns `nil` when the underlying termination request succeeds or
fails with an error that is `os.ErrProcessDone`, and returns the underlying error unchanged
for every other failure. -/
theorem Terminate_spec (procTerminate : Process → Option GoError) (proc : Process) :
    (procTerminate proc = none → Terminate procTerminate proc = none) ∧
      (errorsIs (procTerminate proc) (some ErrProcessDone) = true →
        Terminate procTerminate proc = none) ∧
      (procTerminate proc ≠ none →
        errorsIs (procTerminate proc) (some ErrProcessDone) = false →
        Terminate procTerminate proc = procTerminate proc) := by
  unfold Terminate
  refine ⟨?_, ?_, ?_⟩
  · intro h
    rw [h]
    rfl
  · intro h
    simp only [h, if_true]
  · intro _ h
    simp only [h]
    rfl

theorem Terminate_spec_witness :
    Terminate (fun _ => none) reaper.sampleMaster = none ∧
      Terminate (fun _ => some ErrProcessDone) reaper.sampleMaster = none ∧
      Terminate (fun _ => some (GoError.wrap "signal" ErrProcessDone)) reaper.sampleMaster
        = none ∧
      Terminate (fun _ => some (GoError.value "operation not permitted")) reaper.sampleMaster
        = some (GoError.value "operation not permitted") :=
  ⟨(Terminate_spec (fun _ => none) reaper.sampleMaster).1 rfl,
    (Terminate_spec (fun _ => some ErrProcessDone) reaper.sampleMaster).2.1 (by decide),
    (Terminate_spec (fun _ => some (GoError.wrap "signal" ErrProcessDone))
      reaper.sampleMaster).2.1 (by decide),
    (Terminate_spec (fun _ => some (GoError.value "operation not permitted"))
      reaper.sampleMaster).2.2 (by decide) (by decide)⟩

end procps

namespace ticker

theorem logJob_fields {S : Type} (job : Job S) (infoEnabled : Bool) (t : Started S) :
    (logJob job infoEnabled t).intervalCalls = t.intervalCalls ∧
      (logJob job infoEnabled t).runs = t.runs ∧
      (logJob job infoEnabled t).panicked = t.panicked ∧
      (logJob job infoEnabled t).state
        = (if infoEnabled then (job.String t.state).2 else t.state) := by
  unfold logJob
  cases infoEnabled <;> simp

/-- The loop of `Start` makes no `Interval()` call and raises no panic. -/
theorem tickLoop_intervalCalls {S : Type} (job : Job S) (infoEnabled : Bool) :
    ∀ (ticks : Nat) (t : Started S),
      (tickLoop job infoEnabled ticks t).intervalCalls = t.intervalCalls ∧
        (tickLoop job infoEnabled ticks t).panicked = t.panicked := by
  intro ticks
  induction ticks with
  | zero => intro t; exact ⟨rfl, rfl⟩
  | succ ticks ih =>
    intro t
    rw [tickLoop]
    have hl := logJob_fields job infoEnabled t
    rcases hr : job.Run (logJob job infoEnabled t).state with ⟨b, s2⟩
    cases b with
    | true =>
      simp only [hr]
      have h := ih { logJob job infoEnabled t with
        state := s2, runs := (logJob job infoEnabled t).runs ++ [true] }
      exact ⟨h.1.trans hl.1, h.2.trans hl.2.2.1⟩
    | false =>
      simp only [hr]
      exact ⟨hl.1, hl.2.2.1⟩

/-- The loop of `Start` stops at the first `Run()` that returns false. -/
theorem tickLoop_stops {S : Type} (job : Job S) (infoEnabled : Bool) :
    ∀ (ticks k : Nat) (t : Started S), 1 ≤ k → k ≤ ticks →
      runResults job infoEnabled k t.state = List.replicate (k - 1) true ++ [false] →
      (tickLoop job infoEnabled ticks t).runs
        = t.runs ++ (List.replicate (k - 1) true ++ [false]) := by
  intro ticks
  induction ticks with
  | zero => intro k t hk hle; omega
  | succ ticks ih =>
    intro k t hk hle href
    obtain ⟨k, rfl⟩ : ∃ j, k = j + 1 := ⟨k - 1, by omega⟩
    rw [tickLoop]
    have hl := logJob_fields job infoEnabled t
    rw [runResults] at href
    simp only [← hl.2.2.2] at href
    rcases hr : job.Run (logJob job infoEnabled t).state with ⟨b, s2⟩
    rw [hr] at href
    simp only [Nat.add_sub_cancel] at href ⊢
    cases k with
    | zero =>
      simp only [List.replicate, List.nil_append, List.cons.injEq] at href
      obtain ⟨rfl, _⟩ := href
      simp only [List.replicate, List.nil_append]
      rw [hl.2.1]
    | succ k =>
      simp only [List.replicate, List.cons_append, List.cons.injEq] at href
      obtain ⟨rfl, hrest⟩ := href
      simp only
      have h := ih (k + 1) { logJob job infoEnabled t with
        state := s2, runs := (logJob job infoEnabled t).runs ++ [true] } (by omega) (by omega)
        (by simpa using hrest)
      rw [h, hl.2.1]
      simp [List.replicate]

/-- While `Run()` returns true the loop of `Start` calls it once per tick. -/
theorem tickLoop_runs_all {S : Type} (job : Job S) (infoEnabled : Bool) :
    ∀ (ticks : Nat) (t : Started S),
      runResults job infoEnabled ticks t.state = List.replicate ticks true →
      (tickLoop job infoEnabled ticks t).runs = t.runs ++ List.replicate ticks true := by
  intro ticks
  induction ticks with
  | zero => intro t _; simp [tickLoop]
  | succ ticks ih =>
    intro t href
    rw [tickLoop]
    have hl := logJob_fields job infoEnabled t
    rw [runResults] at href
    simp only [← hl.2.2.2] at href
    rcases hr : job.Run (logJob job infoEnabled t).state with ⟨b, s2⟩
    rw [hr] at href
    simp only [List.replicate, List.cons.injEq] at href
    obtain ⟨rfl, hrest⟩ := href
    simp only
    have h := ih { logJob job infoEnabled t with
      state := s2, runs := (logJob job infoEnabled t).runs ++ [true] } hrest
    rw [h, hl.2.1]
    simp [List.replicate]


/-- C23: `Start` reads the interval of the job once; with a positive interval (a ticker
exists) it calls `Run()` once per tick while `Run()` returns true and stops after the first
`Run()` that returns false: if the `k`-th `Run()` is the first to return false, `Run()` is
called exactly `k` times however many ticks follow. With a non-positive interval
`time.NewTicker` panics and `Run()` is not called. -/
theorem Start_runs {S : Type} (job : Job S) (infoEnabled : Bool) (ticks : Nat) (s : S) :
    (Start job infoEnabled ticks s).intervalCalls = 1 ∧
      (0 < (job.Interval s).1 →
        (∀ k, 1 ≤ k → k ≤ ticks →
          runResults job infoEnabled k
              (if infoEnabled then (job.String (job.Interval s).2).2 else (job.Interval s).2)
            = List.replicate (k - 1) true ++ [false] →
          (Start job infoEnabled ticks s).runs = List.replicate (k - 1) true ++ [false] ∧
            (Start job infoEnabled ticks s).runs.length = k) ∧
        (runResults job infoEnabled ticks
              (if infoEnabled then (job.String (job.Interval s).2).2 else (job.Interval s).2)
            = List.replicate ticks true →
          (Start job infoEnabled ticks s).runs = List.replicate ticks true)) ∧
      ((job.Interval s).1 ≤ 0 →
        (Start job infoEnabled ticks s).runs = [] ∧
          (Start job infoEnabled ticks s).panicked ≠ none) := by
  unfold Start
  rcases hi : job.Interval s with ⟨d, s1⟩
  simp only
  by_cases hd : d ≤ 0
  · rw [if_pos hd]
    refine ⟨rfl, fun h => absurd h (not_lt.mpr hd), fun _ => ⟨rfl, by simp⟩⟩
  · rw [if_neg hd]
    have hl := logJob_fields job infoEnabled
      { state := s1, intervalCalls := 1, stringCalls := 0, runs := [], panicked := none }
    refine ⟨?_, fun _ => ⟨?_, ?_⟩, fun h => absurd h hd⟩
    · rw [(tickLoop_intervalCalls job infoEnabled ticks _).1, hl.1]
    · intro k hk hle href
      rw [← hl.2.2.2] at href
      have h := tickLoop_stops job infoEnabled ticks k _ hk hle href
      rw [hl.2.1] at h
      rw [h]
      simp only [List.nil_append, List.length_append, List.length_replicate,
        List.length_singleton, true_and]
      omega
    · intro href
      rw [← hl.2.2.2] at href
      have h := tickLoop_runs_all job infoEnabled ticks _ href
      rw [hl.2.1] at h
      rw [h]
      rfl

theorem Start_runs_witness :
    (Start sampleJob true 10 3).intervalCalls = 1 ∧
      (Start sampleJob true 10 3).runs = [true, true, false] ∧
      (Start sampleJob true 10 3).runs.length = 3 ∧
      (Start sampleJob true 2 3).runs = [true, true] :=
  ⟨(Start_runs sampleJob true 10 3).1,
    ((Start_runs sampleJob true 10 3).2.1 (by decide)).1 3 (by decide) (by decide)
      (by decide) |>.1,
    ((Start_runs sampleJob true 10 3).2.1 (by decide)).1 3 (by decide) (by decide)
      (by decide) |>.2,
    ((Start_runs sampleJob true 2 3).2.1 (by decide)).2 (by decide)⟩

end ticker

namespace reaper

open procps

/-- An `int64` value is what Go arithmetic stores for it. -/
theorem wrapInt64_of_range (x : Int) (hlo : MinInt64 ≤ x) (hhi : x ≤ MaxInt64) :
    wrapInt64 x = x := by
  unfold wrapInt64
  unfold MinInt64 at hlo
  unfold MaxInt64 at hhi
  omega

theorem nginxMasterRunning_iff {W : Type} (deps : Deps W) (world : W) :
    ((nginxMasterRunning deps world).1 = true
      ↔ (deps.procpsPgrep world [OptionNginxMaster]).1 ≠ []) ∧
      (nginxMasterRunning deps world).2 = (deps.procpsPgrep world [OptionNginxMaster]).2 := by
  unfold nginxMasterRunning
  rcases deps.procpsPgrep world [OptionNginxMaster] with ⟨masters, world1⟩
  cases masters <;> simp

/-- C22 (as stated, refuted): a handler with interval `1ns` and the budget `math.MinInt64`
(the duration `-2562047h47m16.854775808s`) has the budget `math.MaxInt64` after `Run`, which
answers true while a master runs: the budget has not decreased by the interval. -/
theorem shutdownHandler_Run_wraps :
    ((ShutdownHandler.mk 1 MinInt64).Run (countdownDeps 1) 0).2.1.shutdownTimeout = MaxInt64 ∧
      ((ShutdownHandler.mk 1 MinInt64).Run (countdownDeps 1) 0).2.1.shutdownTimeout
        ≠ (ShutdownHandler.mk 1 MinInt64).shutdownTimeout
          - (ShutdownHandler.mk 1 MinInt64).shutdownInterval ∧
      ((ShutdownHandler.mk 1 MinInt64).Run (countdownDeps 1) 0).1 = true ∧
      ¬ ((ShutdownHandler.mk 1 MinInt64).shutdownTimeout
          - (ShutdownHandler.mk 1 MinInt64).shutdownInterval
        ≥ (ShutdownHandler.mk 1 MinInt64).shutdownInterval) := by
  decide

/-- C22 (amended): each call of `ShutdownHandler.Run` stores the budget minus the interval
as an `int64`, which is the budget decreased by exactly the interval whenever that difference
is an `int64` value, whatever the result; and then the call returns true if and only if the
decreased budget is still at least the interval and a master process is observed. -/
theorem shutdownHandler_Run_spec {W : Type} (s : ShutdownHandler) (deps : Deps W) (world : W) :
    (s.Run deps world).2.1.shutdownInterval = s.shutdownInterval ∧
      (s.Run deps world).2.1.shutdownTimeout
        = wrapInt64 (s.shutdownTimeout - s.shutdownInterval) ∧
      (MinInt64 ≤ s.shutdownTimeout - s.shutdownInterval →
        s.shutdownTimeout - s.shutdownInterval ≤ MaxInt64 →
        (s.Run deps world).2.1.shutdownTimeout = s.shutdownTimeout - s.shutdownInterval ∧
          ((s.Run deps world).1 = true
            ↔ s.shutdownTimeout - s.shutdownInterval ≥ s.shutdownInterval ∧
              (deps.procpsPgrep world [OptionNginxMaster]).1 ≠ [])) := by
  have hfields : (s.Run deps world).2.1.shutdownInterval = s.shutdownInterval ∧
      (s.Run deps world).2.1.shutdownTimeout
        = wrapInt64 (s.shutdownTimeout - s.shutdownInterval) := by
    unfold ShutdownHandler.Run
    simp only
    split <;> exact ⟨rfl, rfl⟩
  refine ⟨hfields.1, hfields.2, ?_⟩
  intro hlo hhi
  have hw := wrapInt64_of_range _ hlo hhi
  refine ⟨hfields.2.trans hw, ?_⟩
  unfold ShutdownHandler.Run
  simp only [hw]
  have hm := (nginxMasterRunning_iff deps world).1
  by_cases hge : s.shutdownTimeout - s.shutdownInterval ≥ s.shutdownInterval
  · rw [if_pos hge]
    simp only [hge, true_and]
    exact hm
  · rw [if_neg hge]
    simp [hge]

theorem shutdownHandler_Run_spec_witness :
    ((ShutdownHandler.mk 3 10).Run (countdownDeps 1) 0).2.1.shutdownTimeout = 7 ∧
      ((ShutdownHandler.mk 3 10).Run (countdownDeps 1) 0).1 = true ∧
      ((ShutdownHandler.mk 3 5).Run (countdownDeps 1) 0).2.1.shutdownTimeout = 2 ∧
      ((ShutdownHandler.mk 3 5).Run (countdownDeps 1) 0).1 = false ∧
      ((ShutdownHandler.mk 3 10).Run (countdownDeps 0) 0).1 = false :=
  ⟨((shutdownHandler_Run_spec (ShutdownHandler.mk 3 10) (countdownDeps 1) 0).2.2
      (by decide) (by decide)).1,
    ((shutdownHandler_Run_spec (ShutdownHandler.mk 3 10) (countdownDeps 1) 0).2.2
      (by decide) (by decide)).2.mpr (by decide),
    ((shutdownHandler_Run_spec (ShutdownHandler.mk 3 5) (countdownDeps 1) 0).2.2
      (by decide) (by decide)).1,
    by decide, by decide⟩


/-- The countdown of a `ShutdownHandler` under the loop of `ticker.Start`: with a budget
below `(n + 1)` intervals the loop stops within `n` calls of `Run`, and at call `n` exactly
when a master is always observed and the budget is at least `n` intervals. -/
theorem tickLoop_countdown {W : Type} (durationText : Int → String) (deps : Deps W)
    (infoEnabled : Bool) (I : Int) (hI : 0 < I) (hImax : I ≤ MaxInt64) :
    ∀ (j ticks : Nat) (t : ticker.Started (ShutdownHandler × W)) (B : Int),
      j + 1 ≤ ticks → t.state.1 = ⟨I, B⟩ → 0 ≤ B → B ≤ MaxInt64 → B < ((j : Int) + 2) * I →
      ∃ m : Nat, m ≤ j ∧
        (ticker.tickLoop (ShutdownHandler.job durationText deps) infoEnabled ticks t).runs
          = t.runs ++ (List.replicate m true ++ [false]) ∧
        ((∀ w, (deps.procpsPgrep w [OptionNginxMaster]).1 ≠ []) →
          (j = 0 ∨ ((j : Int) + 1) * I ≤ B) → m = j) := by
  intro j
  induction j with
  | zero =>
    intro ticks t B hticks hst hB0 hBmax hlt
    obtain ⟨ticks, rfl⟩ : ∃ k, ticks = k + 1 := ⟨ticks - 1, by omega⟩
    obtain ⟨⟨h, w⟩, ic, sc, runs, p⟩ := t
    simp only at hst
    subst hst
    refine ⟨0, le_refl _, ?_, fun _ _ => rfl⟩
    have hw : wrapInt64 (B - I) = B - I :=
      wrapInt64_of_range _ (by unfold MinInt64; unfold MaxInt64 at hImax; omega)
        (by unfold MaxInt64 at *; omega)
    have hnot : ¬ (B - I ≥ I) := by
      simp only [Nat.cast_zero, zero_add] at hlt
      omega
    rw [ticker.tickLoop]
    cases infoEnabled <;>
      simp [ticker.logJob, ShutdownHandler.job, ShutdownHandler.Run, hw, hnot]
  | succ j ih =>
    intro ticks t B hticks hst hB0 hBmax hlt
    obtain ⟨ticks, rfl⟩ : ∃ k, ticks = k + 1 := ⟨ticks - 1, by omega⟩
    obtain ⟨⟨h, w⟩, ic, sc, runs, p⟩ := t
    simp only at hst
    subst hst
    have hw : wrapInt64 (B - I) = B - I :=
      wrapInt64_of_range _ (by unfold MinInt64; unfold MaxInt64 at hImax; omega)
        (by unfold MaxInt64 at *; omega)
    have hjI : 0 ≤ (j : Int) * I := mul_nonneg (Int.natCast_nonneg j) (le_of_lt hI)
    have e1 : (((j + 1 : Nat) : Int) + 2) * I = (j : Int) * I + 3 * I := by push_cast; ring
    have e2 : (((j + 1 : Nat) : Int) + 1) * I = (j : Int) * I + 2 * I := by push_cast; ring
    have e3 : ((j : Int) + 2) * I = (j : Int) * I + 2 * I := by ring
    have e4 : ((j : Int) + 1) * I = (j : Int) * I + I := by ring
    rw [e1] at hlt
    rw [e2]
    by_cases hge : B - I ≥ I
    · rcases hrun : nginxMasterRunning deps w with ⟨running, world1⟩
      cases running with
      | false =>
        refine ⟨0, Nat.zero_le _, ?_, ?_⟩
        · rw [ticker.tickLoop]
          cases infoEnabled <;>
            simp [ticker.logJob, ShutdownHandler.job, ShutdownHandler.Run, hw, hge, hrun]
        · intro hall _
          have := (nginxMasterRunning_iff deps w).1.mpr (hall w)
          rw [hrun] at this
          exact absurd this (by simp)
      | true =>
        have hstep : ∃ sc1,
            ticker.tickLoop (ShutdownHandler.job durationText deps) infoEnabled (ticks + 1)
                { state := (⟨I, B⟩, w), intervalCalls := ic, stringCalls := sc, runs := runs,
                  panicked := p }
              = ticker.tickLoop (ShutdownHandler.job durationText deps) infoEnabled ticks
                { state := (⟨I, B - I⟩, world1), intervalCalls := ic, stringCalls := sc1,
                  runs := runs ++ [true], panicked := p } := by
          rw [ticker.tickLoop]
          cases infoEnabled
          · exact ⟨sc, by
              simp [ticker.logJob, ShutdownHandler.job, ShutdownHandler.Run, hw, hge, hrun]⟩
          · exact ⟨sc + 1, by
              simp [ticker.logJob, ShutdownHandler.job, ShutdownHandler.Run, hw, hge, hrun]⟩
        obtain ⟨sc1, hstep⟩ := hstep
        obtain ⟨m, hm, hruns, hexact⟩ := ih ticks
          { state := (⟨I, B - I⟩, world1), intervalCalls := ic, stringCalls := sc1,
            runs := runs ++ [true], panicked := p } (B - I) (by omega) rfl (by omega)
          (by omega) (by rw [e3]; omega)
        refine ⟨m + 1, by omega, ?_, ?_⟩
        · rw [hstep, hruns]
          simp [List.replicate]
        · intro hall hB
          have hB1 : (j : Int) * I + 2 * I ≤ B := by
            rcases hB with h | h
            · omega
            · exact h
          rw [hexact hall (Or.inr (by rw [e4]; omega))]
    · refine ⟨0, Nat.zero_le _, ?_, ?_⟩
      · rw [ticker.tickLoop]
        cases infoEnabled <;>
          simp [ticker.logJob, ShutdownHandler.job, ShutdownHandler.Run, hw, hge]
      · intro _ hB
        rcases hB with h | h
        · omega
        · omega


/-- C29: the shutdown countdown is bounded. For an interval `I > 0` and a budget `T ≥ 0`,
`ticker.Start` on the handler calls `Run` until it returns false, which happens no later
than call number `max(1, T / I)` whatever the process table shows, and exactly at that call
when a master is observed on every call; so the calls made, one per interval, span at most
`max(I, T)`. -/
theorem shutdown_countdown_bounded {W : Type} (durationText : Int → String) (deps : Deps W)
    (infoEnabled : Bool) (I T : Int) (world : W) (ticks : Nat)
    (hI : 0 < I) (hT : 0 ≤ T) (hImax : I ≤ MaxInt64) (hTmax : T ≤ MaxInt64)
    (hticks : max 1 (T / I) ≤ (ticks : Int)) :
    ∃ calls : Nat,
      (ticker.Start (ShutdownHandler.job durationText deps) infoEnabled ticks
          (⟨I, T⟩, world)).runs = List.replicate (calls - 1) true ++ [false] ∧
        1 ≤ calls ∧ (calls : Int) ≤ max 1 (T / I) ∧ (calls : Int) * I ≤ max I T ∧
        ((∀ w, (deps.procpsPgrep w [OptionNginxMaster]).1 ≠ []) →
          (calls : Int) = max 1 (T / I)) := by
  have hdiv0 : 0 ≤ T / I := Int.ediv_nonneg hT (le_of_lt hI)
  have hdivlt : T < (T / I + 1) * I := Int.lt_ediv_add_one_mul_self T hI
  have hdivle : T / I * I ≤ T := Int.ediv_mul_le T (ne_of_gt hI)
  generalize T / I = q at hdiv0 hdivlt hdivle hticks ⊢
  obtain ⟨j, hj⟩ : ∃ j : Nat, (j : Int) + 1 = max 1 q :=
    ⟨(max 1 q - 1).toNat, by rw [Int.toNat_of_nonneg (by omega)]; omega⟩
  have e1 : ((j : Int) + 2) * I = (j : Int) * I + 2 * I := by ring
  have e2 : ((j : Int) + 1) * I = (j : Int) * I + I := by ring
  have e3 : (q + 1) * I = q * I + I := by ring
  have hjI : 0 ≤ (j : Int) * I := mul_nonneg (Int.natCast_nonneg j) (le_of_lt hI)
  have hq : j = 0 ∨ (j : Int) + 1 = q := by omega
  have hlt : T < ((j : Int) + 2) * I := by
    rw [e1]
    rw [e3] at hdivlt
    rcases hq with h | h
    · subst h
      have hq1 : q = 0 ∨ q = 1 := by omega
      rcases hq1 with h0 | h1
      · subst h0; simp at hdivlt ⊢; omega
      · subst h1; simp at hdivlt ⊢; omega
    · rw [← h, e2] at hdivlt
      omega
  have hstart : (ticker.Start (ShutdownHandler.job durationText deps) infoEnabled ticks
      (⟨I, T⟩, world)).runs
      = (ticker.tickLoop (ShutdownHandler.job durationText deps) infoEnabled ticks
          (ticker.logJob (ShutdownHandler.job durationText deps) infoEnabled
            { state := (⟨I, T⟩, world), intervalCalls := 1, stringCalls := 0, runs := [],
              panicked := none })).runs := by
    unfold ticker.Start
    simp only [ShutdownHandler.job]
    rw [if_neg (not_le.mpr hI)]
  have hl := ticker.logJob_fields (ShutdownHandler.job durationText deps) infoEnabled
    { state := ((⟨I, T⟩ : ShutdownHandler), world), intervalCalls := 1, stringCalls := 0,
      runs := [], panicked := none }
  have hstate : (ticker.logJob (ShutdownHandler.job durationText deps) infoEnabled
      { state := ((⟨I, T⟩ : ShutdownHandler), world), intervalCalls := 1, stringCalls := 0,
        runs := [], panicked := none }).state.1 = ⟨I, T⟩ := by
    rw [hl.2.2.2]
    cases infoEnabled <;> rfl
  obtain ⟨m, hm, hruns, hexact⟩ := tickLoop_countdown durationText deps infoEnabled I hI hImax
    j ticks _ T (by omega) hstate hT hTmax hlt
  rw [hl.2.1, List.nil_append] at hruns
  refine ⟨m + 1, ?_, by omega, by omega, ?_, ?_⟩
  · rw [hstart, hruns]
    rfl
  · have hmI : (m : Int) * I ≤ (j : Int) * I :=
      mul_le_mul_of_nonneg_right (by exact_mod_cast hm) (le_of_lt hI)
    have e4 : (((m + 1 : Nat) : Int)) * I = (m : Int) * I + I := by push_cast; ring
    rw [e4]
    rcases hq with h | h
    · subst h
      simp only [Nat.cast_zero, zero_mul] at hmI
      have := le_max_left I T
      omega
    · have := le_max_right I T
      rw [← h, e2] at hdivle
      omega
  · intro hall
    have hmj := hexact hall (by
      rcases hq with h | h
      · exact Or.inl h
      · right
        rw [h]
        exact hdivle)
    push_cast
    omega

theorem shutdown_countdown_bounded_witness :
    (∃ calls : Nat,
      (ticker.Start (ShutdownHandler.job (fun _ => "") (countdownDeps 9)) true 5
          (⟨3, 10⟩, 0)).runs = List.replicate (calls - 1) true ++ [false] ∧
        1 ≤ calls ∧ (calls : Int) ≤ max 1 (10 / 3) ∧ (calls : Int) * 3 ≤ max 3 10 ∧
        ((∀ w, ((countdownDeps 9).procpsPgrep w [OptionNginxMaster]).1 ≠ []) →
          (calls : Int) = max 1 (10 / 3))) ∧
      (ticker.Start (ShutdownHandler.job (fun _ => "") (countdownDeps 9)) true 5
          (⟨3, 10⟩, 0)).runs = [true, true, false] ∧
      (ticker.Start (ShutdownHandler.job (fun _ => "") (countdownDeps 1)) true 5
          (⟨3, 10⟩, 0)).runs = [true, false] :=
  ⟨shutdown_countdown_bounded (fun _ => "") (countdownDeps 9) true 3 10 0 5 (by decide)
      (by decide) (by decide) (by decide) (by decide),
    by decide, by decide⟩


/-- C25: a threshold of `0` disables the memory signal. No snapshot has an available
percentage below `0`, so for a reaper with `availableMemoryPercent = 0`, every backlog `n`
and whatever snapshot the memory read returns, `shouldTerminate(pid, n)` is `n >
maxShutdownWorkers`. -/
theorem shouldTerminate_memory_disabled {W : Type} (r : Reaper) (deps : Deps W) (world : W)
    (pid n : Int) (hT : r.availableMemoryPercent = 0) :
    (∀ m : MemoryInfo, ¬ m.AvailableMemoryPercent < r.availableMemoryPercent) ∧
      (r.shouldTerminate deps world pid n).1 = decide (n > r.maxShutdownWorkers) := by
  refine ⟨?_, shouldTerminate_threshold_zero r deps world pid n hT⟩
  intro m
  rw [hT]
  exact not_lt.mpr (availableMemoryPercent_nonneg m)

theorem shouldTerminate_memory_disabled_witness :
    ((Reaper.mk 1 255 0).shouldTerminate (sampleDeps none) ⟨1000, 0⟩ 1 255).1 = false ∧
      ((Reaper.mk 1 255 0).shouldTerminate (sampleDeps none) ⟨1000, 0⟩ 1 256).1 = true :=
  ⟨((shouldTerminate_memory_disabled (Reaper.mk 1 255 0) (sampleDeps none) ⟨1000, 0⟩ 1 255
      rfl).2).trans (by decide),
    ((shouldTerminate_memory_disabled (Reaper.mk 1 255 0) (sampleDeps none) ⟨1000, 0⟩ 1 256
      rfl).2).trans (by decide)⟩

/-- C26: a failed system-memory read yields the neutral decision. When `ReadSystemMemory`
returns an error, `NewMemoryInfo` returns the zero snapshot, whose available percentage is
`100`; so with that snapshot, a threshold of at most `100` and a backlog `n` of at most
`maxShutdownWorkers`, `shouldTerminate(pid, n)` is false. -/
theorem shouldTerminate_system_read_failed {W : Type} (u : UnicodeTrim) (sys : Sys)
    (r : Reaper) (deps : Deps W) (world : W) (pid n : Int)
    (hfail : (ReadSystemMemory sys).1.2.2 ≠ none)
    (hdeps : (deps.procpsNewMemoryInfo world pid).1 = (NewMemoryInfo u sys pid).1)
    (hT : r.availableMemoryPercent ≤ 100) (hn : n ≤ r.maxShutdownWorkers) :
    (NewMemoryInfo u sys pid).1 = { Total := 0, Available := 0 } ∧
      (NewMemoryInfo u sys pid).1.AvailableMemoryPercent = 100 ∧
      (r.shouldTerminate deps world pid n).1 = false := by
  have hzero : (NewMemoryInfo u sys pid).1 = { Total := 0, Available := 0 } := by
    unfold NewMemoryInfo
    rcases readSystemMemory_cases sys with ⟨err, h⟩ | ⟨t, a, h⟩
    · rw [h]
    · rw [h] at hfail
      exact absurd rfl hfail
  have hpct : (NewMemoryInfo u sys pid).1.AvailableMemoryPercent = 100 := by
    rw [hzero]
    rfl
  refine ⟨hzero, hpct, ?_⟩
  unfold Reaper.shouldTerminate
  rw [if_neg (not_lt.mpr hn)]
  simp only
  rw [hdeps, hpct, if_neg (not_lt.mpr hT)]

theorem shouldTerminate_system_read_failed_witness :
    (NewMemoryInfo sampleTrim
        (sampleSys (Except.error "no meminfo") (some [49, 48, 48, 10]) (some [53, 48, 10]))
        1).1 = { Total := 0, Available := 0 } ∧
      (NewMemoryInfo sampleTrim
        (sampleSys (Except.error "no meminfo") (some [49, 48, 48, 10]) (some [53, 48, 10]))
        1).1.AvailableMemoryPercent = 100 ∧
      ((Reaper.mk 1 255 100).shouldTerminate (sampleDeps none) ⟨0, 0⟩ 1 255).1 = false :=
  shouldTerminate_system_read_failed sampleTrim
    (sampleSys (Except.error "no meminfo") (some [49, 48, 48, 10]) (some [53, 48, 10]))
    (Reaper.mk 1 255 100) (sampleDeps none) ⟨0, 0⟩ 1 255 (by decide) (by decide) (by decide)
    (by decide)

/-- The inner loop of `Run` entered past index `0` terminates workers `i`, `i + 1`, ... of
the slice as it stands, and does not sort. -/
theorem terminateLoop_calls_from {W : Type} (r : Reaper) (deps : Deps W) (pid : Int)
    (l : Nat) :
    ∀ (n i : Nat) (ws : List Process) (s : RunState W), l - i = n → ws.length = l → 1 ≤ i →
      ∃ k, k ≤ l - i ∧
        (r.terminateLoop deps pid l i ws s).terminateCalls
          = s.terminateCalls ++ (ws.drop i).take k ∧
        (r.terminateLoop deps pid l i ws s).sorts = s.sorts := by
  intro n
  induction n with
  | zero =>
    intro i ws s hn _ _
    rw [Reaper.terminateLoop]
    have hi : ¬ i < l := by omega
    rw [if_neg hi]
    exact ⟨0, by omega, by simp, rfl⟩
  | succ n ih =>
    intro i ws s hn hlen hi1
    rw [Reaper.terminateLoop]
    have hi : i < l := by omega
    rw [if_pos hi]
    have hi0 : i ≠ 0 := by omega
    rcases r.shouldTerminate deps s.world pid ((l : Int) - (i : Int)) with ⟨b, world1⟩
    cases b with
    | false => exact ⟨0, by omega, by simp, rfl⟩
    | true =>
      simp only [if_neg hi0]
      have hget : ws[i]? = some ws[i] := List.getElem?_eq_getElem (by omega)
      rw [hget]
      simp only
      have hdrop : ws.drop i = ws[i] :: ws.drop (i + 1) :=
        List.drop_eq_getElem_cons (by omega)
      rcases deps.procpsTerminate world1 ws[i] with ⟨err, world2⟩
      cases err with
      | none =>
        simp only
        obtain ⟨k, hk, hcalls, hsorts⟩ := ih (i + 1) ws
          { world := world2
            metrics := { s.metrics with terminated := s.metrics.terminated + 1 }
            terminateCalls := s.terminateCalls ++ [ws[i]]
            terminateErrors := s.terminateErrors ++ [none]
            sleeps := s.sleeps + 1
            sorts := s.sorts } (by omega) hlen (by omega)
        refine ⟨k + 1, by omega, ?_, hsorts⟩
        rw [hcalls, hdrop]
        simp only [List.take_succ_cons, List.append_assoc, List.singleton_append]
      | some e =>
        simp only
        obtain ⟨k, hk, hcalls, hsorts⟩ := ih (i + 1) ws
          { world := world2
            metrics := { s.metrics with error := s.metrics.error + 1 }
            terminateCalls := s.terminateCalls ++ [ws[i]]
            terminateErrors := s.terminateErrors ++ [some e]
            sleeps := s.sleeps
            sorts := s.sorts } (by omega) hlen (by omega)
        refine ⟨k + 1, by omega, ?_, hsorts⟩
        rw [hcalls, hdrop]
        simp only [List.take_succ_cons, List.append_assoc, List.singleton_append]


/-- The inner loop of `Run` entered at index `0`: the workers handed to `procpsTerminate`
are the first `k` of the slice sorted by creation time, and the slice is sorted once if
`k > 0` and not at all if `k = 0`. -/
theorem terminateLoop_calls_sorted {W : Type} (r : Reaper) (deps : Deps W) (pid : Int)
    (ws : List Process) (s : RunState W) :
    ∃ k, k ≤ ws.length ∧
      (r.terminateLoop deps pid ws.length 0 ws s).terminateCalls
        = s.terminateCalls ++ (SortByCreateTime deps.sortSlice ws).take k ∧
      (k = 0 → (r.terminateLoop deps pid ws.length 0 ws s).sorts = s.sorts) ∧
      (0 < k → (r.terminateLoop deps pid ws.length 0 ws s).sorts = s.sorts + 1) := by
  rw [Reaper.terminateLoop]
  by_cases hl : 0 < ws.length
  · rw [if_pos hl]
    rcases r.shouldTerminate deps s.world pid ((ws.length : Int) - ((0 : Nat) : Int))
      with ⟨b, world1⟩
    cases b with
    | false => exact ⟨0, Nat.zero_le _, by simp, fun _ => rfl, fun h => absurd h (by omega)⟩
    | true =>
      simp only [if_true]
      have hsl : (SortByCreateTime deps.sortSlice ws).length = ws.length := by
        rw [SortByCreateTime, (deps.sortSlice.perm _ ws).length_eq]
      have hget : (SortByCreateTime deps.sortSlice ws)[0]?
          = some (SortByCreateTime deps.sortSlice ws)[0] :=
        List.getElem?_eq_getElem (by omega)
      rw [hget]
      simp only
      have hlist : ∀ (xs : List Process) (h : 0 < xs.length) (k : Nat),
          xs[0] :: (xs.drop 1).take k = xs.take (k + 1) := by
        intro xs h k
        cases xs with
        | nil => simp at h
        | cons x rest => simp
      rcases deps.procpsTerminate world1 (SortByCreateTime deps.sortSlice ws)[0]
        with ⟨err, world2⟩
      cases err with
      | none =>
        simp only
        obtain ⟨k, hk, hcalls, hsorts⟩ := terminateLoop_calls_from r deps pid ws.length
          (ws.length - (0 + 1)) (0 + 1) (SortByCreateTime deps.sortSlice ws)
          { world := world2
            metrics := { s.metrics with terminated := s.metrics.terminated + 1 }
            terminateCalls := s.terminateCalls ++ [(SortByCreateTime deps.sortSlice ws)[0]]
            terminateErrors := s.terminateErrors ++ [none]
            sleeps := s.sleeps + 1
            sorts := s.sorts + 1 } rfl hsl (by omega)
        refine ⟨k + 1, by omega, ?_, fun h => absurd h (by omega), fun _ => hsorts⟩
        rw [hcalls]
        simp only [List.append_assoc, List.singleton_append, Nat.zero_add]
        rw [← hlist (SortByCreateTime deps.sortSlice ws) (by omega) k]
      | some e =>
        simp only
        obtain ⟨k, hk, hcalls, hsorts⟩ := terminateLoop_calls_from r deps pid ws.length
          (ws.length - (0 + 1)) (0 + 1) (SortByCreateTime deps.sortSlice ws)
          { world := world2
            metrics := { s.metrics with error := s.metrics.error + 1 }
            terminateCalls := s.terminateCalls ++ [(SortByCreateTime deps.sortSlice ws)[0]]
            terminateErrors := s.terminateErrors ++ [some e]
            sleeps := s.sleeps
            sorts := s.sorts + 1 } rfl hsl (by omega)
        refine ⟨k + 1, by omega, ?_, fun h => absurd h (by omega), fun _ => hsorts⟩
        rw [hcalls]
        simp only [List.append_assoc, List.singleton_append, Nat.zero_add]
        rw [← hlist (SortByCreateTime deps.sortSlice ws) (by omega) k]
  · rw [if_neg hl]
    exact ⟨0, Nat.zero_le _, by simp, fun _ => rfl, fun h => absurd h (by omega)⟩

/-- C28: in one pass of `Run` over a master, the workers passed to `procpsTerminate` are, in
order, the first `k` elements of the shutting-down list after `SortByCreateTime`, for some
`k` at most the number of shutting-down workers; no worker of the list is passed twice; and
`SortByCreateTime` is called once when `k > 0` and not at all when `k = 0`. -/
theorem runMaster_terminates_oldest_first {W : Type} (r : Reaper) (deps : Deps W)
    (s : RunState W) (master : Process) :
    ∃ k, k ≤ (deps.procpsFilter
            (deps.procpsPgrep s.world [OptionNginxWorker, option.Parent master.Pid]).2
            (deps.procpsPgrep s.world [OptionNginxWorker, option.Parent master.Pid]).1
            [OptionNginxWorkerShutdown]).1.length ∧
      (r.runMaster deps s master).terminateCalls
        = s.terminateCalls
          ++ (SortByCreateTime deps.sortSlice
              (deps.procpsFilter
                (deps.procpsPgrep s.world [OptionNginxWorker, option.Parent master.Pid]).2
                (deps.procpsPgrep s.world [OptionNginxWorker, option.Parent master.Pid]).1
                [OptionNginxWorkerShutdown]).1).take k ∧
      ((deps.procpsFilter
            (deps.procpsPgrep s.world [OptionNginxWorker, option.Parent master.Pid]).2
            (deps.procpsPgrep s.world [OptionNginxWorker, option.Parent master.Pid]).1
            [OptionNginxWorkerShutdown]).1.Nodup →
        ((SortByCreateTime deps.sortSlice
              (deps.procpsFilter
                (deps.procpsPgrep s.world [OptionNginxWorker, option.Parent master.Pid]).2
                (deps.procpsPgrep s.world [OptionNginxWorker, option.Parent master.Pid]).1
                [OptionNginxWorkerShutdown]).1).take k).Nodup) ∧
      (k = 0 → (r.runMaster deps s master).sorts = s.sorts) ∧
      (0 < k → (r.runMaster deps s master).sorts = s.sorts + 1) := by
  unfold Reaper.runMaster
  obtain ⟨k, hk, hcalls, h0, h1⟩ := terminateLoop_calls_sorted r deps master.Pid
    (deps.procpsFilter
      (deps.procpsPgrep s.world [OptionNginxWorker, option.Parent master.Pid]).2
      (deps.procpsPgrep s.world [OptionNginxWorker, option.Parent master.Pid]).1
      [OptionNginxWorkerShutdown]).1
    { s with
      world := (deps.procpsFilter
        (deps.procpsPgrep s.world [OptionNginxWorker, option.Parent master.Pid]).2
        (deps.procpsPgrep s.world [OptionNginxWorker, option.Parent master.Pid]).1
        [OptionNginxWorkerShutdown]).2
      metrics :=
        { s.metrics with
          active :=
            ((deps.procpsPgrep s.world
              [OptionNginxWorker, option.Parent master.Pid]).1.length : Int)
            - ((deps.procpsFilter
                (deps.procpsPgrep s.world [OptionNginxWorker, option.Parent master.Pid]).2
                (deps.procpsPgrep s.world [OptionNginxWorker, option.Parent master.Pid]).1
                [OptionNginxWorkerShutdown]).1.length : Int)
          shutdown := ((deps.procpsFilter
            (deps.procpsPgrep s.world [OptionNginxWorker, option.Parent master.Pid]).2
            (deps.procpsPgrep s.world [OptionNginxWorker, option.Parent master.Pid]).1
            [OptionNginxWorkerShutdown]).1.length : Int) } }
  refine ⟨k, hk, hcalls, ?_, h0, h1⟩
  intro hnd
  have hperm := deps.sortSlice.perm
    (fun pi pj =>
      match pi.createTime, pj.createTime with
      | some cti, some ctj => decide (cti < ctj)
      | _, _ => false)
    (deps.procpsFilter
      (deps.procpsPgrep s.world [OptionNginxWorker, option.Parent master.Pid]).2
      (deps.procpsPgrep s.world [OptionNginxWorker, option.Parent master.Pid]).1
      [OptionNginxWorkerShutdown]).1
  exact (hperm.nodup_iff.mpr hnd).sublist (List.take_sublist _ _)


theorem runMaster_terminates_oldest_first_witness :
    (∃ k, k ≤ sampleShutdown.length ∧
        ((Reaper.mk 1 1 0).runMaster (sampleDeps none) (sampleState ⟨0, 0⟩)
            sampleMaster).terminateCalls
          = (SortByCreateTime insertionSortSlice sampleShutdown).take k ∧
        ((SortByCreateTime insertionSortSlice sampleShutdown).take k).Nodup ∧
        (0 < k →
          ((Reaper.mk 1 1 0).runMaster (sampleDeps none) (sampleState ⟨0, 0⟩)
            sampleMaster).sorts = 1)) ∧
      ((Reaper.mk 1 1 0).runMaster (sampleDeps none) (sampleState ⟨0, 0⟩)
          sampleMaster).terminateCalls.length = 2 ∧
      (SortByCreateTime insertionSortSlice sampleShutdown).map (fun p => p.Pid)
        = [10, 11, 12] :=
  ⟨(runMaster_terminates_oldest_first (Reaper.mk 1 1 0) (sampleDeps none)
      (sampleState ⟨0, 0⟩) sampleMaster).imp
      (fun _ h => ⟨h.1, h.2.1, h.2.2.1 (by decide), h.2.2.2.2⟩),
    (terminateLoop_calls_threshold_zero (Reaper.mk 1 1 0) (sampleDeps none) 1 3 rfl
      (by decide) 3 0 sampleShutdown _ rfl rfl).trans (by decide),
    by decide⟩

end reaper

namespace log

/-- The keys of the map `names`. -/
theorem names_lookup (name : String) :
    (name ∈ ["panic", "error", "warning", "info", "debug"] →
        ∃ l, names.lookup name = some l ∧ l ≤ DebugLevel) ∧
      (name ∉ ["panic", "error", "warning", "info", "debug"] → names.lookup name = none) := by
  constructor
  · intro h
    simp only [List.mem_cons, List.mem_singleton, List.not_mem_nil, or_false] at h
    rcases h with rfl | rfl | rfl | rfl | rfl
    · exact ⟨0, by decide, by decide⟩
    · exact ⟨1, by decide, by decide⟩
    · exact ⟨2, by decide, by decide⟩
    · exact ⟨3, by decide, by decide⟩
    · exact ⟨4, by decide, by decide⟩
  · intro h
    simp only [List.mem_cons, List.mem_singleton, List.not_mem_nil, or_false, not_or] at h
    obtain ⟨h1, h2, h3, h4, h5⟩ := h
    have e1 : (name == "panic") = false := beq_eq_false_iff_ne.mpr h1
    have e2 : (name == "error") = false := beq_eq_false_iff_ne.mpr h2
    have e3 : (name == "warning") = false := beq_eq_false_iff_ne.mpr h3
    have e4 : (name == "info") = false := beq_eq_false_iff_ne.mpr h4
    have e5 : (name == "debug") = false := beq_eq_false_iff_ne.mpr h5
    simp only [names, List.lookup, e1, e2, e3, e4, e5]

/-- On ASCII text `strings.ToLower` is the byte-wise lower-casing of `A` to `Z`. -/
theorem ToLower_ascii (table : Char → Char) (s : String)
    (h : ∀ c ∈ s.data, c.toNat < 128) :
    ToLower table s = String.mk (s.data.map asciiLower) := by
  unfold ToLower
  have hall : s.data.all (fun c => decide (c.toNat < 128)) = true := by
    rw [List.all_eq_true]
    intro c hc
    exact decide_eq_true (h c hc)
  rw [if_pos hall]
  split
  · rfl
  · rename_i hup
    have hid : s.data.map asciiLower = s.data := by
      conv_rhs => rw [← List.map_id s.data]
      apply List.map_congr_left
      intro c hc
      unfold asciiLower
      rw [if_neg]
      · rfl
      · intro hcu
        apply hup
        rw [List.any_eq_true]
        exact ⟨c, hc, decide_eq_true hcu⟩
    rw [hid]

end log

namespace server

/-- C27: on the path `/config`, a `PUT` request is answered `204` if and only if the
`log-level` query value, lower-cased by `strings.ToLower`, is one of `panic`, `error`,
`warning`, `info`, `debug`, and then the log level is set to the level of that name;
otherwise it is answered `400` with an empty body and the log level stays as it was; a
request with any other method is answered `405`. On ASCII text the lower-casing is that of
the letters `A` to `Z`. -/
theorem configHandler_spec (table : Char → Char) (level : Nat) (r : Request)
    (hpath : r.Path = configPath) :
    (r.Method = MethodPut →
        ((configHandler table level ⟨none, []⟩ r).1.status = some StatusNoContent
          ↔ log.ToLower table (queryGet r.Query keyLogLevel)
            ∈ ["panic", "error", "warning", "info", "debug"]) ∧
        (∀ l, log.names.lookup (log.ToLower table (queryGet r.Query keyLogLevel)) = some l →
          configHandler table level ⟨none, []⟩ r = (⟨some StatusNoContent, []⟩, l)) ∧
        (log.ToLower table (queryGet r.Query keyLogLevel)
            ∉ ["panic", "error", "warning", "info", "debug"] →
          configHandler table level ⟨none, []⟩ r = (⟨some StatusBadRequest, []⟩, level))) ∧
      (r.Method ≠ MethodPut →
        configHandler table level ⟨none, []⟩ r = (⟨some StatusMethodNotAllowed, []⟩, level)) ∧
      ((∀ c ∈ (queryGet r.Query keyLogLevel).data, c.toNat < 128) →
        log.ToLower table (queryGet r.Query keyLogLevel)
          = String.mk ((queryGet r.Query keyLogLevel).data.map log.asciiLower)) := by
  have hok : ∀ l, log.names.lookup (log.ToLower table (queryGet r.Query keyLogLevel)) = some l →
      r.Method = MethodPut →
      configHandler table level ⟨none, []⟩ r = (⟨some StatusNoContent, []⟩, l) := by
    intro l hl hput
    have hmem : log.ToLower table (queryGet r.Query keyLogLevel)
        ∈ ["panic", "error", "warning", "info", "debug"] := by
      by_contra hn
      rw [(log.names_lookup _).2 hn] at hl
      exact Option.noConfusion hl
    obtain ⟨l1, hl1, hle⟩ := (log.names_lookup _).1 hmem
    rw [hl] at hl1
    obtain rfl : l = l1 := Option.some.inj hl1
    have hset : log.SetLevel l = l := by
      unfold log.SetLevel
      rw [if_neg (not_lt.mpr hle)]
    unfold configHandler
    rw [if_neg (not_not.mpr hpath), if_neg (not_not.mpr hput)]
    simp only [setLogLevel, log.ParseLevel, hl, hset]
    rfl
  have hbad : log.ToLower table (queryGet r.Query keyLogLevel)
        ∉ ["panic", "error", "warning", "info", "debug"] →
      r.Method = MethodPut →
      configHandler table level ⟨none, []⟩ r = (⟨some StatusBadRequest, []⟩, level) := by
    intro hn hput
    unfold configHandler
    rw [if_neg (not_not.mpr hpath), if_neg (not_not.mpr hput)]
    simp only [setLogLevel, log.ParseLevel, (log.names_lookup _).2 hn]
    rfl
  refine ⟨fun hput => ⟨?_, fun l hl => hok l hl hput, fun hn => hbad hn hput⟩, ?_, ?_⟩
  · constructor
    · intro hst
      by_contra hn
      rw [hbad hn hput] at hst
      simp [StatusBadRequest, StatusNoContent] at hst
    · intro hmem
      obtain ⟨l, hl, _⟩ := (log.names_lookup _).1 hmem
      rw [hok l hl hput]
  · intro hput
    unfold configHandler
    rw [if_neg (not_not.mpr hpath), if_pos hput]
    rfl
  · exact log.ToLower_ascii table _

theorem configHandler_spec_witness :
    configHandler sampleTable 3 ⟨none, []⟩ ⟨"PUT", "/config", [("log-level", "DeBuG")]⟩
        = (⟨some 204, []⟩, 4) ∧
      configHandler sampleTable 3 ⟨none, []⟩ ⟨"PUT", "/config", [("log-level", "trace")]⟩
        = (⟨some 400, []⟩, 3) ∧
      configHandler sampleTable 3 ⟨none, []⟩ ⟨"PUT", "/config", []⟩ = (⟨some 400, []⟩, 3) ∧
      configHandler sampleTable 3 ⟨none, []⟩ ⟨"GET", "/config", [("log-level", "debug")]⟩
        = (⟨some 405, []⟩, 3) :=
  ⟨((configHandler_spec sampleTable 3 ⟨"PUT", "/config", [("log-level", "DeBuG")]⟩ rfl).1
      rfl).2.1 4 (by decide),
    ((configHandler_spec sampleTable 3 ⟨"PUT", "/config", [("log-level", "trace")]⟩ rfl).1
      rfl).2.2 (by decide),
    ((configHandler_spec sampleTable 3 ⟨"PUT", "/config", []⟩ rfl).1 rfl).2.2 (by decide),
    (configHandler_spec sampleTable 3 ⟨"GET", "/config", [("log-level", "debug")]⟩ rfl).2.1
      (by decide)⟩

end server

namespace memoryEvents

/-- C24 (the code at the failing input): an 8-byte read whose bytes all have the high bit
set is one `binary.Uvarint` cannot decode. The loop sends the error and then, without
leaving, adds `0` to the total and emits an event for that read, and goes on to the next
read; a read error and a short read end the loop with no event. -/
theorem v1EventLoop_undecodable_goes_on :
    (Uvarint [128, 128, 128, 128, 128, 128, 128, 128]).2 ≤ 0 ∧
      v1EventLoop
          [⟨8, none, [128, 128, 128, 128, 128, 128, 128, 128]⟩,
            ⟨8, none, [1, 0, 0, 0, 0, 0, 0, 0]⟩]
          v1EventStart
        = { OOMKill := 1, events := [0, 1], errors := ["invalid eventfd value"],
            ended := false } ∧
      v1EventLoop
          [⟨-1, some "interrupted system call", [0, 0, 0, 0, 0, 0, 0, 0]⟩,
            ⟨8, none, [1, 0, 0, 0, 0, 0, 0, 0]⟩]
          v1EventStart
        = { OOMKill := 0, events := [], errors := ["interrupted system call"],
            ended := true } ∧
      v1EventLoop
          [⟨4, none, [1, 0, 0, 0, 0, 0, 0, 0]⟩, ⟨8, none, [1, 0, 0, 0, 0, 0, 0, 0]⟩]
          v1EventStart
        = { OOMKill := 0, events := [], errors := ["invalid argument"], ended := true } := by
  decide

/-- C30 (the code at the failing input): the eight bytes `80 00 00 00 00 00 00 00` carry
the counter value `128`, and `binary.Uvarint` decodes them to `0`: after a read of the
counter `5` the event emitted for them carries the total `5`, not `133`. -/
theorem v1EventLoop_delta_is_varint :
    littleEndianUint64 [5, 0, 0, 0, 0, 0, 0, 0] = 5 ∧
      littleEndianUint64 [128, 0, 0, 0, 0, 0, 0, 0] = 128 ∧
      Uvarint [128, 0, 0, 0, 0, 0, 0, 0] = (0, 2) ∧
      v1EventLoop
          [⟨8, none, [5, 0, 0, 0, 0, 0, 0, 0]⟩, ⟨8, none, [128, 0, 0, 0, 0, 0, 0, 0]⟩]
          v1EventStart
        = { OOMKill := 5, events := [5, 5], errors := [], ended := false } := by
  decide

end memoryEvents

end NginxReaper
